import Mathlib

/-!
# gowc: the counting engine of `main.go`

A shallow embedding of `wc`, `countWithSplitFunc` and `countRunesAndLonestLine`
from `src/main.go`, together with the parts of the Go standard library they
run on (`unicode/utf8` decoding, the four `bufio` split functions and the
`bufio.Scanner` loop), and of the command line of `main`: `manuallyParseArgs`,
`resetFlags`, `display` and the totals of the file loop, with `flag.Parse` and
`fmt.Printf("%8d")`.

Conventions.

* A byte is a `Nat`; real inputs only hold values below 256.  Values of 256
  and more are treated like the invalid lead bytes `0xF5..0xFF`.
* Go `int` counters are `Nat`: every counter is bounded by the number of bytes
  of the stream, so 64-bit overflow is out of reach.
* The reader handed to `wc` is the finite byte sequence it delivers before
  end of file.
-/

namespace Gowc

/-! ## The result record -/

/-- The `count` struct of `main.go`. -/
structure count where
  bytes : Nat
  lines : Nat
  chars : Nat
  words : Nat
  longest : Nat
  deriving DecidableEq, Repr

/-! ## unicode/utf8 -/

/-- The constant `utf8.RuneError` (U+FFFD). -/
def RuneError : Nat := 0xFFFD

/-- The table `first` of `unicode/utf8`: information about the first byte of
an encoding.  `0xF0` marks ASCII, `0xF1` an invalid lead byte; otherwise the
low three bits give the size and the high four bits index `acceptRanges`. -/
def first (b : Nat) : Nat :=
  if b < 0x80 then 0xF0
  else if b < 0xC2 then 0xF1
  else if b < 0xE0 then 0x02
  else if b = 0xE0 then 0x13
  else if b < 0xED then 0x03
  else if b = 0xED then 0x23
  else if b < 0xF0 then 0x03
  else if b = 0xF0 then 0x34
  else if b < 0xF4 then 0x04
  else if b = 0xF4 then 0x44
  else 0xF1

/-- The table `acceptRanges` of `unicode/utf8`: the range allowed for the
second byte of an encoding. -/
def acceptRanges (i : Nat) : Nat × Nat :=
  match i with
  | 0 => (0x80, 0xBF)
  | 1 => (0xA0, 0xBF)
  | 2 => (0x80, 0x9F)
  | 3 => (0x90, 0xBF)
  | 4 => (0x80, 0x8F)
  | _ => (0, 0)

/-- `utf8.DecodeRune`: the first code point of `p` and its width in bytes.
An invalid or incomplete encoding gives `(RuneError, 1)`, the empty slice
`(RuneError, 0)`.  The masks and shifts of the Go code select disjoint bit
fields, written here with `%` and `*`. -/
def DecodeRune (p : List Nat) : Nat × Nat :=
  match p with
  | [] => (RuneError, 0)
  | p0 :: t =>
    let x := first p0
    if 0xF0 ≤ x then
      (if x = 0xF0 then p0 else RuneError, 1)
    else
      let sz := x % 8
      let accept := acceptRanges (x / 16)
      if p.length < sz then (RuneError, 1)
      else
        match t with
        | [] => (RuneError, 1)
        | b1 :: t1 =>
          if b1 < accept.1 ∨ accept.2 < b1 then (RuneError, 1)
          else if sz ≤ 2 then ((p0 % 32) * 64 + b1 % 64, 2)
          else
            match t1 with
            | [] => (RuneError, 1)
            | b2 :: t2 =>
              if b2 < 0x80 ∨ 0xBF < b2 then (RuneError, 1)
              else if sz ≤ 3 then ((p0 % 16) * 4096 + (b1 % 64) * 64 + b2 % 64, 3)
              else
                match t2 with
                | [] => (RuneError, 1)
                | b3 :: _ =>
                  if b3 < 0x80 ∨ 0xBF < b3 then (RuneError, 1)
                  else ((p0 % 8) * 262144 + (b1 % 64) * 4096 + (b2 % 64) * 64 + b3 % 64, 4)

/-- `utf8.FullRune`: whether `p` begins with a full encoding of a rune; an
invalid encoding counts as a full rune of width one. -/
def FullRune (p : List Nat) : Bool :=
  match p with
  | [] => false
  | p0 :: t =>
    let x := first p0
    if x % 8 ≤ p.length then true
    else
      let accept := acceptRanges (x / 16)
      match t with
      | [] => false
      | b1 :: t1 =>
        if b1 < accept.1 ∨ accept.2 < b1 then true
        else
          match t1 with
          | [] => false
          | b2 :: _ => if b2 < 0x80 ∨ 0xBF < b2 then true else false

/-! ## bufio split functions -/

/-- A `bufio.SplitFunc` that reports no error: the number of bytes to advance
and the token, `none` for a nil token. -/
abbrev SplitFunc := List Nat → Bool → Nat × Option (List Nat)

/-- `bufio.isSpace`: the Unicode white space code points. -/
def isSpace (r : Nat) : Bool :=
  if r ≤ 0xFF then
    r = 0x20 ∨ r = 0x09 ∨ r = 0x0A ∨ r = 0x0B ∨ r = 0x0C ∨ r = 0x0D ∨ r = 0x85 ∨ r = 0xA0
  else if 0x2000 ≤ r ∧ r ≤ 0x200A then true
  else
    r = 0x1680 ∨ r = 0x2028 ∨ r = 0x2029 ∨ r = 0x202F ∨ r = 0x205F ∨ r = 0x3000

/-- `bufio.ScanBytes`: each byte is a token.  The scanner calls a split
function on empty data only at end of file. -/
def ScanBytes : SplitFunc := fun data atEOF =>
  match data with
  | [] => (0, none)
  | b :: _ => if atEOF && data.isEmpty then (0, none) else (1, some [b])

/-- `bytes.IndexByte`: the index of the first `c` in `data`, if any. -/
def IndexByte : List Nat → Nat → Option Nat
  | [], _ => none
  | b :: t, c => if b = c then some 0 else (IndexByte t c).map (· + 1)

/-- `bufio.dropCR`: drops a terminal carriage return. -/
def dropCR (data : List Nat) : List Nat :=
  if data.getLast? = some 0x0D then data.dropLast else data

/-- `bufio.ScanLines`: each line is a token, stripped of its end-of-line
marker (`\n`, optionally preceded by `\r`); the last non-empty line is
returned even without a newline. -/
def ScanLines : SplitFunc := fun data atEOF =>
  if atEOF && data.isEmpty then (0, none)
  else
    match IndexByte data 0x0A with
    | some i => (i + 1, some (dropCR (data.take i)))
    | none => if atEOF then (data.length, some (dropCR data)) else (0, none)

/-- The first loop of `bufio.ScanWords`: the number of bytes taken by the
leading white space runes of `data`.  The fuel bounds the iterations; the
length of `data` is always enough. -/
def skipSpaces : Nat → List Nat → Nat
  | 0, _ => 0
  | fuel + 1, data =>
    if data.isEmpty then 0
    else
      let rw := DecodeRune data
      if isSpace rw.1 then rw.2 + skipSpaces fuel (data.drop rw.2) else 0

/-- The second loop of `bufio.ScanWords`: the offset `i` and width of the first
white space rune of `data`, `none` when the loop runs off the end. -/
def wordEnd : Nat → List Nat → Option (Nat × Nat)
  | 0, _ => none
  | fuel + 1, data =>
    if data.isEmpty then none
    else
      let rw := DecodeRune data
      if isSpace rw.1 then some (0, rw.2)
      else (wordEnd fuel (data.drop rw.2)).map (fun iw => (rw.2 + iw.1, iw.2))

/-- `bufio.ScanWords`: each space-separated word is a token, surrounding
spaces deleted; it never returns an empty token. -/
def ScanWords : SplitFunc := fun data atEOF =>
  let start := skipSpaces data.length data
  match wordEnd data.length (data.drop start) with
  | some iw => (start + iw.1 + iw.2, some ((data.drop start).take iw.1))
  | none =>
    if atEOF && start < data.length then (data.length, some (data.drop start))
    else (start, none)

/-- The UTF-8 encoding of `utf8.RuneError`. -/
def errorRune : List Nat := [0xEF, 0xBF, 0xBD]

/-- `bufio.ScanRunes`: each UTF-8-encoded rune is a token; an invalid byte
advances by one and yields the encoding of U+FFFD. -/
def ScanRunes : SplitFunc := fun data atEOF =>
  match data with
  | [] => (0, none)
  | d0 :: _ =>
    if d0 < 0x80 then (1, some [d0])
    else
      let width := (DecodeRune data).2
      if 1 < width then (width, some (data.take width))
      else if !atEOF && !FullRune data then (0, none)
      else (1, some errorRune)

/-! ## bufio.Scanner -/

/-- The constant `bufio.MaxScanTokenSize`: the largest size the scanner's
buffer grows to. -/
def maxScanTokenSize : Nat := 64 * 1024

/-- What a scanner has done by the time `Scan` returns false. -/
structure Scanned where
  /-- The tokens returned by the successive calls of `Scan`. -/
  tokens : List (List Nat)
  /-- Whether `Err` is `bufio.ErrTooLong`. -/
  tooLong : Bool
  /-- The number of bytes of the stream the scanner never read. -/
  unread : Nat
  deriving DecidableEq, Repr

/-- Adds a token in front of the tokens of a scan. -/
def Scanned.push (token : List Nat) (r : Scanned) : Scanned :=
  { r with tokens := token :: r.tokens }

/-- The calls of `Scanner.Scan` until it returns false, on the unconsumed
stream `rest`.

Before end of file the split function sees what the buffer can hold of the
unconsumed stream, at most `maxScanTokenSize` bytes.  When it neither advances
nor returns a token on a full buffer the scanner stops with `ErrTooLong`,
having read `maxScanTokenSize` bytes past the start of the token.  When the
whole remaining stream is buffered the scanner reads the end of file and calls
the split function with `atEOF` set, until it returns no token.

The reads of the scanner hand it the stream in chunks and its buffer grows to
`maxScanTokenSize` by doubling, so it also calls the split function on
shorter prefixes of that window; the four split functions used here decide
the same on a shorter prefix, or ask for more data.  None of them returns an
error of its own or a token without advancing, and the pipe that feeds the
scanner fails in no other way than by end of file.

The fuel bounds the number of calls of the split function; each call but the
last two consumes a byte, and `scan` supplies that much. -/
def scanLoop (split : SplitFunc) : Nat → List Nat → Bool → Scanned
  | 0, _, _ => ⟨[], false, 0⟩
  | fuel + 1, rest, false =>
    let data := rest.take maxScanTokenSize
    if data.isEmpty then scanLoop split fuel rest true
    else
      match split data false with
      | (advance, some token) => (scanLoop split fuel (rest.drop advance) false).push token
      | (0, none) =>
        if maxScanTokenSize ≤ rest.length then ⟨[], true, rest.length - maxScanTokenSize⟩
        else scanLoop split fuel rest true
      | (advance + 1, none) => scanLoop split fuel (rest.drop (advance + 1)) false
  | fuel + 1, rest, true =>
    match split rest true with
    | (advance, some token) => (scanLoop split fuel (rest.drop advance) true).push token
    | (_, none) => ⟨[], false, 0⟩

/-- A `bufio.Scanner` with split function `split` driven over the stream
`reader` until `Scan` returns false. -/
def scan (split : SplitFunc) (reader : List Nat) : Scanned :=
  scanLoop split (reader.length + 2) reader false

/-! ## The counters of main.go -/

/-- What a counter goroutine has done when it returns. -/
structure Counter where
  /-- The value left in `*result`. -/
  result : Nat
  /-- The operands of its successive updates of the shared `longest`. -/
  updates : List Nat
  /-- Whether it printed `Error during scan`. -/
  failed : Bool
  /-- The number of bytes left unread in its pipe. -/
  unread : Nat
  deriving DecidableEq, Repr

/-- `countWithSplitFunc`: counts the tokens of the scan.  `result2` tells
whether the pointer `result2` is non-nil, in which case every token issues
the update `*result2 = max(*result2, len(scanner.Text()))`. -/
def countWithSplitFunc (reader : List Nat) (splitfunc : SplitFunc) (result2 : Bool) : Counter :=
  let scanner := scan splitfunc reader
  { result := scanner.tokens.length
    updates := if result2 then scanner.tokens.map List.length else []
    failed := scanner.tooLong
    unread := scanner.unread }

/-- The loop of `countRunesAndLonestLine` over the rune tokens:
`result` counts the runes, `currentLongestLine` the runes since the last
newline.  Each newline rune, and the end of the loop, issues the update
`if currentLongestLine > *longest { *longest = currentLongestLine }`. -/
def runeLoop (result currentLongestLine : Nat) : List (List Nat) → Nat × List Nat
  | [] => (result, [currentLongestLine])
  | rune :: tokens =>
    if rune = [0x0A] then
      let r := runeLoop (result + 1) 0 tokens
      (r.1, currentLongestLine :: r.2)
    else runeLoop (result + 1) (currentLongestLine + 1) tokens

/-- `countRunesAndLonestLine`. -/
def countRunesAndLonestLine (reader : List Nat) : Counter :=
  let scanner := scan ScanRunes reader
  let r := runeLoop 0 0 scanner.tokens
  { result := r.1
    updates := r.2
    failed := scanner.tooLong
    unread := scanner.unread }

/-! ## The shared variable `longest` -/

/-- A counter's accesses to `longest` that are still to come: the value it
has loaded when its store is pending, and the operands of the updates left. -/
structure Pending where
  loaded : Option Nat
  todo : List Nat
  deriving DecidableEq, Repr

/-- One memory access of the line counter, which runs
`*result2 = max(*result2, n)`: a load, or the store that follows it. -/
def lineStep (mem : Nat) (p : Pending) : Nat × Pending :=
  match p.todo, p.loaded with
  | [], _ => (mem, p)
  | n :: t, none => (mem, ⟨some mem, n :: t⟩)
  | n :: t, some v => (max v n, ⟨none, t⟩)

/-- One memory access of the rune counter, which runs
`if c > *longest { *longest = c }`: the load, or the store when the test
succeeded. -/
def runeStep (mem : Nat) (p : Pending) : Nat × Pending :=
  match p.todo, p.loaded with
  | [], _ => (mem, p)
  | c :: t, none => (mem, ⟨some mem, c :: t⟩)
  | c :: t, some v => (if v < c then c else mem, ⟨none, t⟩)

/-- The line counter run to its end on its own. -/
def drainLine (mem : Nat) (loaded : Option Nat) : List Nat → Nat
  | [] => mem
  | n :: t => drainLine (max (loaded.getD mem) n) none t

/-- The rune counter run to its end on its own. -/
def drainRune (mem : Nat) (loaded : Option Nat) : List Nat → Nat
  | [] => mem
  | c :: t => drainRune (if loaded.getD mem < c then c else mem) none t

/-- The final value of `longest` when the two counters that share it run
under the schedule `sched`: `true` lets the line counter make its next memory
access, `false` the rune counter.  A turn given to a counter that has finished
is lost; when the schedule runs out the line counter finishes, then the rune
counter. -/
def interleave : List Bool → Nat → Pending → Pending → Nat
  | [], mem, pl, pr => drainRune (drainLine mem pl.loaded pl.todo) pr.loaded pr.todo
  | true :: sched, mem, pl, pr =>
    let s := lineStep mem pl
    interleave sched s.1 s.2 pr
  | false :: sched, mem, pl, pr =>
    let s := runeStep mem pr
    interleave sched s.1 pl s.2

/-! ## wc -/

/-- `wc`: the reader is copied into four pipes, each read by one counter.
A synchronous pipe accepts a write only while its reader reads, so a counter
that stops before the end of its stream blocks the copier for good, and with
it the three other counters and `wg.Wait()`: `wc` returns (`some`) only when
no counter left bytes unread.  `sched` is the interleaving of the accesses of
the line counter and of the rune counter to the variable `longest`. -/
def wc (sched : List Bool) (reader : List Nat) : Option count :=
  let c1 := countWithSplitFunc reader ScanBytes false
  let c2 := countWithSplitFunc reader ScanLines true
  let c3 := countWithSplitFunc reader ScanWords false
  let c4 := countRunesAndLonestLine reader
  if c1.unread = 0 ∧ c2.unread = 0 ∧ c3.unread = 0 ∧ c4.unread = 0 then
    some
      { lines := c2.result
        words := c3.result
        bytes := c1.result
        chars := c4.result
        longest := interleave sched 0 ⟨none, c2.updates⟩ ⟨none, c4.updates⟩ }
  else none

/-! ## Notions of the specification -/

/-- The line count of the specification: the newline bytes of `s`, plus one
when `s` is non-empty and does not end with a newline. -/
def specLines (s : List Nat) : Nat :=
  s.count 0x0A + if s ≠ [] ∧ s.getLast? ≠ some 0x0A then 1 else 0

/-- The maximal segments of `s` that do not hold the separator `sep`; with
the newline byte as separator, the lines of `s`. -/
def segments {α : Type} [DecidableEq α] (sep : α) : List α → List (List α)
  | [] => [[]]
  | b :: t =>
    if b = sep then [] :: segments sep t
    else
      match segments sep t with
      | [] => [[b]]
      | seg :: segs => (b :: seg) :: segs

/-- The largest element of a list of numbers, 0 for the empty list. -/
def maxOf (l : List Nat) : Nat := l.foldr max 0

/-- The length in bytes of the longest line of `s`. -/
def longestLineBytes (s : List Nat) : Nat := maxOf ((segments 0x0A s).map List.length)

/-- The UTF-8 encoding of the code point `c` (RFC 3629). -/
def utf8Encode (c : Nat) : List Nat :=
  if c < 0x80 then [c]
  else if c < 0x800 then [0xC0 + c / 64, 0x80 + c % 64]
  else if c < 0x10000 then [0xE0 + c / 4096, 0x80 + c / 64 % 64, 0x80 + c % 64]
  else [0xF0 + c / 262144, 0x80 + c / 4096 % 64, 0x80 + c / 64 % 64, 0x80 + c % 64]

/-- The Unicode scalar values: the code points up to U+10FFFF that are not
surrogates.  Valid UTF-8 encodes exactly these. -/
def isScalar (c : Nat) : Prop := c < 0xD800 ∨ (0xE000 ≤ c ∧ c < 0x110000)

instance (c : Nat) : Decidable (isScalar c) := by unfold isScalar; infer_instance

/-- The valid UTF-8 text that encodes the code points `cps`. -/
def utf8EncodeAll (cps : List Nat) : List Nat := (cps.map utf8Encode).flatten

/-- The longest-line measurement of the line counter: the largest byte length
of a token of the line scanner over `s`, 0 when there is none. -/
def lineLongest (s : List Nat) : Nat :=
  maxOf ((scan ScanLines s).tokens.map List.length)

/-- The longest-line measurement of the rune counter: the largest number of
code points in a segment of the rune tokens of `s` delimited by newline code
points, the last segment included. -/
def runeLongest (s : List Nat) : Nat :=
  maxOf ((segments [0x0A] (scan ScanRunes s).tokens).map List.length)

/-- The length in bytes of the longest line of `s`, the first line counted
with `cur` bytes that came before `s`. -/
def longestFrom (cur : Nat) : List Nat → Nat
  | [] => cur
  | b :: t => if b = 0x0A then max cur (longestFrom 0 t) else longestFrom (cur + 1) t

/-- The code points of `s`, decoded one after the other by `utf8.DecodeRune`
(an invalid byte decodes as U+FFFD); the first `skip` bytes of `s` belong to
the code point decoded before. -/
def decodeFrom : Nat → List Nat → List Nat
  | _, [] => []
  | 0, b :: t => (DecodeRune (b :: t)).1 :: decodeFrom ((DecodeRune (b :: t)).2 - 1) t
  | skip + 1, _ :: t => decodeFrom skip t

/-- The code points of `s`. -/
def decodeRunes (s : List Nat) : List Nat := decodeFrom 0 s

/-- The number of maximal runs of code points that are not white space;
`inRun` tells whether the code point before was in such a run. -/
def countRuns (inRun : Bool) : List Nat → Nat
  | [] => 0
  | r :: t =>
    if isSpace r then countRuns false t
    else (if inRun then 0 else 1) + countRuns true t

/-- The word count of the specification: the number of maximal runs of
non-whitespace code points of `s`. -/
def specWords (s : List Nat) : Nat := countRuns false (decodeRunes s)

/-! ## The command line of main.go

Arguments are byte strings, like the streams.  The five flag variables that
`main` registers with the `flag` package (`linePtr`, `wordPtr`, `bytePtr`,
`charsPtr`, `maxBytesLinePtr`) are kept in a `flags` record, the record that
`main` builds from them in the end. -/

/-- The `flags` struct of `main.go`. -/
structure flags where
  showBytes : Bool
  showLines : Bool
  showChars : Bool
  showWords : Bool
  showLongest : Bool
  deriving DecidableEq, Repr

/-- The values of the flag variables as `main` registers them:
`-l`, `-w` and `-c` default to true, `-m` and `-L` to false. -/
def defaultFlags : flags :=
  { showLines := true, showWords := true, showBytes := true, showChars := false,
    showLongest := false }

/-- `strings.HasPrefix(arg, "-")`. -/
def hasDashPrefix (arg : List Nat) : Bool := arg.head? = some 0x2D

/-- The loop of `manuallyParseArgs` over `os.Args[1:]`: whether a flag
argument was met (`customFlagsSet`), the arguments `"-"+string(char)` for
the runes of the flag arguments (`flagArgs`) and the other arguments
(`fileArgs`).  A `range` loop over a string decodes it like
`utf8.DecodeRune`, and `string(char)` is the UTF-8 encoding of the rune. -/
def splitArgs : List (List Nat) → Bool × List (List Nat) × List (List Nat)
  | [] => (false, [], [])
  | arg :: args =>
    let r := splitArgs args
    if hasDashPrefix arg && 1 < arg.length then
      (true, (decodeRunes (arg.drop 1)).map (fun char => 0x2D :: utf8Encode char) ++ r.2.1, r.2.2)
    else (r.1, r.2.1, arg :: r.2.2)

/-- `strconv.ParseBool`, which reads the value of a boolean flag. -/
def parseBool (s : List Nat) : Option Bool :=
  if s = [0x31] ∨ s = [0x74] ∨ s = [0x54] ∨ s = [0x54, 0x52, 0x55, 0x45] ∨
      s = [0x74, 0x72, 0x75, 0x65] ∨ s = [0x54, 0x72, 0x75, 0x65] then some true
  else if s = [0x30] ∨ s = [0x66] ∨ s = [0x46] ∨ s = [0x46, 0x41, 0x4C, 0x53, 0x45] ∨
      s = [0x66, 0x61, 0x6C, 0x73, 0x65] ∨ s = [0x46, 0x61, 0x6C, 0x73, 0x65] then some false
  else none

/-- Sets the flag variable registered under `name` (`l`, `w`, `c`, `m` or
`L`); `none` when no flag has that name. -/
def setFlag (name : List Nat) (v : Bool) (f : flags) : Option flags :=
  if name = [0x6C] then some { f with showLines := v }
  else if name = [0x77] then some { f with showWords := v }
  else if name = [0x63] then some { f with showBytes := v }
  else if name = [0x6D] then some { f with showChars := v }
  else if name = [0x4C] then some { f with showLongest := v }
  else none

/-- `flag.Parse` on the arguments `args`, as calls of `FlagSet.parseOne`:
parsing stops at the first argument that is not a flag and after `--`.
`none` stands for the exit of the process, on a flag that is not defined
(`-h` included), on bad flag syntax or on a bad boolean value. -/
def flagParse : List (List Nat) → flags → Option flags
  | [], f => some f
  | s :: args, f =>
    if s.length < 2 || s.head? != some 0x2D then some f
    else
      let numMinuses := if (s.drop 1).head? = some 0x2D then 2 else 1
      if numMinuses = 2 && s.length = 2 then some f
      else
        let name := s.drop numMinuses
        if name.isEmpty || name.head? = some 0x2D || name.head? = some 0x3D then none
        else
          match IndexByte (name.drop 1) 0x3D with
          | some i =>
            match parseBool (name.drop (i + 2)) with
            | some v => (setFlag (name.take (i + 1)) v f).bind (flagParse args)
            | none => none
          | none => (setFlag name true f).bind (flagParse args)

/-- What `manuallyParseArgs` leaves behind. -/
structure ParsedArgs where
  customFlagsSet : Bool
  fileArgs : List (List Nat)
  hasPipedData : Bool
  /-- The rewritten `os.Args[1:]`: the flag arguments, then the others. -/
  osArgs : List (List Nat)
  /-- The flag variables after `flag.Parse`. -/
  vars : flags
  deriving DecidableEq, Repr

/-- `manuallyParseArgs` on the arguments `os.Args[1:]`.  `stdinCharDevice`
tells whether the mode of standard input has `os.ModeCharDevice`; `vars` holds
the flag variables.  `none` when `flag.Parse` ends the process. -/
def manuallyParseArgs (args : List (List Nat)) (stdinCharDevice : Bool) (vars : flags) :
    Option ParsedArgs :=
  let r := splitArgs args
  let osArgs := r.2.1 ++ r.2.2
  match flagParse osArgs vars with
  | none => none
  | some vars' =>
    let hasPipedData := !stdinCharDevice
    some
      { customFlagsSet := r.1
        fileArgs := r.2.2
        hasPipedData := if hasPipedData && 0 < r.2.2.length then false else hasPipedData
        osArgs := osArgs
        vars := vars' }

/-- `resetFlags`: each argument `-l`, `-w`, `-c`, `-m` sets its flag
variable; `-c` also clears the one of `-m`, and `-m` the one of `-c`. -/
def resetFlags : List (List Nat) → flags → flags
  | [], f => f
  | arg :: flagArgs, f =>
    if hasDashPrefix arg then
      if arg.drop 1 = [0x6C] then resetFlags flagArgs { f with showLines := true }
      else if arg.drop 1 = [0x77] then resetFlags flagArgs { f with showWords := true }
      else if arg.drop 1 = [0x63] then
        resetFlags flagArgs { f with showBytes := true, showChars := false }
      else if arg.drop 1 = [0x6D] then
        resetFlags flagArgs { f with showChars := true, showBytes := false }
      else resetFlags flagArgs f
    else resetFlags flagArgs f

/-- The flag selection `aFlags` that `main` builds: the defaults, then
`manuallyParseArgs`, then, when a flag argument was given, the variables of
`-l`, `-w` and `-c` cleared and `resetFlags` over the rewritten `os.Args[1:]`.
`none` when `flag.Parse` ends the process. -/
def mainFlags (args : List (List Nat)) (stdinCharDevice : Bool) : Option flags :=
  match manuallyParseArgs args stdinCharDevice defaultFlags with
  | none => none
  | some p =>
    if p.customFlagsSet then
      some (resetFlags p.osArgs
        { p.vars with showLines := false, showWords := false, showBytes := false })
    else some p.vars

/-! ## display and the totals of main.go -/

/-- The decimal digits of `n`, in ASCII. -/
def decimal (n : Nat) : List Nat := (Nat.toDigits 10 n).map Char.toNat

/-- What `fmt.Printf("%8d", n)` writes for a count `n`: its decimal digits,
padded with spaces on the left to a width of 8. -/
def printf8d (n : Nat) : List Nat :=
  List.replicate (8 - (decimal n).length) 0x20 ++ decimal n

/-- `display`: the bytes written to standard output. -/
def display (counts : count) (f : flags) (fileName : List Nat) : List Nat :=
  (if f.showLines then printf8d counts.lines else []) ++
  (if f.showWords then printf8d counts.words else []) ++
  (if f.showBytes then printf8d counts.bytes
    else if f.showChars then printf8d counts.chars else []) ++
  (if f.showLongest then printf8d counts.longest else []) ++
  ([0x20] ++ fileName ++ [0x0A])

/-- One turn of the file loop of `main` on `totals`, for the result of a
file.  The fields are Go `int`s of 64 bits that count bytes read; their sums
stay far below `2^63` and are taken in `Nat`. -/
def addResult (totals result : count) : count :=
  { bytes := totals.bytes + result.bytes
    lines := totals.lines + result.lines
    words := totals.words + result.words
    chars := totals.chars + result.chars
    longest := max totals.longest result.longest }

/-- The `totals` of `main` after its file loop has gone through the results
of the files, from `count{}`. -/
def mainTotals (results : List count) : count :=
  results.foldl addResult ⟨0, 0, 0, 0, 0⟩

/-! ## Counters on a reader that fails -/

/-- `countWithSplitFunc` on a reader that hands out the bytes `reader` and
then, when `readErr` is set, a read error instead of the end of file.  The
scanner takes a read error like the end of file, calling the split function
with `atEOF` set for the tokens left, and keeps the error for `Err`. -/
def countWithSplitFuncErr (reader : List Nat) (readErr : Bool) (splitfunc : SplitFunc)
    (result2 : Bool) : Counter :=
  let c := countWithSplitFunc reader splitfunc result2
  { c with failed := c.failed || readErr }

/-- `countRunesAndLonestLine` on a reader that can end with a read error. -/
def countRunesAndLonestLineErr (reader : List Nat) (readErr : Bool) : Counter :=
  let c := countRunesAndLonestLine reader
  { c with failed := c.failed || readErr }

/-- The fields of a row, in the order of the specification: each count with
the condition under which it is shown; `chars` is shown only when `showChars`
is set and `showBytes` is not. -/
def rowFields (counts : count) (f : flags) : List Nat :=
  ([(f.showLines, counts.lines), (f.showWords, counts.words), (f.showBytes, counts.bytes),
    (f.showChars && !f.showBytes, counts.chars), (f.showLongest, counts.longest)].filter
      (fun field => field.1)).map (fun field => field.2)

/-- The flag argument `-x` of a single character `x`. -/
def flagArg (c : Nat) : List Nat := 0x2D :: utf8Encode c

/-- The last of the characters `c` and `m` among the flag characters `cs`. -/
def lastCM (cs : List Nat) : Option Nat :=
  (cs.filter (fun c => c = 0x63 ∨ c = 0x6D)).getLast?

/-! ## Notions for the word scanner on `a ++ b` -/

/-- The first loop of `bufio.ScanWords` run over the whole of `data`. -/
def skipAll (data : List Nat) : Nat := skipSpaces data.length data

/-- The second loop of `bufio.ScanWords` run over the whole of `data`. -/
def wordEndAll (data : List Nat) : Option (Nat × Nat) := wordEnd data.length data

/-- The bytes of the first `n` runes of `l`, at most, when these are white
space: the offsets at which the first loop of `bufio.ScanWords` can stop. -/
def skipN : Nat → List Nat → Nat
  | 0, _ => 0
  | n + 1, l =>
    if l.isEmpty then 0
    else
      let rw := DecodeRune l
      if isSpace rw.1 then rw.2 + skipN n (l.drop rw.2) else 0

/-- Whether, when the two counters run under `sched` from the states `pl` and
`pr`, no access of one counter to `longest` falls between the load and the
store of an update of the other. -/
def nonOverlapping : List Bool → Nat → Pending → Pending → Bool
  | [], _, pl, pr => pr.loaded.isNone || pl.todo.isEmpty
  | true :: sched, mem, pl, pr =>
    (pr.loaded.isNone || pl.todo.isEmpty) &&
      nonOverlapping sched (lineStep mem pl).1 (lineStep mem pl).2 pr
  | false :: sched, mem, pl, pr =>
    (pl.loaded.isNone || pr.todo.isEmpty) &&
      nonOverlapping sched (runeStep mem pr).1 pl (runeStep mem pr).2

/-! ## The scanner loop -/

theorem take_window_cons (b : Nat) (t : List Nat) :
    (b :: t).take maxScanTokenSize = b :: t.take 65535 := by
  simp [maxScanTokenSize]

theorem scanLoop_nil (split : SplitFunc) (h : split [] true = (0, none)) (fuel : Nat) (e : Bool) :
    scanLoop split fuel [] e = ⟨[], false, 0⟩ := by
  match fuel, e with
  | 0, false => rfl
  | 0, true => rfl
  | 1, false => simp [scanLoop]
  | f + 2, false => simp [scanLoop, h]
  | f + 1, true => simp [scanLoop, h]

/-- The scanner leaves bytes unread only beyond the first `maxScanTokenSize`
bytes of the stream. -/
theorem scanLoop_unread_le (split : SplitFunc) (fuel : Nat) :
    ∀ (rest : List Nat) (e : Bool),
      (scanLoop split fuel rest e).unread ≤ rest.length - maxScanTokenSize := by
  induction fuel with
  | zero => intro rest e; cases e <;> simp [scanLoop]
  | succ f ih =>
    intro rest e
    cases e with
    | true =>
      rw [scanLoop]
      split
      · rename_i advance token _
        have := ih (rest.drop advance) true
        simp only [Scanned.push, List.length_drop] at this ⊢
        omega
      · simp
    | false =>
      rw [scanLoop]
      split
      · exact ih rest true
      · split
        · rename_i advance token _
          have := ih (rest.drop advance) false
          simp only [Scanned.push, List.length_drop] at this ⊢
          omega
        · split
          · simp
          · exact ih rest true
        · rename_i advance _
          have := ih (rest.drop (advance + 1)) false
          simp only [List.length_drop] at this ⊢
          omega

theorem scan_unread_eq_zero (split : SplitFunc) (s : List Nat)
    (h : s.length ≤ maxScanTokenSize) : (scan split s).unread = 0 := by
  have := scanLoop_unread_le split (s.length + 2) s false
  unfold scan
  omega

/-- The scanner stops with `ErrTooLong` only on a stream of at least
`maxScanTokenSize` bytes. -/
theorem scanLoop_tooLong_length (split : SplitFunc) (fuel : Nat) :
    ∀ (rest : List Nat) (e : Bool),
      (scanLoop split fuel rest e).tooLong = true → maxScanTokenSize ≤ rest.length := by
  induction fuel with
  | zero => intro rest e; cases e <;> simp [scanLoop]
  | succ f ih =>
    intro rest e
    cases e with
    | true =>
      rw [scanLoop]
      split
      · rename_i advance token _
        intro h
        have := ih (rest.drop advance) true h
        rw [List.length_drop] at this
        omega
      · simp
    | false =>
      rw [scanLoop]
      split
      · exact ih rest true
      · split
        · rename_i advance token _
          intro h
          have := ih (rest.drop advance) false h
          rw [List.length_drop] at this
          omega
        · split
          · intro _; assumption
          · exact ih rest true
        · rename_i advance _
          intro h
          have := ih (rest.drop (advance + 1)) false h
          rw [List.length_drop] at this
          omega

/-- A counter reports no scan error on a stream shorter than
`maxScanTokenSize`. -/
theorem countWithSplitFunc_ok (split : SplitFunc) (s : List Nat) (result2 : Bool)
    (h : s.length < maxScanTokenSize) : (countWithSplitFunc s split result2).failed = false := by
  cases hf : (countWithSplitFunc s split result2).failed with
  | false => rfl
  | true =>
    have := scanLoop_tooLong_length split (s.length + 2) s false hf
    omega

/-! ## wc as a whole -/

theorem wc_eq_some {sched : List Bool} {s : List Nat} {r : count} (h : wc sched s = some r) :
    r = { lines := (countWithSplitFunc s ScanLines true).result
          words := (countWithSplitFunc s ScanWords false).result
          bytes := (countWithSplitFunc s ScanBytes false).result
          chars := (countRunesAndLonestLine s).result
          longest := interleave sched 0 ⟨none, (countWithSplitFunc s ScanLines true).updates⟩
            ⟨none, (countRunesAndLonestLine s).updates⟩ } := by
  unfold wc at h
  simp only at h
  split at h
  · exact (Option.some.inj h).symm
  · cases h

/-- On an input of at most `maxScanTokenSize` bytes `wc` returns. -/
theorem wc_isSome_of_length_le (sched : List Bool) (s : List Nat)
    (h : s.length ≤ maxScanTokenSize) : (wc sched s).isSome = true := by
  unfold wc
  simp [countWithSplitFunc, countRunesAndLonestLine, scan_unread_eq_zero _ s h]

/-! ## The byte counter -/

theorem scanLoop_ScanBytes (rest : List Nat) :
    ∀ fuel, rest.length + 2 ≤ fuel →
      scanLoop ScanBytes fuel rest false = ⟨rest.map (fun b => [b]), false, 0⟩ := by
  induction rest with
  | nil =>
    intro fuel _
    exact scanLoop_nil _ rfl _ _
  | cons b t ih =>
    intro fuel h
    obtain ⟨f, rfl⟩ : ∃ f, fuel = f + 1 := ⟨fuel - 1, by simp at h; omega⟩
    have h2 : t.length + 2 ≤ f := by simp at h; omega
    simp [scanLoop, take_window_cons, ScanBytes, ih f h2, Scanned.push]


/-! ## The line scanner -/

theorem IndexByte_eq_none {l : List Nat} {c : Nat} (h : c ∉ l) : IndexByte l c = none := by
  induction l with
  | nil => rfl
  | cons b t ih =>
    have hb : ¬ b = c := fun e => h (by simp [e])
    have ht : c ∉ t := fun e => h (by simp [e])
    simp [IndexByte, hb, ih ht]

theorem IndexByte_append_cons {pre : List Nat} (post : List Nat) {c : Nat} (h : c ∉ pre) :
    IndexByte (pre ++ c :: post) c = some pre.length := by
  induction pre with
  | nil => simp [IndexByte]
  | cons b t ih =>
    have hb : ¬ b = c := fun e => h (by simp [e])
    have ht : c ∉ t := fun e => h (by simp [e])
    simp [IndexByte, hb, ih ht]

theorem ScanLines_line {pre : List Nat} (post : List Nat) (h : 0x0A ∉ pre) (e : Bool) :
    ScanLines (pre ++ 0x0A :: post) e = (pre.length + 1, some (dropCR pre)) := by
  simp [ScanLines, IndexByte_append_cons post h]

theorem ScanLines_more {data : List Nat} (h : 0x0A ∉ data) : ScanLines data false = (0, none) := by
  simp [ScanLines, IndexByte_eq_none h]

theorem ScanLines_last {data : List Nat} (h : 0x0A ∉ data) (hne : data ≠ []) :
    ScanLines data true = (data.length, some (dropCR data)) := by
  simp [ScanLines, IndexByte_eq_none h, hne]

theorem ScanLines_nil : ScanLines [] true = (0, none) := by
  simp [ScanLines]

/-- The window on a stream that holds a newline within its first
`maxScanTokenSize` bytes. -/
theorem take_window_line (pre post : List Nat) (h : pre.length < maxScanTokenSize) :
    (pre ++ 0x0A :: post).take maxScanTokenSize
      = pre ++ 0x0A :: post.take (maxScanTokenSize - pre.length - 1) := by
  rw [List.take_append_eq_append_take, List.take_of_length_le (le_of_lt h)]
  obtain ⟨k, hk⟩ : ∃ k, maxScanTokenSize - pre.length = k + 1 :=
    ⟨maxScanTokenSize - pre.length - 1, by omega⟩
  rw [hk, List.take_succ_cons]
  simp

theorem scanLoop_lines_line (fuel : Nat) {pre : List Nat} (post : List Nat)
    (h : 0x0A ∉ pre) (hlen : pre.length < maxScanTokenSize) :
    scanLoop ScanLines (fuel + 1) (pre ++ 0x0A :: post) false
      = (scanLoop ScanLines fuel post false).push (dropCR pre) := by
  rw [scanLoop]
  simp only [take_window_line pre post hlen, ScanLines_line _ h]
  simp

theorem scanLoop_lines_last (fuel : Nat) {rest : List Nat} (h : 0x0A ∉ rest) (hne : rest ≠ [])
    (hlen : rest.length < maxScanTokenSize) :
    scanLoop ScanLines (fuel + 3) rest false = ⟨[dropCR rest], false, 0⟩ := by
  rw [scanLoop]
  simp only [List.take_of_length_le (le_of_lt hlen), ScanLines_more h]
  simp only [List.isEmpty_eq_true, hne, if_false, Nat.not_le.mpr hlen]
  rw [scanLoop]
  simp only [ScanLines_last h hne, List.drop_length]
  rw [scanLoop_nil _ ScanLines_nil]
  rfl

theorem scanLoop_lines_long (fuel : Nat) {rest : List Nat}
    (h : 0x0A ∉ rest.take maxScanTokenSize) (hlen : maxScanTokenSize ≤ rest.length) :
    scanLoop ScanLines (fuel + 1) rest false
      = ⟨[], true, rest.length - maxScanTokenSize⟩ := by
  have hne : rest.take maxScanTokenSize ≠ [] := by
    intro e
    have h1 : (rest.take maxScanTokenSize).length = maxScanTokenSize :=
      List.length_take_of_le hlen
    rw [e] at h1
    simp [maxScanTokenSize] at h1
  rw [scanLoop]
  simp only [ScanLines_more h]
  simp [hne, hlen]

/-- The line scan, as an induction over the lines of the stream: a property
that follows the four ways a line can end holds of every scan given enough
fuel. -/
theorem lineScan_induction (P : List Nat → Scanned → Prop)
    (hnil : P [] ⟨[], false, 0⟩)
    (hline : ∀ pre post R, 0x0A ∉ pre → pre.length < maxScanTokenSize → P post R →
      P (pre ++ 0x0A :: post) (R.push (dropCR pre)))
    (hlast : ∀ rest, rest ≠ [] → 0x0A ∉ rest → rest.length < maxScanTokenSize →
      P rest ⟨[dropCR rest], false, 0⟩)
    (hlong : ∀ rest, 0x0A ∉ rest.take maxScanTokenSize → maxScanTokenSize ≤ rest.length →
      P rest ⟨[], true, rest.length - maxScanTokenSize⟩) :
    ∀ (n : Nat) (rest : List Nat), rest.length ≤ n → ∀ fuel, rest.length + 2 ≤ fuel →
      P rest (scanLoop ScanLines fuel rest false) := by
  intro n
  induction n with
  | zero =>
    intro rest hn fuel _
    have : rest = [] := List.length_eq_zero.mp (Nat.le_zero.mp hn)
    subst this
    rw [scanLoop_nil _ ScanLines_nil]
    exact hnil
  | succ n ih =>
    intro rest hn fuel hf
    by_cases hne : rest = []
    · subst hne
      rw [scanLoop_nil _ ScanLines_nil]
      exact hnil
    have hpos : 0 < rest.length := List.length_pos.mpr hne
    by_cases hmem : 0x0A ∈ rest.take maxScanTokenSize
    · obtain ⟨pre, post', hsplit, hpre⟩ := List.eq_append_cons_of_mem hmem
      have hrest : rest = pre ++ 0x0A :: (post' ++ rest.drop maxScanTokenSize) := by
        conv_lhs => rw [← List.take_append_drop maxScanTokenSize rest, hsplit]
        simp
      have hlen : pre.length < maxScanTokenSize := by
        have h1 := congrArg List.length hsplit
        simp [List.length_take] at h1
        omega
      have hl : rest.length = pre.length + 1 + (post' ++ rest.drop maxScanTokenSize).length := by
        conv_lhs => rw [hrest]
        simp
        omega
      obtain ⟨f, rfl⟩ : ∃ f, fuel = f + 1 := ⟨fuel - 1, by omega⟩
      rw [hrest, scanLoop_lines_line f _ hpre hlen]
      exact hline pre _ _ hpre hlen (ih _ (by omega) f (by omega))
    · by_cases hlen : maxScanTokenSize ≤ rest.length
      · obtain ⟨f, rfl⟩ : ∃ f, fuel = f + 1 := ⟨fuel - 1, by omega⟩
        rw [scanLoop_lines_long f hmem hlen]
        exact hlong rest hmem hlen
      · have hlt : rest.length < maxScanTokenSize := Nat.not_le.mp hlen
        rw [List.take_of_length_le (le_of_lt hlt)] at hmem
        obtain ⟨f, rfl⟩ : ∃ f, fuel = f + 3 := ⟨fuel - 3, by omega⟩
        rw [scanLoop_lines_last f hmem hne hlt]
        exact hlast rest hne hmem hlt

theorem lineScan_cases (P : List Nat → Scanned → Prop)
    (hnil : P [] ⟨[], false, 0⟩)
    (hline : ∀ pre post R, 0x0A ∉ pre → pre.length < maxScanTokenSize → P post R →
      P (pre ++ 0x0A :: post) (R.push (dropCR pre)))
    (hlast : ∀ rest, rest ≠ [] → 0x0A ∉ rest → rest.length < maxScanTokenSize →
      P rest ⟨[dropCR rest], false, 0⟩)
    (hlong : ∀ rest, 0x0A ∉ rest.take maxScanTokenSize → maxScanTokenSize ≤ rest.length →
      P rest ⟨[], true, rest.length - maxScanTokenSize⟩)
    (s : List Nat) : P s (scan ScanLines s) :=
  lineScan_induction P hnil hline hlast hlong s.length s (le_refl _) _ (le_refl _)


/-! ## Lines of the specification -/

theorem specLines_nil : specLines [] = 0 := by
  simp [specLines]

theorem specLines_line {pre : List Nat} (post : List Nat) (h : 0x0A ∉ pre) :
    specLines (pre ++ 0x0A :: post) = specLines post + 1 := by
  have hc : List.count 0x0A pre = 0 := List.count_eq_zero.mpr h
  cases post with
  | nil => simp [specLines, hc]
  | cons b t =>
    simp only [specLines, List.count_append, hc, List.count_cons_self, List.getLast?_append_cons,
      List.getLast?_cons_cons]
    simp
    omega

theorem specLines_last {rest : List Nat} (h : 0x0A ∉ rest) (hne : rest ≠ []) :
    specLines rest = 1 := by
  have hc : List.count 0x0A rest = 0 := List.count_eq_zero.mpr h
  have hl : rest.getLast? ≠ some 0x0A := by
    intro e
    exact h (List.mem_of_getLast?_eq_some e)
  simp [specLines, hc, hne, hl]

theorem segments_line {α : Type} [DecidableEq α] {sep : α} {pre : List α} (post : List α)
    (h : sep ∉ pre) : segments sep (pre ++ sep :: post) = pre :: segments sep post := by
  induction pre with
  | nil => simp [segments]
  | cons b t ih =>
    have hb : ¬ b = sep := fun e => h (by simp [e])
    have ht : sep ∉ t := fun e => h (by simp [e])
    simp [segments, hb, ih ht]

theorem segments_last {α : Type} [DecidableEq α] {sep : α} {rest : List α} (h : sep ∉ rest) :
    segments sep rest = [rest] := by
  induction rest with
  | nil => rfl
  | cons b t ih =>
    have hb : ¬ b = sep := fun e => h (by simp [e])
    have ht : sep ∉ t := fun e => h (by simp [e])
    simp [segments, hb, ih ht]

/-- A stream whose first `n` bytes hold no newline starts with a line of at
least `n` bytes. -/
theorem segments_head_long (rest : List Nat) :
    ∀ n, 0x0A ∉ rest.take n → n ≤ rest.length →
      ∃ seg segs, segments 0x0A rest = seg :: segs ∧ n ≤ seg.length := by
  induction rest with
  | nil => intro n _ hn; exact ⟨[], [], rfl, by simpa using hn⟩
  | cons b t ih =>
    intro n hmem hn
    cases n with
    | zero =>
      simp only [segments]
      split
      · exact ⟨_, _, rfl, Nat.zero_le _⟩
      · split
        · exact ⟨_, _, rfl, Nat.zero_le _⟩
        · exact ⟨_, _, rfl, Nat.zero_le _⟩
    | succ k =>
      rw [List.take_succ_cons] at hmem
      have hb : ¬ b = 0x0A := fun e => hmem (by simp [e])
      have ht : 0x0A ∉ t.take k := fun e => hmem (by simp [e])
      obtain ⟨seg, segs, hs, hk⟩ := ih k ht (by simpa using hn)
      refine ⟨b :: seg, segs, ?_, by simpa using hk⟩
      simp [segments, hb, hs]

/-- The line scanner stops on no error when every line of the stream is
shorter than `maxScanTokenSize`, and then returns one token for each newline
and one for a final unterminated line. -/
theorem scan_lines_length (s : List Nat)
    (hs : ∀ l ∈ segments 0x0A s, l.length < maxScanTokenSize) :
    (scan ScanLines s).tooLong = false ∧ (scan ScanLines s).tokens.length = specLines s := by
  revert hs
  refine lineScan_cases
    (fun rest R => (∀ l ∈ segments 0x0A rest, l.length < maxScanTokenSize) →
      R.tooLong = false ∧ R.tokens.length = specLines rest) ?_ ?_ ?_ ?_ s
  · intro _
    exact ⟨rfl, by simp [specLines_nil]⟩
  · intro pre post R hpre _ ih hs
    rw [segments_line post hpre] at hs
    have := ih (fun l hl => hs l (List.mem_cons_of_mem _ hl))
    simp [Scanned.push, specLines_line post hpre, this]
  · intro rest hne hmem _ _
    simp [specLines_last hmem hne]
  · intro rest hmem hlen hs
    obtain ⟨seg, segs, h1, h2⟩ := segments_head_long rest _ hmem hlen
    have := hs seg (by simp [h1])
    omega

/-- On a stream whose first `maxScanTokenSize` bytes hold no newline the line
scanner stops with `ErrTooLong` before any token. -/
theorem scan_lines_long (s : List Nat) (h : 0x0A ∉ s.take maxScanTokenSize)
    (hlen : maxScanTokenSize ≤ s.length) : (scan ScanLines s).tokens = [] := by
  unfold scan
  rw [scanLoop_lines_long (s.length + 1) h hlen]

theorem wc_lines_eq {sched : List Bool} {s : List Nat} {r : count} (h : wc sched s = some r) :
    r.lines = (scan ScanLines s).tokens.length := by
  rw [wc_eq_some h]
  simp [countWithSplitFunc]


/-! ## UTF-8 decoding -/

theorem first_cases (b : Nat) :
    first b = 0xF0 ∨ first b = 0xF1 ∨ first b = 0x02 ∨ first b = 0x13 ∨ first b = 0x03 ∨
      first b = 0x23 ∨ first b = 0x34 ∨ first b = 0x04 ∨ first b = 0x44 := by
  unfold first
  split_ifs <;> simp

theorem first_ascii {b : Nat} (h : b < 0x80) : first b = 0xF0 := by
  simp [first, h]

theorem first_size_le (b : Nat) : first b % 8 ≤ 4 := by
  rcases first_cases b with h | h | h | h | h | h | h | h | h <;> rw [h] <;> decide

theorem DecodeRune_ascii {b : Nat} (t : List Nat) (h : b < 0x80) : DecodeRune (b :: t) = (b, 1) := by
  simp [DecodeRune, first_ascii h]

/-- Decoding looks at no more than four bytes. -/
theorem DecodeRune_take (l : List Nat) (n : Nat) (h : 4 ≤ n) :
    DecodeRune (l.take n) = DecodeRune l := by
  obtain ⟨k, rfl⟩ : ∃ k, n = k + 4 := ⟨n - 4, by omega⟩
  match l with
  | [] => simp
  | [_] => simp
  | [_, _] => simp
  | [_, _, _] => simp
  | a :: b :: c :: d :: t =>
    have hs := first_size_le a
    simp only [List.take_succ_cons, DecodeRune, List.length_cons]
    have h1 : ¬ (t.take k).length + 1 + 1 + 1 + 1 < first a % 8 := by omega
    have h2 : ¬ t.length + 1 + 1 + 1 + 1 < first a % 8 := by omega
    simp only [h1, h2]

theorem DecodeRune_width_pos (b : Nat) (t : List Nat) : 1 ≤ (DecodeRune (b :: t)).2 := by
  unfold DecodeRune
  simp only
  repeat' split
  all_goals simp

theorem DecodeRune_width_le (l : List Nat) : (DecodeRune l).2 ≤ l.length := by
  match l with
  | [] => simp [DecodeRune]
  | [_] => simp only [DecodeRune]; split_ifs <;> simp
  | [_, _] => simp only [DecodeRune]; split_ifs <;> simp
  | [_, _, _] => simp only [DecodeRune]; split_ifs <;> simp
  | _ :: _ :: _ :: _ :: _ => simp only [DecodeRune]; split_ifs <;> simp

theorem FullRune_of_length {l : List Nat} (h : 4 ≤ l.length) : FullRune l = true := by
  match l, h with
  | a :: t, h =>
    have hs := first_size_le a
    simp only [List.length_cons] at h
    simp only [FullRune, List.length_cons]
    rw [if_pos (by omega)]

theorem DecodeRune_two (p0 b1 : Nat) (t : List Nat) (h0 : 0xC2 ≤ p0) (h0' : p0 < 0xE0)
    (h1 : 0x80 ≤ b1) (h1' : b1 ≤ 0xBF) :
    DecodeRune (p0 :: b1 :: t) = (p0 % 32 * 64 + b1 % 64, 2) := by
  have hf : first p0 = 0x02 := by
    unfold first; split_ifs <;> first | rfl | omega
  simp only [DecodeRune, hf, acceptRanges, List.length_cons]
  simp
  split_ifs <;> first | rfl | (exfalso; omega)

theorem DecodeRune_three (p0 b1 b2 : Nat) (t : List Nat) (h0 : 0xE0 ≤ p0) (h0' : p0 < 0xF0)
    (h1 : 0x80 ≤ b1) (h1' : b1 ≤ 0xBF) (hE0 : p0 = 0xE0 → 0xA0 ≤ b1) (hED : p0 = 0xED → b1 ≤ 0x9F)
    (h2 : 0x80 ≤ b2) (h2' : b2 ≤ 0xBF) :
    DecodeRune (p0 :: b1 :: b2 :: t) = (p0 % 16 * 4096 + b1 % 64 * 64 + b2 % 64, 3) := by
  have hf : first p0 = 0x13 ∧ p0 = 0xE0 ∨ first p0 = 0x03 ∧ p0 ≠ 0xE0 ∧ p0 ≠ 0xED
      ∨ first p0 = 0x23 ∧ p0 = 0xED := by
    unfold first; split_ifs <;> omega
  rcases hf with ⟨hf, hp⟩ | ⟨hf, hp, hp'⟩ | ⟨hf, hp⟩
  · have := hE0 hp
    simp only [DecodeRune, hf, acceptRanges, List.length_cons]
    simp
    split_ifs <;> first | rfl | (exfalso; omega)
  · simp only [DecodeRune, hf, acceptRanges, List.length_cons]
    simp
    split_ifs <;> first | rfl | (exfalso; omega)
  · have := hED hp
    simp only [DecodeRune, hf, acceptRanges, List.length_cons]
    simp
    split_ifs <;> first | rfl | (exfalso; omega)

theorem DecodeRune_four (p0 b1 b2 b3 : Nat) (t : List Nat) (h0 : 0xF0 ≤ p0) (h0' : p0 ≤ 0xF4)
    (h1 : 0x80 ≤ b1) (h1' : b1 ≤ 0xBF) (hF0 : p0 = 0xF0 → 0x90 ≤ b1) (hF4 : p0 = 0xF4 → b1 ≤ 0x8F)
    (h2 : 0x80 ≤ b2) (h2' : b2 ≤ 0xBF) (h3 : 0x80 ≤ b3) (h3' : b3 ≤ 0xBF) :
    DecodeRune (p0 :: b1 :: b2 :: b3 :: t)
      = (p0 % 8 * 262144 + b1 % 64 * 4096 + b2 % 64 * 64 + b3 % 64, 4) := by
  have hf : first p0 = 0x34 ∧ p0 = 0xF0 ∨ first p0 = 0x04 ∧ p0 ≠ 0xF0 ∧ p0 ≠ 0xF4
      ∨ first p0 = 0x44 ∧ p0 = 0xF4 := by
    unfold first
    rw [if_neg (by omega), if_neg (by omega), if_neg (by omega), if_neg (by omega),
      if_neg (by omega), if_neg (by omega), if_neg (by omega)]
    by_cases e0 : p0 = 0xF0
    · rw [if_pos e0]; exact Or.inl ⟨rfl, e0⟩
    · rw [if_neg e0]
      by_cases e4 : p0 < 0xF4
      · rw [if_pos e4]; exact Or.inr (Or.inl ⟨rfl, e0, by omega⟩)
      · rw [if_neg e4, if_pos (by omega)]; exact Or.inr (Or.inr ⟨rfl, by omega⟩)
  rcases hf with ⟨hf, hp⟩ | ⟨hf, hp, hp'⟩ | ⟨hf, hp⟩
  · have := hF0 hp
    simp only [DecodeRune, hf, acceptRanges, List.length_cons]
    simp
    split_ifs <;> first | rfl | (exfalso; omega)
  · simp only [DecodeRune, hf, acceptRanges, List.length_cons]
    simp
    split_ifs <;> first | rfl | (exfalso; omega)
  · have := hF4 hp
    simp only [DecodeRune, hf, acceptRanges, List.length_cons]
    simp
    split_ifs <;> first | rfl | (exfalso; omega)

/-- Decoding inverts encoding on scalar values. -/
theorem DecodeRune_utf8Encode (c : Nat) (h : isScalar c) (rest : List Nat) :
    DecodeRune (utf8Encode c ++ rest) = (c, (utf8Encode c).length) := by
  unfold isScalar at h
  unfold utf8Encode
  split_ifs with h1 h2 h3
  · simp [DecodeRune_ascii _ h1]
  · generalize hp0 : 0xC0 + c / 64 = p0
    generalize hb1 : 0x80 + c % 64 = b1
    rw [List.cons_append, List.cons_append, List.nil_append,
      DecodeRune_two p0 b1 rest (by omega) (by omega) (by omega) (by omega)]
    simp only [List.length_cons, List.length_nil, Prod.mk.injEq, and_true]
    omega
  · generalize hp0 : 0xE0 + c / 4096 = p0
    generalize hb1 : 0x80 + c / 64 % 64 = b1
    generalize hb2 : 0x80 + c % 64 = b2
    rw [List.cons_append, List.cons_append, List.cons_append, List.nil_append,
      DecodeRune_three p0 b1 b2 rest (by omega) (by omega) (by omega) (by omega) (by omega)
        (by omega) (by omega) (by omega)]
    simp only [List.length_cons, List.length_nil, Prod.mk.injEq, and_true]
    omega
  · generalize hp0 : 0xF0 + c / 262144 = p0
    generalize hb1 : 0x80 + c / 4096 % 64 = b1
    generalize hb2 : 0x80 + c / 64 % 64 = b2
    generalize hb3 : 0x80 + c % 64 = b3
    rw [List.cons_append, List.cons_append, List.cons_append, List.cons_append, List.nil_append,
      DecodeRune_four p0 b1 b2 b3 rest (by omega) (by omega) (by omega) (by omega) (by omega)
        (by omega) (by omega) (by omega) (by omega) (by omega)]
    simp only [List.length_cons, List.length_nil, Prod.mk.injEq, and_true]
    omega

/-! ## The rune scanner -/

/-- The bytes of a multi-byte encoding are all above the ASCII range. -/
theorem DecodeRune_wide (l : List Nat) (h : 1 < (DecodeRune l).2) :
    ∀ b ∈ l.take (DecodeRune l).2, 0x80 ≤ b := by
  match l with
  | [] => simp [DecodeRune] at h
  | [p0] =>
    revert h
    simp only [DecodeRune]
    split_ifs <;> simp
  | p0 :: b1 :: t =>
    have hp0 : first p0 < 0xF0 → 0x80 ≤ p0 := by
      intro hx
      by_contra hc
      rw [first_ascii (by omega)] at hx
      omega
    have hacc : first p0 < 0xF0 → 0x80 ≤ (acceptRanges (first p0 / 16)).1 := by
      intro hx
      rcases first_cases p0 with e | e | e | e | e | e | e | e | e <;> rw [e] at hx ⊢ <;>
        first | (exfalso; omega) | decide
    revert h
    match t with
    | [] =>
      simp only [DecodeRune]
      split_ifs <;> simp
      all_goals omega
    | [b2] =>
      simp only [DecodeRune]
      split_ifs <;> simp
      all_goals omega
    | b2 :: b3 :: t' =>
      simp only [DecodeRune]
      split_ifs <;> simp
      all_goals omega

theorem ScanRunes_nil : ScanRunes [] true = (0, none) := rfl

/-- What the rune scanner makes of a non-empty buffer at end of file: one
token of one to four bytes, which is the newline token exactly when the first
byte is a newline. -/
theorem ScanRunes_eof {rest : List Nat} (hne : rest ≠ []) :
    ∃ w tok, ScanRunes rest true = (w, some tok) ∧ 1 ≤ w ∧ w ≤ rest.length ∧
      ((tok = [0x0A] ∧ w = 1 ∧ rest.head? = some 0x0A) ∨
        (tok ≠ [0x0A] ∧ 0x0A ∉ rest.take w)) := by
  match rest, hne with
  | d0 :: t, _ =>
    by_cases h0 : d0 < 0x80
    · refine ⟨1, [d0], by simp [ScanRunes, h0], le_refl _, by simp, ?_⟩
      by_cases h10 : d0 = 0x0A
      · left; simp [h10]
      · right; simp [h10]; omega
    · by_cases hw : 1 < (DecodeRune (d0 :: t)).2
      · refine ⟨(DecodeRune (d0 :: t)).2, (d0 :: t).take (DecodeRune (d0 :: t)).2,
          by simp [ScanRunes, h0, hw], by omega, DecodeRune_width_le _, Or.inr ⟨?_, ?_⟩⟩
        · intro e
          have := congrArg List.length e
          have hle := DecodeRune_width_le (d0 :: t)
          rw [List.length_take] at this
          simp only [List.length_singleton] at this
          omega
        · intro e
          have := DecodeRune_wide _ hw _ e
          omega
      · refine ⟨1, errorRune, by simp [ScanRunes, h0, hw], le_refl _, by simp, Or.inr ⟨?_, ?_⟩⟩
        · simp [errorRune]
        · simp; omega

/-- Before end of file the rune scanner decides as at end of file, unless
the buffer holds fewer than four bytes. -/
theorem ScanRunes_window {rest : List Nat} (hne : rest ≠ []) :
    ScanRunes (rest.take maxScanTokenSize) false = ScanRunes rest true ∨
      (ScanRunes (rest.take maxScanTokenSize) false = (0, none) ∧
        rest.length < maxScanTokenSize) := by
  by_cases hlen : rest.length ≤ maxScanTokenSize
  · rw [List.take_of_length_le hlen]
    match rest, hne with
    | d0 :: t, _ =>
      by_cases h0 : d0 < 0x80
      · left; simp [ScanRunes, h0]
      · by_cases hw : 1 < (DecodeRune (d0 :: t)).2
        · left; simp [ScanRunes, h0, hw]
        · by_cases hf : FullRune (d0 :: t) = true
          · left; simp [ScanRunes, h0, hw, hf]
          · right
            refine ⟨by simp [ScanRunes, h0, hw, hf], ?_⟩
            by_contra hc
            apply hf
            apply FullRune_of_length
            simp only [maxScanTokenSize] at hc
            omega
  · left
    have h4 : 4 ≤ maxScanTokenSize := by decide
    have hlen' : maxScanTokenSize ≤ rest.length := by omega
    have hD := DecodeRune_take rest maxScanTokenSize h4
    have hF : FullRune (rest.take maxScanTokenSize) = true :=
      FullRune_of_length (by rw [List.length_take_of_le hlen']; exact h4)
    have hwle : (DecodeRune rest).2 ≤ maxScanTokenSize := by
      match rest with
      | [] => simp [DecodeRune]
      | [_] => simp only [DecodeRune]; split_ifs <;> simp [maxScanTokenSize]
      | [_, _] => simp only [DecodeRune]; split_ifs <;> simp [maxScanTokenSize]
      | [_, _, _] => simp only [DecodeRune]; split_ifs <;> simp [maxScanTokenSize]
      | _ :: _ :: _ :: _ :: _ => simp only [DecodeRune]; split_ifs <;> simp [maxScanTokenSize]
    match rest, hne with
    | d0 :: t, _ =>
      rw [take_window_cons] at hD hF ⊢
      simp only [ScanRunes, hD, hF, List.take_succ_cons]
      rw [← take_window_cons, List.take_take, min_eq_left hwle]
      simp

/-- The rune scan as an induction over the runes of the stream: it never
fails, and its tokens are those the split function cuts at end of file. -/
theorem runeScan_eof_induction (P : List Nat → Scanned → Prop)
    (hnil : P [] ⟨[], false, 0⟩)
    (hstep : ∀ rest w tok R, rest ≠ [] → ScanRunes rest true = (w, some tok) →
      P (rest.drop w) R → P rest (R.push tok)) :
    ∀ (n : Nat) (rest : List Nat), rest.length ≤ n → ∀ fuel, rest.length + 1 ≤ fuel →
      P rest (scanLoop ScanRunes fuel rest true) := by
  intro n
  induction n with
  | zero =>
    intro rest hn fuel _
    have : rest = [] := List.length_eq_zero.mp (Nat.le_zero.mp hn)
    subst this
    rw [scanLoop_nil _ ScanRunes_nil]
    exact hnil
  | succ n ih =>
    intro rest hn fuel hf
    by_cases hne : rest = []
    · subst hne
      rw [scanLoop_nil _ ScanRunes_nil]
      exact hnil
    obtain ⟨w, tok, hs, hw1, hw2, _⟩ := ScanRunes_eof hne
    obtain ⟨f, rfl⟩ : ∃ f, fuel = f + 1 := ⟨fuel - 1, by omega⟩
    rw [scanLoop]
    simp only [hs]
    exact hstep rest w tok _ hne hs
      (ih _ (by rw [List.length_drop]; omega) f (by rw [List.length_drop]; omega))

theorem runeScan_induction (P : List Nat → Scanned → Prop)
    (hnil : P [] ⟨[], false, 0⟩)
    (hstep : ∀ rest w tok R, rest ≠ [] → ScanRunes rest true = (w, some tok) →
      P (rest.drop w) R → P rest (R.push tok)) :
    ∀ (n : Nat) (rest : List Nat), rest.length ≤ n → ∀ fuel, rest.length + 2 ≤ fuel →
      P rest (scanLoop ScanRunes fuel rest false) := by
  intro n
  induction n with
  | zero =>
    intro rest hn fuel _
    have : rest = [] := List.length_eq_zero.mp (Nat.le_zero.mp hn)
    subst this
    rw [scanLoop_nil _ ScanRunes_nil]
    exact hnil
  | succ n ih =>
    intro rest hn fuel hf
    by_cases hne : rest = []
    · subst hne
      rw [scanLoop_nil _ ScanRunes_nil]
      exact hnil
    obtain ⟨w, tok, hs, hw1, hw2, _⟩ := ScanRunes_eof hne
    obtain ⟨f, rfl⟩ : ∃ f, fuel = f + 1 := ⟨fuel - 1, by omega⟩
    have hdata : (rest.take maxScanTokenSize).isEmpty = false := by
      match rest, hne with
      | d0 :: t, _ => rw [take_window_cons]; rfl
    rw [scanLoop]
    simp only [hdata]
    rcases ScanRunes_window hne with hwin | ⟨hwin, hlt⟩
    · simp only [hwin, hs]
      exact hstep rest w tok _ hne hs
        (ih _ (by rw [List.length_drop]; omega) f (by rw [List.length_drop]; omega))
    · simp only [hwin, Nat.not_le.mpr hlt]
      exact runeScan_eof_induction P hnil hstep _ rest (le_refl _) f (by omega)

theorem runeScan_cases (P : List Nat → Scanned → Prop)
    (hnil : P [] ⟨[], false, 0⟩)
    (hstep : ∀ rest w tok R, rest ≠ [] → ScanRunes rest true = (w, some tok) →
      P (rest.drop w) R → P rest (R.push tok))
    (s : List Nat) : P s (scan ScanRunes s) :=
  runeScan_induction P hnil hstep s.length s (le_refl _) _ (le_refl _)


/-! ## The rune counter on valid UTF-8 -/

theorem utf8Encode_shape (c : Nat) :
    ∃ d0 t, utf8Encode c = d0 :: t ∧ (c < 0x80 → d0 = c ∧ t = []) ∧
      (¬ c < 0x80 → 0x80 ≤ d0 ∧ 2 ≤ (utf8Encode c).length) := by
  unfold utf8Encode
  split_ifs with h1 h2 h3
  · exact ⟨_, _, rfl, fun _ => ⟨rfl, rfl⟩, fun h => absurd h1 h⟩
  · exact ⟨_, _, rfl, fun h => absurd h h1, fun _ => ⟨by omega, by simp⟩⟩
  · exact ⟨_, _, rfl, fun h => absurd h h1, fun _ => ⟨by omega, by simp⟩⟩
  · exact ⟨_, _, rfl, fun h => absurd h h1, fun _ => ⟨by omega, by simp⟩⟩

theorem utf8Encode_ne_nil (c : Nat) : utf8Encode c ≠ [] := by
  obtain ⟨d0, t, h, _⟩ := utf8Encode_shape c
  simp [h]

/-- On the encoding of a scalar value the rune scanner returns that encoding
as its token. -/
theorem ScanRunes_utf8Encode (c : Nat) (h : isScalar c) (rest : List Nat) (e : Bool) :
    ScanRunes (utf8Encode c ++ rest) e = ((utf8Encode c).length, some (utf8Encode c)) := by
  have hD := DecodeRune_utf8Encode c h rest
  obtain ⟨d0, t, henc, h1, h2⟩ := utf8Encode_shape c
  rw [henc] at hD ⊢
  by_cases hc : c < 0x80
  · obtain ⟨rfl, rfl⟩ := h1 hc
    simp [ScanRunes, hc]
  · obtain ⟨hd, hl⟩ := h2 hc
    rw [henc] at hl
    rw [List.cons_append] at hD ⊢
    have hw : 1 < (d0 :: t).length := by omega
    simp only [ScanRunes, hD, Nat.not_lt.mpr hd, if_false, hw, if_true]
    rw [← List.cons_append, List.take_left]

theorem utf8EncodeAll_cons (c : Nat) (cps : List Nat) :
    utf8EncodeAll (c :: cps) = utf8Encode c ++ utf8EncodeAll cps := by
  simp [utf8EncodeAll]

theorem utf8EncodeAll_eq_nil {cps : List Nat} (h : utf8EncodeAll cps = []) : cps = [] := by
  cases cps with
  | nil => rfl
  | cons c t =>
    rw [utf8EncodeAll_cons] at h
    exact absurd (List.append_eq_nil.mp h).1 (utf8Encode_ne_nil c)

/-- On valid UTF-8 the rune scanner returns one token for each code point:
its encoding. -/
theorem scan_runes_utf8 (cps : List Nat) (hv : ∀ c ∈ cps, isScalar c) :
    scan ScanRunes (utf8EncodeAll cps) = ⟨cps.map utf8Encode, false, 0⟩ := by
  have key := runeScan_cases
    (fun rest R => ∀ cps : List Nat, (∀ c ∈ cps, isScalar c) → rest = utf8EncodeAll cps →
      R = ⟨cps.map utf8Encode, false, 0⟩) ?_ ?_ (utf8EncodeAll cps)
  · exact key cps hv rfl
  · intro cps _ h
    rw [utf8EncodeAll_eq_nil h.symm]
    rfl
  · intro rest w tok R hne hs ih cps hv hrest
    cases cps with
    | nil => exact absurd hrest hne
    | cons c t =>
      rw [utf8EncodeAll_cons] at hrest
      have hc := ScanRunes_utf8Encode c (hv c (by simp)) (utf8EncodeAll t) true
      rw [← hrest, hs] at hc
      obtain ⟨hw, htok⟩ := Prod.mk.inj hc
      have hdrop : rest.drop w = utf8EncodeAll t := by
        rw [hrest, hw, List.drop_left]
      rw [ih t (fun c hc => hv c (List.mem_cons_of_mem _ hc)) hdrop, Option.some.inj htok]
      rfl

theorem runeLoop_result (tokens : List (List Nat)) :
    ∀ result cur, (runeLoop result cur tokens).1 = result + tokens.length := by
  induction tokens with
  | nil => intro _ _; rfl
  | cons tok t ih =>
    intro result cur
    unfold runeLoop
    split_ifs
    · simp only [ih, List.length_cons]; omega
    · simp only [ih, List.length_cons]; omega

theorem wc_chars_eq {sched : List Bool} {s : List Nat} {r : count} (h : wc sched s = some r) :
    r.chars = (scan ScanRunes s).tokens.length := by
  rw [wc_eq_some h]
  simp [countRunesAndLonestLine, runeLoop_result]


/-! ## The shared variable `longest` -/

theorem maxOf_nil : maxOf [] = 0 := rfl

theorem maxOf_cons (a : Nat) (l : List Nat) : maxOf (a :: l) = max a (maxOf l) := rfl

theorem maxOf_le {l : List Nat} {B : Nat} (h : ∀ x ∈ l, x ≤ B) : maxOf l ≤ B := by
  induction l with
  | nil => simp [maxOf_nil]
  | cons a t ih =>
    rw [maxOf_cons]
    exact max_le (h a (by simp)) (ih (fun x hx => h x (List.mem_cons_of_mem _ hx)))

theorem le_maxOf {l : List Nat} {x : Nat} (h : x ∈ l) : x ≤ maxOf l := by
  induction l with
  | nil => cases h
  | cons a t ih =>
    rw [maxOf_cons]
    rcases List.mem_cons.mp h with rfl | h'
    · exact le_max_left _ _
    · exact le_trans (ih h') (le_max_right _ _)

theorem drainLine_none (todo : List Nat) :
    ∀ mem, drainLine mem none todo = max mem (maxOf todo) := by
  induction todo with
  | nil => intro mem; simp [drainLine, maxOf_nil]
  | cons n t ih =>
    intro mem
    simp only [drainLine, Option.getD_none, ih, maxOf_cons]
    omega

theorem drainLine_cons (mem : Nat) (loaded : Option Nat) (n : Nat) (t : List Nat) :
    drainLine mem loaded (n :: t) = max (max (loaded.getD mem) n) (maxOf t) := by
  simp only [drainLine, drainLine_none]

theorem drainRune_none (todo : List Nat) :
    ∀ mem, drainRune mem none todo = max mem (maxOf todo) := by
  induction todo with
  | nil => intro mem; simp [drainRune, maxOf_nil]
  | cons c t ih =>
    intro mem
    simp only [drainRune, Option.getD_none, ih, maxOf_cons]
    split_ifs <;> omega

theorem drainRune_cons (mem : Nat) (loaded : Option Nat) (c : Nat) (t : List Nat) :
    drainRune mem loaded (c :: t) = max (if loaded.getD mem < c then c else mem) (maxOf t) := by
  simp only [drainRune, drainRune_none]

/-- When the accesses of the two counters do not overlap, `longest` ends as
the largest of its initial value and of all the operands. -/
theorem interleave_nil (mem : Nat) (ls cs : List Nat) :
    interleave [] mem ⟨none, ls⟩ ⟨none, cs⟩ = max (max mem (maxOf ls)) (maxOf cs) := by
  simp only [interleave, drainLine_none, drainRune_none]

/-- Under every schedule `longest` stays below a bound on its initial value
and on the operands. -/
theorem interleave_le (B : Nat) (sched : List Bool) :
    ∀ (mem : Nat) (pl pr : Pending), mem ≤ B →
      (∀ v, pl.loaded = some v → v ≤ B) → (∀ x ∈ pl.todo, x ≤ B) →
      (∀ v, pr.loaded = some v → v ≤ B) → (∀ x ∈ pr.todo, x ≤ B) →
      interleave sched mem pl pr ≤ B := by
  induction sched with
  | nil =>
    intro mem pl pr hm hl1 hl2 hr1 hr2
    obtain ⟨ll, lt⟩ := pl
    obtain ⟨rl, rt⟩ := pr
    simp only at hl1 hl2 hr1 hr2
    simp only [interleave]
    have h1 : drainLine mem ll lt ≤ B := by
      cases lt with
      | nil => exact hm
      | cons n t =>
        rw [drainLine_cons]
        have hn := hl2 n (by simp)
        have ht : maxOf t ≤ B := maxOf_le (fun x hx => hl2 x (List.mem_cons_of_mem _ hx))
        have hg : ll.getD mem ≤ B := by
          cases ll with
          | none => exact hm
          | some v => exact hl1 v rfl
        omega
    cases rt with
    | nil => exact h1
    | cons c t =>
      rw [drainRune_cons]
      have hc := hr2 c (by simp)
      have ht : maxOf t ≤ B := maxOf_le (fun x hx => hr2 x (List.mem_cons_of_mem _ hx))
      split_ifs <;> omega
  | cons b sched ih =>
    intro mem pl pr hm hl1 hl2 hr1 hr2
    obtain ⟨ll, lt⟩ := pl
    obtain ⟨rl, rt⟩ := pr
    simp only at hl1 hl2 hr1 hr2
    cases b with
    | true =>
      simp only [interleave]
      cases lt with
      | nil => exact ih _ _ _ hm hl1 hl2 hr1 hr2
      | cons n t =>
        cases ll with
        | none =>
          refine ih _ _ _ hm ?_ hl2 hr1 hr2
          intro v hv
          simp only [lineStep, Option.some.injEq] at hv
          omega
        | some v =>
          have hn := hl2 n (by simp)
          have hv := hl1 v rfl
          refine ih _ _ _ (by simp only [lineStep]; omega) (by simp [lineStep])
            (fun x hx => hl2 x (List.mem_cons_of_mem _ (by simpa [lineStep] using hx))) hr1 hr2
    | false =>
      simp only [interleave]
      cases rt with
      | nil => exact ih _ _ _ hm hl1 hl2 hr1 hr2
      | cons c t =>
        cases rl with
        | none =>
          refine ih _ _ _ hm hl1 hl2 ?_ hr2
          intro v hv
          simp only [runeStep, Option.some.injEq] at hv
          omega
        | some v =>
          have hc := hr2 c (by simp)
          refine ih _ _ _ (by simp only [runeStep]; split_ifs <;> omega) hl1 hl2
            (by simp [runeStep])
            (fun x hx => hr2 x (List.mem_cons_of_mem _ (by simpa [runeStep] using hx)))


theorem maxOf_head {M : Nat} {t : List Nat} (h : ∀ x ∈ t, x ≤ M) : maxOf (M :: t) = M := by
  rw [maxOf_cons]
  exact max_eq_left (maxOf_le h)

/-- When the first update of each counter carries the largest operand `M`,
`longest` ends as `M` under every schedule: its first store of `M` comes
before any load that a smaller operand is compared with. -/
theorem interleave_first_max (M : Nat) (ls cs : List Nat)
    (hls : ∀ x ∈ ls, x ≤ M) (hcs : ∀ x ∈ cs, x ≤ M)
    (hl : ls = [] ∨ ls.head? = some M) (hr : cs = [] ∨ cs.head? = some M)
    (hne : ls ≠ [] ∨ cs ≠ []) (sched : List Bool) :
    ∀ (mem : Nat) (pl pr : Pending),
      (mem = M ∧
        (∀ x ∈ pl.todo, x ≤ M) ∧
        (∀ v, pl.loaded = some v → v ≤ M ∧ (v = M ∨ pl.todo.head? = some M ∨ pl.todo = [])) ∧
        (∀ x ∈ pr.todo, x ≤ M) ∧
        (∀ v, pr.loaded = some v → v ≤ M ∧ (v = M ∨ pr.todo.head? = some M ∨ pr.todo = []))) ∨
      (mem < M ∧ pl.todo = ls ∧ pr.todo = cs ∧
        (∀ v, pl.loaded = some v → v < M) ∧ (∀ v, pr.loaded = some v → v < M)) →
      interleave sched mem pl pr = M := by
  induction sched with
  | nil =>
    intro mem pl pr hinv
    obtain ⟨ll, lt⟩ := pl
    obtain ⟨rl, rt⟩ := pr
    simp only [interleave]
    rcases hinv with ⟨rfl, h1, h2, h3, h4⟩ | ⟨hm, rfl, rfl, h2, h4⟩
    · simp only at h1 h2 h3 h4
      have hd : drainLine mem ll lt = mem := by
        cases lt with
        | nil => rfl
        | cons n t =>
          rw [drainLine_cons]
          have hn := h1 n (by simp)
          have ht : maxOf t ≤ mem := maxOf_le (fun x hx => h1 x (List.mem_cons_of_mem _ hx))
          cases ll with
          | none => simp only [Option.getD_none]; omega
          | some v =>
            obtain ⟨hv, hv'⟩ := h2 v rfl
            simp only [Option.getD_some]
            rcases hv' with e | e | e
            · omega
            · simp only [List.head?_cons, Option.some.injEq] at e; omega
            · cases e
      rw [hd]
      cases rt with
      | nil => rfl
      | cons c t =>
        rw [drainRune_cons]
        have hc := h3 c (by simp)
        have ht : maxOf t ≤ mem := maxOf_le (fun x hx => h3 x (List.mem_cons_of_mem _ hx))
        cases rl with
        | none => simp only [Option.getD_none]; split_ifs <;> omega
        | some v =>
          obtain ⟨hv, hv'⟩ := h4 v rfl
          simp only [Option.getD_some]
          rcases hv' with e | e | e
          · split_ifs <;> omega
          · simp only [List.head?_cons, Option.some.injEq] at e
            split_ifs <;> omega
          · cases e
    · simp only at h2 h4
      have hgl : ll.getD mem < M := by
        cases ll with
        | none => exact hm
        | some v => exact h2 v rfl
      cases lt with
      | nil =>
        simp only [drainLine]
        cases rt with
        | nil => simp at hne
        | cons c t =>
          have hc : c = M := by
            rcases hr with e | e
            · cases e
            · simpa using e
          subst hc
          have hgr : rl.getD mem < c := by
            cases rl with
            | none => exact hm
            | some v => exact h4 v rfl
          have ht : maxOf t ≤ c := maxOf_le (fun x hx => hcs x (List.mem_cons_of_mem _ hx))
          rw [drainRune_cons, if_pos hgr]
          omega
      | cons n t =>
        have hn : n = M := by
          rcases hl with e | e
          · cases e
          · simpa using e
        subst hn
        have ht : maxOf t ≤ n := maxOf_le (fun x hx => hls x (List.mem_cons_of_mem _ hx))
        have hd : drainLine mem ll (n :: t) = n := by
          rw [drainLine_cons]; omega
        rw [hd]
        cases rt with
        | nil => rfl
        | cons c t' =>
          have hc : c = n := by
            rcases hr with e | e
            · cases e
            · simpa using e
          subst hc
          have ht' : maxOf t' ≤ c := maxOf_le (fun x hx => hcs x (List.mem_cons_of_mem _ hx))
          rw [drainRune_cons]
          split_ifs <;> omega
  | cons b sched ih =>
    intro mem pl pr hinv
    obtain ⟨ll, lt⟩ := pl
    obtain ⟨rl, rt⟩ := pr
    cases b with
    | true =>
      simp only [interleave]
      apply ih
      rcases hinv with ⟨rfl, h1, h2, h3, h4⟩ | ⟨hm, hlt, hrt, h2, h4⟩
      · simp only at h1 h2 h3 h4
        left
        cases lt with
        | nil => exact ⟨rfl, h1, h2, h3, h4⟩
        | cons n t =>
          have hn := h1 n (by simp)
          cases ll with
          | none =>
            refine ⟨rfl, h1, ?_, h3, h4⟩
            intro v hv
            simp only [lineStep, Option.some.injEq] at hv
            exact ⟨by omega, Or.inl hv.symm⟩
          | some v =>
            obtain ⟨hv, hv'⟩ := h2 v rfl
            refine ⟨?_, fun x hx => h1 x (List.mem_cons_of_mem _ (by simpa [lineStep] using hx)),
              by simp [lineStep], h3, h4⟩
            simp only [lineStep]
            rcases hv' with e | e | e
            · omega
            · simp only [List.head?_cons, Option.some.injEq] at e; omega
            · cases e
      · simp only at hlt hrt h2 h4
        subst hlt hrt
        cases lt with
        | nil => right; exact ⟨hm, rfl, rfl, h2, h4⟩
        | cons n t =>
          have hn : n = M := by
            rcases hl with e | e
            · cases e
            · simpa using e
          subst hn
          cases ll with
          | none =>
            right
            refine ⟨hm, rfl, rfl, ?_, h4⟩
            intro v hv
            simp only [lineStep, Option.some.injEq] at hv
            omega
          | some v =>
            have hv := h2 v rfl
            left
            refine ⟨by simp only [lineStep]; omega,
              fun x hx => hls x (List.mem_cons_of_mem _ (by simpa [lineStep] using hx)),
              by simp [lineStep], hcs, ?_⟩
            intro v' hv'
            have := h4 v' hv'
            refine ⟨by omega, Or.inr ?_⟩
            rcases hr with e | e
            · exact Or.inr e
            · exact Or.inl e
    | false =>
      simp only [interleave]
      apply ih
      rcases hinv with ⟨rfl, h1, h2, h3, h4⟩ | ⟨hm, hlt, hrt, h2, h4⟩
      · simp only at h1 h2 h3 h4
        left
        cases rt with
        | nil => exact ⟨rfl, h1, h2, h3, h4⟩
        | cons c t =>
          have hc := h3 c (by simp)
          cases rl with
          | none =>
            refine ⟨rfl, h1, h2, h3, ?_⟩
            intro v hv
            simp only [runeStep, Option.some.injEq] at hv
            exact ⟨by omega, Or.inl hv.symm⟩
          | some v =>
            obtain ⟨hv, hv'⟩ := h4 v rfl
            refine ⟨?_, h1, h2,
              fun x hx => h3 x (List.mem_cons_of_mem _ (by simpa [runeStep] using hx)),
              by simp [runeStep]⟩
            simp only [runeStep]
            rcases hv' with e | e | e
            · split_ifs <;> omega
            · simp only [List.head?_cons, Option.some.injEq] at e
              split_ifs <;> omega
            · cases e
      · simp only at hlt hrt h2 h4
        subst hlt hrt
        cases rt with
        | nil => right; exact ⟨hm, rfl, rfl, h2, h4⟩
        | cons c t =>
          have hc : c = M := by
            rcases hr with e | e
            · cases e
            · simpa using e
          subst hc
          cases rl with
          | none =>
            right
            refine ⟨hm, rfl, rfl, h2, ?_⟩
            intro v hv
            simp only [runeStep, Option.some.injEq] at hv
            omega
          | some v =>
            have hv := h4 v rfl
            left
            refine ⟨by simp only [runeStep]; rw [if_pos hv], hls, ?_,
              fun x hx => hcs x (List.mem_cons_of_mem _ (by simpa [runeStep] using hx)),
              by simp [runeStep]⟩
            intro v' hv'
            have := h2 v' hv'
            refine ⟨by omega, Or.inr ?_⟩
            rcases hl with e | e
            · exact Or.inr e
            · exact Or.inl e

/-- The form of `interleave_first_max` for the start of `wc`. -/
theorem interleave_start_first_max (M : Nat) (ls cs : List Nat)
    (hls : ∀ x ∈ ls, x ≤ M) (hcs : ∀ x ∈ cs, x ≤ M)
    (hl : ls = [] ∨ ls.head? = some M) (hr : cs = [] ∨ cs.head? = some M)
    (hne : ls ≠ [] ∨ cs ≠ []) (sched : List Bool) :
    interleave sched 0 ⟨none, ls⟩ ⟨none, cs⟩ = M := by
  apply interleave_first_max M ls cs hls hcs hl hr hne
  by_cases hM : M = 0
  · left
    subst hM
    exact ⟨rfl, hls, by simp, hcs, by simp⟩
  · right
    exact ⟨by omega, rfl, rfl, by simp, by simp⟩


/-! ## The two longest-line measurements -/

/-- The rune counter issues one update for each newline-delimited segment of
its tokens, with the number of tokens of the segment. -/
theorem runeLoop_updates_aux (tokens : List (List Nat)) :
    ∀ result cur, ∃ h t, (segments [0x0A] tokens).map List.length = h :: t ∧
      (runeLoop result cur tokens).2 = (cur + h) :: t := by
  induction tokens with
  | nil => intro result cur; exact ⟨0, [], rfl, rfl⟩
  | cons tok toks ih =>
    intro result cur
    by_cases htok : tok = [0x0A]
    · obtain ⟨h, t, h1, h2⟩ := ih (result + 1) 0
      refine ⟨0, h :: t, ?_, ?_⟩
      · simp [segments, htok, h1]
      · simp [runeLoop, htok, h2]
    · obtain ⟨h, t, h1, h2⟩ := ih (result + 1) (cur + 1)
      refine ⟨h + 1, t, ?_, ?_⟩
      · simp only [segments, htok, if_false]
        split
        · rename_i e; rw [e] at h1; cases h1
        · rename_i seg segs e
          rw [e] at h1
          simp only [List.map_cons, List.cons.injEq] at h1
          simp [h1.1, h1.2]
      · simp only [runeLoop, htok, if_false, h2]
        congr 1
        omega

theorem runeLoop_updates (tokens : List (List Nat)) (result : Nat) :
    (runeLoop result 0 tokens).2 = (segments [0x0A] tokens).map List.length := by
  obtain ⟨h, t, h1, h2⟩ := runeLoop_updates_aux tokens result 0
  rw [h1, h2, Nat.zero_add]

theorem wc_longest_eq {sched : List Bool} {s : List Nat} {r : count} (h : wc sched s = some r) :
    r.longest = interleave sched 0 ⟨none, (scan ScanLines s).tokens.map List.length⟩
      ⟨none, (segments [0x0A] (scan ScanRunes s).tokens).map List.length⟩ := by
  rw [wc_eq_some h]
  simp [countWithSplitFunc, countRunesAndLonestLine, runeLoop_updates]

/-- When the updates of the two counters do not overlap, the record returned
by `wc` holds the larger of the two measurements. -/
theorem wc_longest_sequential (s : List Nat) (r : count) (h : wc [] s = some r) :
    r.longest = max (lineLongest s) (runeLongest s) := by
  rw [wc_longest_eq h, interleave_nil]
  simp [lineLongest, runeLongest]

/-! ## The longest line of the input -/

theorem longestFrom_mono (s : List Nat) :
    ∀ cur cur', cur ≤ cur' → longestFrom cur s ≤ longestFrom cur' s := by
  induction s with
  | nil => intro cur cur' h; exact h
  | cons b t ih =>
    intro cur cur' h
    simp only [longestFrom]
    split_ifs
    · omega
    · exact ih _ _ (by omega)

theorem le_longestFrom (s : List Nat) : ∀ cur, cur ≤ longestFrom cur s := by
  induction s with
  | nil => intro cur; exact le_refl _
  | cons b t ih =>
    intro cur
    simp only [longestFrom]
    split_ifs
    · omega
    · exact le_trans (by omega) (ih (cur + 1))

theorem longestFrom_append {pre : List Nat} (post : List Nat) (h : 0x0A ∉ pre) :
    ∀ cur, longestFrom cur (pre ++ post) = longestFrom (cur + pre.length) post := by
  induction pre with
  | nil => intro cur; rfl
  | cons b t ih =>
    intro cur
    have hb : ¬ b = 0x0A := fun e => h (by simp [e])
    have ht : 0x0A ∉ t := fun e => h (by simp [e])
    rw [List.cons_append, longestFrom, if_neg hb, ih ht, List.length_cons,
      show cur + 1 + t.length = cur + (t.length + 1) by omega]

theorem longestFrom_segments (s : List Nat) :
    ∀ cur, ∃ h t, segments 0x0A s = h :: t ∧
      longestFrom cur s = max (cur + h.length) (maxOf (t.map List.length)) := by
  induction s with
  | nil => intro cur; exact ⟨[], [], rfl, by simp [longestFrom, maxOf_nil]⟩
  | cons b t ih =>
    intro cur
    by_cases hb : b = 0x0A
    · obtain ⟨h, r, h1, h2⟩ := ih 0
      refine ⟨[], h :: r, by simp [segments, hb, h1], ?_⟩
      simp only [longestFrom, hb, if_true, h2, List.length_nil, List.map_cons, maxOf_cons]
      omega
    · obtain ⟨h, r, h1, h2⟩ := ih (cur + 1)
      refine ⟨b :: h, r, by simp [segments, hb, h1], ?_⟩
      simp only [longestFrom, hb, if_false, h2, List.length_cons]
      congr 1
      omega

theorem longestFrom_zero (s : List Nat) : longestFrom 0 s = longestLineBytes s := by
  obtain ⟨h, t, h1, h2⟩ := longestFrom_segments s 0
  rw [h2, longestLineBytes, h1]
  simp [maxOf_cons]

theorem dropCR_length_le (data : List Nat) : (dropCR data).length ≤ data.length := by
  unfold dropCR
  split_ifs <;> simp

/-- No token of the line scanner is longer than the longest line. -/
theorem scan_lines_token_le (s : List Nat) :
    ∀ tok ∈ (scan ScanLines s).tokens, tok.length ≤ longestLineBytes s := by
  simp only [← longestFrom_zero]
  refine lineScan_cases
    (fun rest R => ∀ tok ∈ R.tokens, tok.length ≤ longestFrom 0 rest) ?_ ?_ ?_ ?_ s
  · intro tok h; cases h
  · intro pre post R hpre _ ih tok htok
    have hl : longestFrom 0 (pre ++ 0x0A :: post) = max pre.length (longestFrom 0 post) := by
      rw [longestFrom_append _ hpre]
      simp [longestFrom]
    rw [hl]
    simp only [Scanned.push, List.mem_cons] at htok
    rcases htok with rfl | htok
    · exact le_trans (dropCR_length_le pre) (le_max_left _ _)
    · exact le_trans (ih tok htok) (le_max_right _ _)
  · intro rest _ hmem _ tok htok
    simp only [List.mem_singleton] at htok
    subst htok
    have := longestFrom_append [] hmem 0
    simp only [List.append_nil, longestFrom, Nat.zero_add] at this
    rw [this]
    exact dropCR_length_le rest
  · intro rest _ _ tok h; cases h

/-- No update of the rune counter is larger than the longest line. -/
theorem scan_runes_update_le (s : List Nat) :
    ∀ c ∈ (runeLoop 0 0 (scan ScanRunes s).tokens).2, c ≤ longestLineBytes s := by
  simp only [← longestFrom_zero]
  have key := runeScan_cases
    (fun rest R => ∀ result cur, ∀ c ∈ (runeLoop result cur R.tokens).2, c ≤ longestFrom cur rest)
    ?_ ?_ s
  · exact key 0 0
  · intro result cur c hc
    simp only [runeLoop, List.mem_singleton] at hc
    subst hc
    exact le_refl _
  · intro rest w tok R hne hs ih result cur c hc
    obtain ⟨w', tok', hs', hw1, hw2, hcase⟩ := ScanRunes_eof hne
    rw [hs] at hs'
    obtain ⟨rfl, htok⟩ := Prod.mk.inj hs'
    obtain rfl := Option.some.inj htok
    rcases hcase with ⟨rfl, rfl, hhead⟩ | ⟨htok', hmem⟩
    · match rest, hhead with
      | b :: t, hhead =>
        simp only [List.head?_cons, Option.some.injEq] at hhead
        subst hhead
        simp only [Scanned.push, runeLoop, if_true, List.mem_cons] at hc
        simp only [longestFrom, if_true]
        rcases hc with rfl | hc
        · exact le_max_left _ _
        · exact le_trans (ih _ _ c hc) (le_max_right _ _)
    · simp only [Scanned.push, runeLoop, htok', if_false] at hc
      have h1 := ih _ _ c hc
      have h2 : longestFrom cur rest = longestFrom (cur + w) (rest.drop w) := by
        conv_lhs => rw [← List.take_append_drop w rest]
        rw [longestFrom_append _ hmem, List.length_take_of_le hw2]
      rw [h2]
      exact le_trans h1 (longestFrom_mono _ _ _ (by omega))


/-! ## Input on a single unterminated line -/

theorem utf8Encode_ascii {c : Nat} (h : c < 0x80) : utf8Encode c = [c] := by
  simp [utf8Encode, h]

theorem utf8EncodeAll_ascii (cps : List Nat) (h : ∀ c ∈ cps, c < 0x80) :
    utf8EncodeAll cps = cps ∧ cps.map utf8Encode = cps.map (fun c => [c]) := by
  induction cps with
  | nil => exact ⟨rfl, rfl⟩
  | cons c t ih =>
    obtain ⟨h1, h2⟩ := ih (fun x hx => h x (List.mem_cons_of_mem _ hx))
    have hc := utf8Encode_ascii (h c (by simp))
    rw [utf8EncodeAll_cons, h1, hc]
    exact ⟨rfl, by simp [hc, h2]⟩

/-- The line scanner on a stream without newline returns at most one token,
the stream less a final carriage return. -/
theorem scan_lines_single (s : List Nat) (h : 0x0A ∉ s) :
    (scan ScanLines s).tokens = [] ∨ (scan ScanLines s).tokens = [dropCR s] := by
  revert h
  refine lineScan_cases
    (fun rest R => 0x0A ∉ rest → R.tokens = [] ∨ R.tokens = [dropCR rest]) ?_ ?_ ?_ ?_ s
  · intro _; exact Or.inl rfl
  · intro pre post R _ _ _ h
    exact absurd (by simp) h
  · intro rest _ _ _ _; exact Or.inr rfl
  · intro rest _ _ _; exact Or.inl rfl

theorem dropCR_eq_self {data : List Nat} (h : data.getLast? ≠ some 0x0D) : dropCR data = data := by
  simp [dropCR, h]

theorem acceptRanges_cont (p0 : Nat) (hx : first p0 < 0xF0) :
    0x80 ≤ (acceptRanges (first p0 / 16)).1 ∧ (acceptRanges (first p0 / 16)).2 ≤ 0xBF ∧
      2 ≤ first p0 % 8 := by
  rcases first_cases p0 with e | e | e | e | e | e | e | e | e <;> rw [e] at hx ⊢ <;>
    first | (exfalso; omega) | decide

/-- Decoding a buffer that was cut short either agrees with decoding the whole
stream, or gives `RuneError` on a cut encoding whose bytes after the first are
continuation bytes. -/
theorem DecodeRune_take_cases (l : List Nat) (n : Nat) (hn : 0 < n) :
    DecodeRune (l.take n) = DecodeRune l ∨
      (DecodeRune (l.take n) = (RuneError, 1) ∧ ∀ b ∈ (l.take n).drop 1, 0x80 ≤ b ∧ b ≤ 0xBF) := by
  by_cases h4 : 4 ≤ n
  · exact Or.inl (DecodeRune_take l n h4)
  by_cases hlen : l.length ≤ n
  · left; rw [List.take_of_length_le hlen]
  match n, l with
  | 1, p0 :: b1 :: t =>
    simp only [List.take_succ_cons, List.take_zero, List.drop_one, List.tail_cons]
    by_cases hx : 0xF0 ≤ first p0
    · left; simp [DecodeRune, hx]
    · right
      obtain ⟨_, _, hs⟩ := acceptRanges_cont p0 (by omega)
      have hs' : 1 < first p0 % 8 := by omega
      simp [DecodeRune, hx, hs']
  | 2, p0 :: b1 :: b2 :: t =>
    simp only [List.take_succ_cons, List.take_zero, List.drop_one, List.tail_cons]
    by_cases hx : 0xF0 ≤ first p0
    · left; simp [DecodeRune, hx]
    · obtain ⟨ha1, ha2, hs⟩ := acceptRanges_cont p0 (by omega)
      by_cases hb1 : b1 < (acceptRanges (first p0 / 16)).1 ∨ (acceptRanges (first p0 / 16)).2 < b1
      · left
        simp only [DecodeRune, hx, hb1, if_true, if_false, List.length_cons, List.length_nil]
        split_ifs <;> rfl
      · by_cases hs2 : first p0 % 8 ≤ 2
        · left
          have h1 : ¬ 2 < first p0 % 8 := by omega
          have h2 : ¬ t.length + 1 + 1 + 1 < first p0 % 8 := by omega
          simp [DecodeRune, hx, hb1, hs2, h1, h2]
        · right
          have h1 : 2 < first p0 % 8 := by omega
          refine ⟨by simp [DecodeRune, hx, h1], ?_⟩
          intro b hb
          simp only [List.mem_singleton] at hb
          subst hb
          omega
  | 3, p0 :: b1 :: b2 :: b3 :: t =>
    simp only [List.take_succ_cons, List.take_zero, List.drop_one, List.tail_cons]
    have hs4 := first_size_le p0
    by_cases hx : 0xF0 ≤ first p0
    · left; simp [DecodeRune, hx]
    · obtain ⟨ha1, ha2, hs⟩ := acceptRanges_cont p0 (by omega)
      by_cases hb1 : b1 < (acceptRanges (first p0 / 16)).1 ∨ (acceptRanges (first p0 / 16)).2 < b1
      · left
        simp only [DecodeRune, hx, hb1, if_true, if_false, List.length_cons, List.length_nil]
        split_ifs <;> rfl
      · by_cases hs2 : first p0 % 8 ≤ 2
        · left
          have h1 : ¬ 3 < first p0 % 8 := by omega
          have h2 : ¬ t.length + 1 + 1 + 1 + 1 < first p0 % 8 := by omega
          simp [DecodeRune, hx, hb1, hs2, h1, h2]
        · by_cases hb2 : b2 < 0x80 ∨ 0xBF < b2
          · left
            simp only [DecodeRune, hx, hb1, hb2, hs2, if_true, if_false, List.length_cons,
              List.length_nil]
            split_ifs <;> rfl
          · by_cases hs3 : first p0 % 8 ≤ 3
            · left
              have h1 : ¬ 3 < first p0 % 8 := by omega
              have h2 : ¬ t.length + 1 + 1 + 1 + 1 < first p0 % 8 := by omega
              simp [DecodeRune, hx, hb1, hb2, hs2, hs3, h1, h2]
            · right
              have h1 : 3 < first p0 % 8 := by omega
              refine ⟨by simp [DecodeRune, hx, h1], ?_⟩
              intro b hb
              simp only [List.mem_cons, List.mem_singleton, List.not_mem_nil, or_false] at hb
              rcases hb with rfl | rfl <;> omega
  | 1, [] => simp at hlen
  | 1, [_] => simp at hlen
  | 2, [] => simp at hlen
  | 2, [_] => simp at hlen
  | 2, [_, _] => simp at hlen
  | 3, [] => simp at hlen
  | 3, [_] => simp at hlen
  | 3, [_, _] => simp at hlen
  | 3, [_, _, _] => simp at hlen
  | n + 4, _ => omega

theorem isSpace_RuneError : isSpace RuneError = false := by decide

/-- A continuation byte decodes as an error of width one. -/
theorem DecodeRune_cont {b : Nat} (t : List Nat) (h1 : 0x80 ≤ b) (h2 : b ≤ 0xBF) :
    DecodeRune (b :: t) = (RuneError, 1) := by
  have hf : first b = 0xF1 := by
    unfold first
    rw [if_neg (by omega), if_pos (by omega)]
  simp [DecodeRune, hf]

/-- The loop that looks for the end of a word finds none among continuation
bytes. -/
theorem wordEnd_cont (fuel : Nat) :
    ∀ data : List Nat, (∀ b ∈ data, 0x80 ≤ b ∧ b ≤ 0xBF) → wordEnd fuel data = none := by
  induction fuel with
  | zero => intro data _; rfl
  | succ f ih =>
    intro data h
    cases data with
    | nil => rfl
    | cons b t =>
      obtain ⟨h1, h2⟩ := h b (by simp)
      have ht : ∀ x ∈ t, 0x80 ≤ x ∧ x ≤ 0xBF := fun x hx => h x (List.mem_cons_of_mem _ hx)
      simp [wordEnd, DecodeRune_cont t h1 h2, isSpace_RuneError, ih t ht]

/-! ## The word scanner -/

theorem decodeFrom_drop (s : List Nat) : ∀ k, decodeFrom k s = decodeRunes (s.drop k) := by
  induction s with
  | nil => intro k; cases k <;> rfl
  | cons b t ih =>
    intro k
    cases k with
    | zero => rfl
    | succ k => simp only [decodeFrom, List.drop_succ_cons, ih]

theorem decodeRunes_nil : decodeRunes [] = [] := rfl

theorem decodeRunes_cons {s : List Nat} (h : s ≠ []) :
    decodeRunes s = (DecodeRune s).1 :: decodeRunes (s.drop (DecodeRune s).2) := by
  match s, h with
  | b :: t, _ =>
    have hw := DecodeRune_width_pos b t
    obtain ⟨k, hk⟩ : ∃ k, (DecodeRune (b :: t)).2 = k + 1 := ⟨_, (Nat.sub_add_cancel hw).symm⟩
    simp only [decodeRunes, decodeFrom]
    rw [decodeFrom_drop, hk]
    simp [decodeRunes]

theorem DecodeRune_width_pos' {s : List Nat} (h : s ≠ []) : 1 ≤ (DecodeRune s).2 := by
  match s, h with
  | b :: t, _ => exact DecodeRune_width_pos b t

/-- A white space rune decoded from a cut buffer is the rune of the stream. -/
theorem DecodeRune_take_space {l : List Nat} {n : Nat} (hn : 0 < n)
    (h : isSpace (DecodeRune (l.take n)).1 = true) : DecodeRune (l.take n) = DecodeRune l := by
  rcases DecodeRune_take_cases l n hn with e | ⟨e, _⟩
  · exact e
  · rw [e] at h
    simp [isSpace_RuneError] at h

/-- The first loop of `ScanWords` on a buffer `l.take n` of the stream `l`
skips whole white space runes of the stream and stops in front of a rune that
the buffer does not show as white space. -/
theorem skipSpaces_spec (fuel : Nat) :
    ∀ (n : Nat) (l : List Nat), (l.take n).length ≤ fuel →
      skipSpaces fuel (l.take n) ≤ (l.take n).length ∧
      countRuns false (decodeRunes l)
        = countRuns false (decodeRunes (l.drop (skipSpaces fuel (l.take n)))) ∧
      ((l.take n).drop (skipSpaces fuel (l.take n)) ≠ [] →
        isSpace (DecodeRune ((l.take n).drop (skipSpaces fuel (l.take n)))).1 = false) := by
  induction fuel with
  | zero =>
    intro n l _
    simp only [skipSpaces, Nat.zero_le, List.drop_zero, true_and]
    intro h
    rename_i hlen
    exact absurd (List.length_eq_zero.mp (Nat.le_zero.mp hlen)) h
  | succ f ih =>
    intro n l hlen
    by_cases hD : l.take n = []
    · simp [hD, skipSpaces]
    have hn : 0 < n := by
      rcases Nat.eq_zero_or_pos n with e | e
      · subst e; simp at hD
      · exact e
    have hl : l ≠ [] := by
      intro e; subst e; simp at hD
    have hDe : (l.take n).isEmpty = false := by
      cases hh : l.take n with
      | nil => exact absurd hh hD
      | cons _ _ => rfl
    by_cases hsp : isSpace (DecodeRune (l.take n)).1 = true
    · have hfull := DecodeRune_take_space hn hsp
      have hw1 := DecodeRune_width_pos' hD
      have hw2 := DecodeRune_width_le (l.take n)
      have hdrop : (l.take n).drop (DecodeRune (l.take n)).2
          = (l.drop (DecodeRune (l.take n)).2).take (n - (DecodeRune (l.take n)).2) :=
        List.drop_take _ _ _
      have hk : skipSpaces (f + 1) (l.take n)
          = (DecodeRune (l.take n)).2 + skipSpaces f ((l.take n).drop (DecodeRune (l.take n)).2) := by
        simp [skipSpaces, hDe, hsp]
      obtain ⟨i1, i2, i3⟩ := ih (n - (DecodeRune (l.take n)).2) (l.drop (DecodeRune (l.take n)).2)
        (by rw [← hdrop, List.length_drop]; omega)
      rw [← hdrop] at i1 i2 i3
      rw [hk]
      refine ⟨?_, ?_, ?_⟩
      · rw [List.length_drop] at i1; omega
      · rw [decodeRunes_cons hl, ← hfull]
        simp only [countRuns, hsp, if_true]
        rw [i2, List.drop_drop, Nat.add_comm]
      · rw [← List.drop_drop]
        rw [Nat.add_comm] at *
        exact i3
    · have hk : skipSpaces (f + 1) (l.take n) = 0 := by
        simp [skipSpaces, hDe, hsp]
      rw [hk]
      simp only [List.drop_zero, Nat.zero_le, true_and]
      intro _
      simpa using hsp

theorem countRuns_cons_nonspace {r : Nat} (h : isSpace r = false) (b : Bool) (t : List Nat) :
    countRuns b (r :: t) = (if b then 0 else 1) + countRuns true t := by
  simp [countRuns, h]

theorem countRuns_cons_space {r : Nat} (h : isSpace r = true) (b : Bool) (t : List Nat) :
    countRuns b (r :: t) = countRuns false t := by
  simp [countRuns, h]

/-- The second loop of `ScanWords` on a buffer `l.take n` of the stream `l`:
when it finds a white space rune at offset `i`, the runes of the stream
before it are not white space and that rune is. -/
theorem wordEnd_spec (fuel : Nat) :
    ∀ (n : Nat) (l : List Nat) (i wd : Nat) (b : Bool), (l.take n).length ≤ fuel →
      wordEnd fuel (l.take n) = some (i, wd) →
      i + wd ≤ (l.take n).length ∧ 1 ≤ wd ∧
      countRuns b (decodeRunes l)
        = (if i = 0 ∨ b = true then 0 else 1) + countRuns false (decodeRunes (l.drop (i + wd))) := by
  induction fuel with
  | zero => intro n l i wd b _ h; simp [wordEnd] at h
  | succ f ih =>
    intro n l i wd b hlen h
    by_cases hD : l.take n = []
    · simp [hD, wordEnd] at h
    have hn : 0 < n := by
      rcases Nat.eq_zero_or_pos n with e | e
      · subst e; simp at hD
      · exact e
    have hl : l ≠ [] := by
      intro e; subst e; simp at hD
    have hDe : (l.take n).isEmpty = false := by
      cases hh : l.take n with
      | nil => exact absurd hh hD
      | cons _ _ => rfl
    have hw1 := DecodeRune_width_pos' hD
    have hw2 := DecodeRune_width_le (l.take n)
    by_cases hsp : isSpace (DecodeRune (l.take n)).1 = true
    · have hfull := DecodeRune_take_space hn hsp
      simp only [wordEnd, hDe, hsp, if_true, Option.some.injEq, Prod.mk.injEq] at h
      simp only [Bool.false_eq_true, if_false] at h
      obtain ⟨rfl, rfl⟩ := h
      refine ⟨by omega, hw1, ?_⟩
      rw [decodeRunes_cons hl, ← hfull, countRuns_cons_space hsp]
      simp
    · have hsp' : isSpace (DecodeRune (l.take n)).1 = false := by simpa using hsp
      simp only [wordEnd, hDe, hsp', Bool.false_eq_true, if_false] at h
      obtain ⟨⟨i', wd'⟩, h1, h2⟩ := Option.map_eq_some'.mp h
      simp only [Prod.mk.injEq] at h2
      obtain ⟨rfl, rfl⟩ := h2
      have hdrop : (l.take n).drop (DecodeRune (l.take n)).2
          = (l.drop (DecodeRune (l.take n)).2).take (n - (DecodeRune (l.take n)).2) :=
        List.drop_take _ _ _
      rcases DecodeRune_take_cases l n hn with e | ⟨e, hcont⟩
      · rw [hdrop] at h1
        obtain ⟨j1, j2, j3⟩ := ih _ _ i' wd' true
          (by rw [← hdrop, List.length_drop]; omega) h1
        rw [← hdrop, List.length_drop] at j1
        refine ⟨by omega, j2, ?_⟩
        rw [decodeRunes_cons hl, ← e, countRuns_cons_nonspace hsp', j3, List.drop_drop]
        have hne : ¬ ((DecodeRune (l.take n)).2 + i' = 0) := by omega
        simp only [hne, false_or, or_true, if_true, Nat.zero_add]
        rw [Nat.add_assoc]
      · rw [e] at h1
        rw [wordEnd_cont f _ hcont] at h1
        cases h1

theorem wordEnd_pos {fuel : Nat} {data : List Nat} {i wd : Nat}
    (h : wordEnd fuel data = some (i, wd)) (hsp : isSpace (DecodeRune data).1 = false) :
    0 < i := by
  cases fuel with
  | zero => simp [wordEnd] at h
  | succ f =>
    cases data with
    | nil => simp [wordEnd] at h
    | cons b t =>
      have hw := DecodeRune_width_pos b t
      simp only [wordEnd, List.isEmpty_cons, hsp, Bool.false_eq_true, if_false] at h
      obtain ⟨⟨i', wd'⟩, _, h2⟩ := Option.map_eq_some'.mp h
      simp only [Prod.mk.injEq] at h2
      omega

/-- When the second loop of `ScanWords` runs off the end of the whole
stream, no rune of the stream is white space. -/
theorem wordEnd_none_spec (fuel : Nat) :
    ∀ (l : List Nat) (b : Bool), l.length ≤ fuel → wordEnd fuel l = none →
      countRuns b (decodeRunes l) = if l = [] ∨ b = true then 0 else 1 := by
  induction fuel with
  | zero =>
    intro l b hlen _
    have : l = [] := List.length_eq_zero.mp (Nat.le_zero.mp hlen)
    subst this
    simp [decodeRunes_nil, countRuns]
  | succ f ih =>
    intro l b hlen h
    by_cases hl : l = []
    · subst hl
      simp [decodeRunes_nil, countRuns]
    have hle : l.isEmpty = false := by
      cases hh : l with
      | nil => exact absurd hh hl
      | cons _ _ => rfl
    have hw1 := DecodeRune_width_pos' hl
    by_cases hsp : isSpace (DecodeRune l).1 = true
    · simp [wordEnd, hle, hsp] at h
    · have hsp' : isSpace (DecodeRune l).1 = false := by simpa using hsp
      simp only [wordEnd, hle, hsp', Bool.false_eq_true, if_false, Option.map_eq_none'] at h
      have := ih _ true (by rw [List.length_drop]; omega) h
      rw [decodeRunes_cons hl, countRuns_cons_nonspace hsp', this]
      simp [hl]


theorem ScanWords_nil : ScanWords [] true = (0, none) := by
  simp [ScanWords, skipSpaces, wordEnd]

theorem ScanWords_some {data : List Nat} {i wd : Nat} (e : Bool)
    (h : wordEnd data.length (data.drop (skipSpaces data.length data)) = some (i, wd)) :
    ScanWords data e = (skipSpaces data.length data + i + wd,
      some ((data.drop (skipSpaces data.length data)).take i)) := by
  simp only [ScanWords, h]

theorem ScanWords_none_false {data : List Nat}
    (h : wordEnd data.length (data.drop (skipSpaces data.length data)) = none) :
    ScanWords data false = (skipSpaces data.length data, none) := by
  simp only [ScanWords, h]
  simp

theorem ScanWords_none_true {data : List Nat}
    (h : wordEnd data.length (data.drop (skipSpaces data.length data)) = none)
    (hs : skipSpaces data.length data < data.length) :
    ScanWords data true = (data.length, some (data.drop (skipSpaces data.length data))) := by
  simp only [ScanWords, h]
  simp [hs]

/-- The word scan against the specification: its tokens are words of the
stream, none of them empty, and when the scan stops on no error there is one
token for each maximal run of code points that are not white space. -/
theorem wordScan_main :
    ∀ (n : Nat) (rest : List Nat), rest.length ≤ n → ∀ fuel, rest.length + 2 ≤ fuel →
      (scanLoop ScanWords fuel rest false).tokens.length ≤ specWords rest ∧
      ((scanLoop ScanWords fuel rest false).tooLong = false →
        (scanLoop ScanWords fuel rest false).tokens.length = specWords rest) ∧
      ∀ tok ∈ (scanLoop ScanWords fuel rest false).tokens, tok ≠ [] := by
  intro n
  induction n with
  | zero =>
    intro rest hn fuel _
    have : rest = [] := List.length_eq_zero.mp (Nat.le_zero.mp hn)
    subst this
    rw [scanLoop_nil _ ScanWords_nil]
    simp [specWords, decodeRunes_nil, countRuns]
  | succ n ih =>
    intro rest hn fuel hf
    by_cases hne : rest = []
    · subst hne
      rw [scanLoop_nil _ ScanWords_nil]
      simp [specWords, decodeRunes_nil, countRuns]
    obtain ⟨f, rfl⟩ : ∃ f, fuel = f + 1 := ⟨fuel - 1, by omega⟩
    have hpos : 0 < rest.length := List.length_pos.mpr hne
    have hWe : (rest.take maxScanTokenSize).isEmpty = false := by
      match rest, hne with
      | d0 :: t, _ => rw [take_window_cons]; rfl
    obtain ⟨s1, s2, s3⟩ := skipSpaces_spec (rest.take maxScanTokenSize).length maxScanTokenSize
      rest (le_refl _)
    have hdrop : (rest.take maxScanTokenSize).drop
          (skipSpaces (rest.take maxScanTokenSize).length (rest.take maxScanTokenSize))
        = (rest.drop (skipSpaces (rest.take maxScanTokenSize).length
            (rest.take maxScanTokenSize))).take
          (maxScanTokenSize - skipSpaces (rest.take maxScanTokenSize).length
            (rest.take maxScanTokenSize)) := List.drop_take _ _ _
    have hWlen : (rest.take maxScanTokenSize).length ≤ rest.length := by
      rw [List.length_take]; exact Nat.min_le_right _ _
    generalize hstart : skipSpaces (rest.take maxScanTokenSize).length
      (rest.take maxScanTokenSize) = start at s1 s2 s3 hdrop
    cases hwe : wordEnd (rest.take maxScanTokenSize).length
        ((rest.take maxScanTokenSize).drop start) with
    | some iw =>
      obtain ⟨i, wd⟩ := iw
      have hS := ScanWords_some false (hstart ▸ hwe)
      rw [hstart] at hS
      have hwe' := hwe
      rw [hdrop] at hwe'
      obtain ⟨t1, t2, t3⟩ := wordEnd_spec _ _ _ i wd false
        (by rw [← hdrop, List.length_drop]; omega) hwe'
      rw [← hdrop] at t1
      have hDne : (rest.take maxScanTokenSize).drop start ≠ [] := by
        intro e
        rw [e] at t1
        simp at t1
        omega
      have hi : 0 < i := wordEnd_pos hwe (s3 hDne)
      have hdd : (rest.drop start).drop (i + wd) = rest.drop (start + i + wd) := by
        rw [List.drop_drop, ← Nat.add_assoc]
      rw [hdd] at t3
      have hspec : specWords rest = specWords (rest.drop (start + i + wd)) + 1 := by
        unfold specWords
        rw [s2, t3]
        have : ¬ (i = 0 ∨ false = true) := by simp; omega
        simp only [this, if_false]
        omega
      have hl2 : (rest.drop (start + i + wd)).length = rest.length - (start + i + wd) :=
        List.length_drop _ _
      obtain ⟨q1, q2, q3⟩ := ih (rest.drop (start + i + wd)) (by omega) f (by omega)
      rw [scanLoop]
      simp only [hWe, hS, hspec, Bool.false_eq_true, if_false]
      refine ⟨?_, ?_, ?_⟩
      · simp only [Scanned.push, List.length_cons]; omega
      · intro htl
        simp only [Scanned.push] at htl
        simp only [Scanned.push, List.length_cons, q2 htl]
      · intro tok htok
        simp only [Scanned.push, List.mem_cons] at htok
        rcases htok with rfl | htok
        · intro e
          have := congrArg List.length e
          rw [List.length_take] at this
          simp only [List.length_nil] at this
          omega
        · exact q3 tok htok
    | none =>
      have hS := ScanWords_none_false (hstart ▸ hwe)
      rw [hstart] at hS
      cases start with
      | zero =>
        by_cases hlen : maxScanTokenSize ≤ rest.length
        · rw [scanLoop]
          simp [hWe, hS, hlen]
        · have hlt : rest.length < maxScanTokenSize := Nat.not_le.mp hlen
          have hW : rest.take maxScanTokenSize = rest := List.take_of_length_le (le_of_lt hlt)
          rw [hW] at hstart hwe hS
          have hT := ScanWords_none_true (hstart ▸ hwe) (by rw [hstart]; exact hpos)
          rw [hstart] at hT
          obtain ⟨f', rfl⟩ : ∃ f', f = f' + 1 := ⟨f - 1, by omega⟩
          have hone : specWords rest = 1 := by
            unfold specWords
            rw [wordEnd_none_spec _ rest false (le_refl _) hwe]
            simp [hne]
          rw [scanLoop]
          simp only [hW, hS, hlen, if_false]
          have hre : rest.isEmpty = false := by rw [hW] at hWe; exact hWe
          simp only [hre, Bool.false_eq_true, if_false]
          rw [scanLoop]
          simp only [hT, List.drop_length, List.drop_zero]
          rw [scanLoop_nil _ ScanWords_nil]
          simp [Scanned.push, hone, hne]
      | succ k =>
        have hspec : specWords rest = specWords (rest.drop (k + 1)) := by
          unfold specWords
          rw [s2]
        have hl2 : (rest.drop (k + 1)).length = rest.length - (k + 1) := List.length_drop _ _
        obtain ⟨q1, q2, q3⟩ := ih (rest.drop (k + 1)) (by omega) f (by omega)
        rw [scanLoop]
        simp only [hWe, hS, hspec, Bool.false_eq_true, if_false]
        exact ⟨q1, q2, q3⟩

theorem scan_words_spec (s : List Nat) :
    (scan ScanWords s).tokens.length ≤ specWords s ∧
      ((scan ScanWords s).tooLong = false → (scan ScanWords s).tokens.length = specWords s) ∧
      ∀ tok ∈ (scan ScanWords s).tokens, tok ≠ [] :=
  wordScan_main s.length s (le_refl _) _ (le_refl _)

theorem wc_words_eq {sched : List Bool} {s : List Nat} {r : count} (h : wc sched s = some r) :
    r.words = (scan ScanWords s).tokens.length := by
  rw [wc_eq_some h]
  simp [countWithSplitFunc]


/-! ## Words: long words and white space -/

theorem skipSpaces_nonspace (fuel : Nat) {b : Nat} (t : List Nat) (h1 : b < 0x80)
    (h2 : isSpace b = false) : skipSpaces fuel (b :: t) = 0 := by
  cases fuel with
  | zero => rfl
  | succ f => simp [skipSpaces, DecodeRune_ascii t h1, h2]

theorem wordEnd_nonspace (fuel : Nat) :
    ∀ data : List Nat, (∀ b ∈ data, b < 0x80 ∧ isSpace b = false) → wordEnd fuel data = none := by
  induction fuel with
  | zero => intro data _; rfl
  | succ f ih =>
    intro data h
    cases data with
    | nil => rfl
    | cons b t =>
      obtain ⟨h1, h2⟩ := h b (by simp)
      have ht : ∀ x ∈ t, x < 0x80 ∧ isSpace x = false :=
        fun x hx => h x (List.mem_cons_of_mem _ hx)
      simp [wordEnd, DecodeRune_ascii t h1, h2, ih t ht]

/-- On a run of ASCII bytes that are not white space and fill the buffer,
the word scanner stops with `ErrTooLong` before any token. -/
theorem scan_words_long (s : List Nat) (h : ∀ b ∈ s, b < 0x80 ∧ isSpace b = false)
    (hlen : maxScanTokenSize ≤ s.length) : (scan ScanWords s).tokens = [] := by
  match s, hlen with
  | b :: t, hlen =>
    obtain ⟨h1, h2⟩ := h b (by simp)
    have hW : ∀ x ∈ (b :: t).take maxScanTokenSize, x < 0x80 ∧ isSpace x = false :=
      fun x hx => h x (List.mem_of_mem_take hx)
    have hS : ScanWords ((b :: t).take maxScanTokenSize) false = (0, none) := by
      have hs0 : skipSpaces ((b :: t).take maxScanTokenSize).length
          ((b :: t).take maxScanTokenSize) = 0 := by
        rw [take_window_cons]
        exact skipSpaces_nonspace _ _ h1 h2
      have := @ScanWords_none_false ((b :: t).take maxScanTokenSize)
        (by rw [hs0]; exact wordEnd_nonspace _ _ hW)
      rw [hs0] at this
      exact this
    have hWe : ((b :: t).take maxScanTokenSize).isEmpty = false := by
      rw [take_window_cons]; rfl
    unfold scan
    rw [scanLoop]
    simp only [hWe, hS, hlen, Bool.false_eq_true, if_false, if_true]

theorem specWords_nonspace (s : List Nat) (h : ∀ b ∈ s, b < 0x80 ∧ isSpace b = false)
    (hne : s ≠ []) : specWords s = 1 := by
  unfold specWords
  rw [wordEnd_none_spec s.length s false (le_refl _) (wordEnd_nonspace _ _ h)]
  simp [hne]

theorem isScalar_of_isSpace {c : Nat} (h : isSpace c = true) : isScalar c := by
  unfold isSpace at h
  unfold isScalar
  split_ifs at h with h1 h2
  · omega
  · omega
  · simp only [decide_eq_true_eq, Bool.or_eq_true] at h
    omega

theorem decodeRunes_utf8EncodeAll (cps : List Nat) (hv : ∀ c ∈ cps, isScalar c) :
    decodeRunes (utf8EncodeAll cps) = cps := by
  induction cps with
  | nil => rfl
  | cons c t ih =>
    have hne : utf8Encode c ++ utf8EncodeAll t ≠ [] := by
      intro e
      exact utf8Encode_ne_nil c (List.append_eq_nil.mp e).1
    rw [utf8EncodeAll_cons, decodeRunes_cons hne, DecodeRune_utf8Encode c (hv c (by simp))]
    simp only [List.drop_left]
    rw [ih (fun x hx => hv x (List.mem_cons_of_mem _ hx))]

theorem countRuns_spaces (cps : List Nat) (h : ∀ c ∈ cps, isSpace c = true) :
    countRuns false cps = 0 := by
  induction cps with
  | nil => rfl
  | cons c t ih =>
    rw [countRuns_cons_space (h c (by simp)), ih (fun x hx => h x (List.mem_cons_of_mem _ hx))]


/-! ## The fuel of the scanner loop

More fuel than `scan` supplies does not change the scan: the loop never runs
out of it. -/

theorem scanLoop_fuel_eof (split : SplitFunc)
    (hsplit : ∀ data e a t, split data e = (a, some t) → 0 < a ∧ a ≤ data.length) :
    ∀ (n : Nat) (rest : List Nat), rest.length ≤ n → ∀ f1 f2, rest.length + 1 ≤ f1 →
      rest.length + 1 ≤ f2 → scanLoop split f1 rest true = scanLoop split f2 rest true := by
  intro n
  induction n with
  | zero =>
    intro rest hn f1 f2 h1 h2
    obtain ⟨a, rfl⟩ : ∃ a, f1 = a + 1 := ⟨f1 - 1, by omega⟩
    obtain ⟨b, rfl⟩ : ∃ b, f2 = b + 1 := ⟨f2 - 1, by omega⟩
    rw [scanLoop, scanLoop]
    split
    · rename_i advance token hs
      have := hsplit _ _ _ _ hs
      omega
    · rfl
  | succ n ih =>
    intro rest hn f1 f2 h1 h2
    obtain ⟨a, rfl⟩ : ∃ a, f1 = a + 1 := ⟨f1 - 1, by omega⟩
    obtain ⟨b, rfl⟩ : ∃ b, f2 = b + 1 := ⟨f2 - 1, by omega⟩
    rw [scanLoop, scanLoop]
    split
    · rename_i advance token hs
      have := hsplit _ _ _ _ hs
      have hl : (rest.drop advance).length = rest.length - advance := List.length_drop _ _
      rw [ih (rest.drop advance) (by omega) a b (by omega) (by omega)]
    · rfl

theorem scanLoop_fuel (split : SplitFunc)
    (hsplit : ∀ data e a t, split data e = (a, some t) → 0 < a ∧ a ≤ data.length) :
    ∀ (n : Nat) (rest : List Nat), rest.length ≤ n → ∀ f1 f2, rest.length + 2 ≤ f1 →
      rest.length + 2 ≤ f2 → scanLoop split f1 rest false = scanLoop split f2 rest false := by
  intro n
  induction n using Nat.strong_induction_on with
  | _ n ih =>
    intro rest hn f1 f2 h1 h2
    obtain ⟨a, rfl⟩ : ∃ a, f1 = a + 1 := ⟨f1 - 1, by omega⟩
    obtain ⟨b, rfl⟩ : ∃ b, f2 = b + 1 := ⟨f2 - 1, by omega⟩
    have heof := scanLoop_fuel_eof split hsplit rest.length rest (le_refl _) a b (by omega)
      (by omega)
    have hW : (rest.take maxScanTokenSize).length ≤ rest.length := by
      rw [List.length_take]; exact Nat.min_le_right _ _
    by_cases hr : rest = []
    · subst hr
      rw [scanLoop, scanLoop]
      simpa using heof
    have hpos : 0 < rest.length := List.length_pos.mpr hr
    rw [scanLoop, scanLoop]
    split
    · exact heof
    · split
      · rename_i advance token hs
        have := hsplit _ _ _ _ hs
        have hl : (rest.drop advance).length = rest.length - advance := List.length_drop _ _
        rw [ih (rest.length - 1) (by omega) (rest.drop advance) (by omega) a b (by omega)
          (by omega)]
      · split
        · rfl
        · exact heof
      · rename_i advance hs
        have hl : (rest.drop (advance + 1)).length = rest.length - (advance + 1) :=
          List.length_drop _ _
        rw [ih (rest.length - 1) (by omega) (rest.drop (advance + 1)) (by omega) a b
          (by omega) (by omega)]

theorem IndexByte_lt {l : List Nat} {c i : Nat} (h : IndexByte l c = some i) : i < l.length := by
  induction l generalizing i with
  | nil => cases h
  | cons b t ih =>
    simp only [IndexByte] at h
    split_ifs at h
    · cases h; simp
    · obtain ⟨j, hj, rfl⟩ := Option.map_eq_some'.mp h
      have := ih hj
      simp only [List.length_cons]
      omega

theorem ScanBytes_advance (data : List Nat) (e : Bool) (a : Nat) (t : List Nat)
    (h : ScanBytes data e = (a, some t)) : 0 < a ∧ a ≤ data.length := by
  cases data with
  | nil => simp [ScanBytes] at h
  | cons b r =>
    simp only [ScanBytes, List.isEmpty_cons, Bool.and_false, Bool.false_eq_true, if_false,
      Prod.mk.injEq] at h
    simp only [List.length_cons]
    omega

theorem ScanLines_advance (data : List Nat) (e : Bool) (a : Nat) (t : List Nat)
    (h : ScanLines data e = (a, some t)) : 0 < a ∧ a ≤ data.length := by
  by_cases hmem : 0x0A ∈ data
  · obtain ⟨pre, post, hsplit, hpre⟩ := List.eq_append_cons_of_mem hmem
    rw [hsplit, ScanLines_line post hpre] at h
    simp only [Prod.mk.injEq] at h
    rw [hsplit]
    simp only [List.length_append, List.length_cons]
    omega
  · cases e with
    | false =>
      rw [ScanLines_more hmem] at h
      simp at h
    | true =>
      by_cases hne : data = []
      · subst hne
        rw [ScanLines_nil] at h
        simp at h
      · rw [ScanLines_last hmem hne] at h
        simp only [Prod.mk.injEq] at h
        have := List.length_pos.mpr hne
        omega

theorem ScanRunes_advance (data : List Nat) (e : Bool) (a : Nat) (t : List Nat)
    (h : ScanRunes data e = (a, some t)) : 0 < a ∧ a ≤ data.length := by
  cases data with
  | nil => simp [ScanRunes] at h
  | cons b r =>
    have hw := DecodeRune_width_le (b :: r)
    simp only [ScanRunes] at h
    simp only [List.length_cons] at hw ⊢
    split_ifs at h <;> simp only [Prod.mk.injEq] at h <;>
      first | omega | (exact absurd h.2 (by simp))

theorem ScanWords_advance (data : List Nat) (e : Bool) (a : Nat) (t : List Nat)
    (h : ScanWords data e = (a, some t)) : 0 < a ∧ a ≤ data.length := by
  obtain ⟨s1, _, _⟩ := skipSpaces_spec data.length data.length data
    (by rw [List.take_length])
  rw [List.take_length] at s1
  cases hwe : wordEnd data.length (data.drop (skipSpaces data.length data)) with
  | some iw =>
    obtain ⟨i, wd⟩ := iw
    rw [ScanWords_some e hwe] at h
    have hwe' := hwe
    rw [← List.take_length (l := data.drop (skipSpaces data.length data))] at hwe'
    obtain ⟨t1, t2, _⟩ := wordEnd_spec data.length _ _ i wd false
      (by rw [List.take_length, List.length_drop]; omega) hwe'
    rw [List.take_length, List.length_drop] at t1
    simp only [Prod.mk.injEq] at h
    omega
  | none =>
    cases e with
    | false =>
      rw [ScanWords_none_false hwe] at h
      simp at h
    | true =>
      by_cases hs : skipSpaces data.length data < data.length
      · rw [ScanWords_none_true hwe hs] at h
        simp only [Prod.mk.injEq] at h
        omega
      · simp [ScanWords, hwe, hs] at h

/-- Fuel beyond what `scan` supplies leaves the scan of each of the four
scanners of `wc` as it is. -/
theorem scan_fuel (s : List Nat) (fuel : Nat) (h : s.length + 2 ≤ fuel) :
    scanLoop ScanBytes fuel s false = scan ScanBytes s ∧
    scanLoop ScanLines fuel s false = scan ScanLines s ∧
    scanLoop ScanWords fuel s false = scan ScanWords s ∧
    scanLoop ScanRunes fuel s false = scan ScanRunes s :=
  ⟨scanLoop_fuel _ ScanBytes_advance _ s (le_refl _) _ _ h (le_refl _),
    scanLoop_fuel _ ScanLines_advance _ s (le_refl _) _ _ h (le_refl _),
    scanLoop_fuel _ ScanWords_advance _ s (le_refl _) _ _ h (le_refl _),
    scanLoop_fuel _ ScanRunes_advance _ s (le_refl _) _ _ h (le_refl _)⟩


/-! ## The totals of main -/

theorem foldl_addResult (results : List count) :
    ∀ acc : count,
      (results.foldl addResult acc).bytes = acc.bytes + (results.map count.bytes).sum ∧
      (results.foldl addResult acc).lines = acc.lines + (results.map count.lines).sum ∧
      (results.foldl addResult acc).words = acc.words + (results.map count.words).sum ∧
      (results.foldl addResult acc).chars = acc.chars + (results.map count.chars).sum ∧
      (results.foldl addResult acc).longest
        = max acc.longest (maxOf (results.map count.longest)) := by
  induction results with
  | nil => intro acc; simp [maxOf_nil]
  | cons r t ih =>
    intro acc
    obtain ⟨h1, h2, h3, h4, h5⟩ := ih (addResult acc r)
    simp only [List.foldl_cons, List.map_cons, List.sum_cons, maxOf_cons, h1, h2, h3, h4, h5]
    simp only [addResult]
    refine ⟨by omega, by omega, by omega, by omega, by omega⟩

/-! ## The command line -/

theorem splitArgs_append (a b : List (List Nat)) :
    splitArgs (a ++ b) = ((splitArgs a).1 || (splitArgs b).1,
      (splitArgs a).2.1 ++ (splitArgs b).2.1, (splitArgs a).2.2 ++ (splitArgs b).2.2) := by
  induction a with
  | nil => simp [splitArgs]
  | cons arg t ih =>
    have ih' : splitArgs (t.append b) = _ := ih
    simp only [List.cons_append, splitArgs]
    rw [ih']
    split_ifs <;> simp

/-- Arguments that are not flags are all file arguments. -/
theorem splitArgs_files (args : List (List Nat))
    (h : ∀ arg ∈ args, ¬ (hasDashPrefix arg = true ∧ 1 < arg.length)) :
    splitArgs args = (false, [], args) := by
  induction args with
  | nil => rfl
  | cons arg t ih =>
    have ha := h arg (by simp)
    have hc : (hasDashPrefix arg && decide (1 < arg.length)) = false := by
      cases hd : hasDashPrefix arg with
      | false => rfl
      | true =>
        have : ¬ 1 < arg.length := fun hl => ha ⟨hd, hl⟩
        simp [this]
    simp only [splitArgs, hc, ih (fun x hx => h x (List.mem_cons_of_mem _ hx))]
    simp

/-- `flag.Parse` stops at once on arguments that are not flags. -/
theorem flagParse_files (args : List (List Nat)) (f : flags)
    (h : ∀ arg ∈ args, ¬ (hasDashPrefix arg = true ∧ 1 < arg.length)) :
    flagParse args f = some f := by
  cases args with
  | nil => rfl
  | cons s t =>
    have hs := h s (by simp)
    have hc : (decide (s.length < 2) || (s.head? != some 0x2D)) = true := by
      by_cases hl : s.length < 2
      · simp [hl]
      · have hd : ¬ hasDashPrefix s = true := fun hd => hs ⟨hd, by omega⟩
        simp only [hasDashPrefix, decide_eq_true_eq] at hd
        simp [hd]
    simp only [flagParse, hc, if_true]


theorem utf8Encode_eq_singleton {c b : Nat} (hb : b < 0x80) : utf8Encode c = [b] ↔ c = b := by
  obtain ⟨d0, t, henc, h1, h2⟩ := utf8Encode_shape c
  constructor
  · intro h
    by_cases hc : c < 0x80
    · obtain ⟨rfl, rfl⟩ := h1 hc
      rw [henc] at h
      simpa using h
    · obtain ⟨_, hl⟩ := h2 hc
      rw [h] at hl
      simp at hl
  · intro h
    subst h
    exact utf8Encode_ascii hb

theorem decodeRunes_utf8Encode {c : Nat} (h : isScalar c) : decodeRunes (utf8Encode c) = [c] := by
  have := decodeRunes_utf8EncodeAll [c] (by simpa using h)
  simpa [utf8EncodeAll] using this

theorem hasDashPrefix_flagArg (c : Nat) : hasDashPrefix (flagArg c) = true := by
  simp [hasDashPrefix, flagArg]

theorem length_flagArg (c : Nat) : 1 < (flagArg c).length := by
  have := List.length_pos.mpr (utf8Encode_ne_nil c)
  simp only [flagArg, List.length_cons]
  omega

/-- Flag arguments of a single character pass through `manuallyParseArgs`
as they are. -/
theorem splitArgs_flagArgs (cs : List Nat) (hs : ∀ c ∈ cs, isScalar c) :
    splitArgs (cs.map flagArg) = (!cs.isEmpty, cs.map flagArg, []) := by
  induction cs with
  | nil => rfl
  | cons c t ih =>
    have hc : (hasDashPrefix (flagArg c) && decide (1 < (flagArg c).length)) = true := by
      simp [hasDashPrefix_flagArg, length_flagArg]
    simp only [List.map_cons, splitArgs, hc, if_true,
      ih (fun x hx => hs x (List.mem_cons_of_mem _ hx))]
    have hd : (flagArg c).drop 1 = utf8Encode c := rfl
    rw [hd, decodeRunes_utf8Encode (hs c (by simp))]
    simp [flagArg]

/-- A bundle of flag characters behind one dash is expanded into the flag
arguments of its characters. -/
theorem splitArgs_bundle (cs : List Nat) (hs : ∀ c ∈ cs, isScalar c) (hne : cs ≠ []) :
    splitArgs [0x2D :: utf8EncodeAll cs] = (true, cs.map flagArg, []) := by
  have hl : 1 < (0x2D :: utf8EncodeAll cs).length := by
    have : utf8EncodeAll cs ≠ [] := fun e => hne (utf8EncodeAll_eq_nil e)
    have := List.length_pos.mpr this
    simp only [List.length_cons]
    omega
  have hc : (hasDashPrefix (0x2D :: utf8EncodeAll cs)
      && decide (1 < (0x2D :: utf8EncodeAll cs).length)) = true := by
    simp only [hl, decide_True, Bool.and_true]
    rfl
  simp only [splitArgs, hc, if_true]
  have hd : (0x2D :: utf8EncodeAll cs).drop 1 = utf8EncodeAll cs := rfl
  rw [hd, decodeRunes_utf8EncodeAll cs hs]
  simp [flagArg]

theorem lastCM_cons (c : Nat) (t : List Nat) :
    lastCM (c :: t)
      = if c = 0x63 ∨ c = 0x6D then (match lastCM t with | some x => some x | none => some c)
        else lastCM t := by
  unfold lastCM
  by_cases h : c = 0x63 ∨ c = 0x6D
  · simp only [List.filter_cons, h, decide_True, if_true]
    cases hf : List.filter (fun c => decide (c = 0x63 ∨ c = 0x6D)) t with
    | nil => rfl
    | cons a l =>
      rw [List.getLast?_cons_cons]
      obtain ⟨x, hx⟩ : ∃ x, (a :: l).getLast? = some x :=
        ⟨_, List.getLast?_eq_getLast _ (by simp)⟩
      rw [hx]
  · simp only [List.filter_cons, h, decide_False, if_false]
    simp

/-- `resetFlags` over flag arguments of a single character: the variables of
`-c` and `-m` end as the last of these two flags says, and keep their values
when there is neither. -/
theorem resetFlags_flagArgs (cs : List Nat) :
    ∀ g : flags,
      (resetFlags (cs.map flagArg) g).showBytes
        = (match lastCM cs with | some x => decide (x = 0x63) | none => g.showBytes) ∧
      (resetFlags (cs.map flagArg) g).showChars
        = (match lastCM cs with | some x => decide (x = 0x6D) | none => g.showChars) := by
  induction cs with
  | nil => intro g; exact ⟨rfl, rfl⟩
  | cons c t ih =>
    intro g
    have hd : (flagArg c).drop 1 = utf8Encode c := rfl
    simp only [List.map_cons, resetFlags, hasDashPrefix_flagArg, if_true, hd,
      utf8Encode_eq_singleton (show (0x6C : Nat) < 0x80 by decide),
      utf8Encode_eq_singleton (show (0x77 : Nat) < 0x80 by decide),
      utf8Encode_eq_singleton (show (0x63 : Nat) < 0x80 by decide),
      utf8Encode_eq_singleton (show (0x6D : Nat) < 0x80 by decide)]
    rw [lastCM_cons]
    by_cases h1 : c = 0x6C
    · subst h1
      simp only [if_true]
      have := ih { g with showLines := true }
      simpa using this
    by_cases h2 : c = 0x77
    · subst h2
      have := ih { g with showWords := true }
      simpa using this
    by_cases h3 : c = 0x63
    · subst h3
      obtain ⟨i1, i2⟩ := ih { g with showBytes := true, showChars := false }
      cases hL : lastCM t with
      | none =>
        rw [hL] at i1 i2
        simp only at i1 i2
        simp [i1, i2]
      | some x =>
        rw [hL] at i1 i2
        simp only at i1 i2
        simp [i1, i2]
    by_cases h4 : c = 0x6D
    · subst h4
      obtain ⟨i1, i2⟩ := ih { g with showChars := true, showBytes := false }
      cases hL : lastCM t with
      | none =>
        rw [hL] at i1 i2
        simp only at i1 i2
        simp [i1, i2]
      | some x =>
        rw [hL] at i1 i2
        simp only at i1 i2
        simp [i1, i2]
    · simp only [h1, h2, h3, h4, if_false, or_self]
      exact ih g

theorem lastCM_of_mem {cs : List Nat} (h : 0x63 ∈ cs ∨ 0x6D ∈ cs) :
    lastCM cs = some 0x63 ∨ lastCM cs = some 0x6D := by
  have hne : cs.filter (fun c => c = 0x63 ∨ c = 0x6D) ≠ [] := by
    intro e
    rcases h with h | h
    · have : 0x63 ∈ cs.filter (fun c => c = 0x63 ∨ c = 0x6D) := by simp [h]
      rw [e] at this; cases this
    · have : 0x6D ∈ cs.filter (fun c => c = 0x63 ∨ c = 0x6D) := by simp [h]
      rw [e] at this; cases this
  obtain ⟨x, hx⟩ : ∃ x, lastCM cs = some x := by
    unfold lastCM
    cases hg : (cs.filter (fun c => c = 0x63 ∨ c = 0x6D)).getLast? with
    | none => exact absurd (List.getLast?_eq_none_iff.mp hg) hne
    | some x => exact ⟨x, rfl⟩
  have hmem := List.mem_of_getLast?_eq_some hx
  simp only [List.mem_filter, decide_eq_true_eq] at hmem
  rcases hmem.2 with e | e
  · left; rw [hx, e]
  · right; rw [hx, e]


/-! ## Scans that stop on an error -/

/-- The line scanner that meets an over-long line has returned the lines
before it: one token for each newline of the stream before that line. -/
theorem scanLoop_lines_before_long (long : List Nat)
    (hlong : 0x0A ∉ long.take maxScanTokenSize) (hlen : maxScanTokenSize ≤ long.length) :
    ∀ (n : Nat) (pre : List Nat), pre.length ≤ n →
      (pre = [] ∨ pre.getLast? = some 0x0A) →
      (∀ l ∈ segments 0x0A pre, l.length < maxScanTokenSize) →
      ∀ fuel, (pre ++ long).length + 2 ≤ fuel →
        (scanLoop ScanLines fuel (pre ++ long) false).tokens.length = specLines pre ∧
        (scanLoop ScanLines fuel (pre ++ long) false).tooLong = true ∧
        (scanLoop ScanLines fuel (pre ++ long) false).unread
          = long.length - maxScanTokenSize := by
  intro n
  induction n using Nat.strong_induction_on with
  | _ n ih =>
    intro pre hn hpre hshort fuel hf
    obtain ⟨f, rfl⟩ : ∃ f, fuel = f + 1 := ⟨fuel - 1, by omega⟩
    by_cases hne : pre = []
    · subst hne
      rw [List.nil_append, scanLoop_lines_long f hlong hlen]
      exact ⟨by simp [specLines_nil], rfl, rfl⟩
    · have hlast : pre.getLast? = some 0x0A := by
        rcases hpre with e | e
        · exact absurd e hne
        · exact e
      have hmem : 0x0A ∈ pre := List.mem_of_getLast?_eq_some hlast
      obtain ⟨p, q, hsplit, hp⟩ := List.eq_append_cons_of_mem hmem
      subst hsplit
      rw [segments_line q hp] at hshort
      have hplen := hshort p (by simp)
      have hq : q = [] ∨ q.getLast? = some 0x0A := by
        by_cases hq0 : q = []
        · exact Or.inl hq0
        · right
          rw [List.getLast?_append_cons] at hlast
          obtain ⟨b, t, rfl⟩ := List.exists_cons_of_ne_nil hq0
          rw [List.getLast?_cons_cons] at hlast
          exact hlast
      have hlp : (p ++ 0x0A :: q).length = p.length + 1 + q.length := by
        simp only [List.length_append, List.length_cons]; omega
      have hlq : (q ++ long).length = q.length + long.length := List.length_append _ _
      have hla : (p ++ 0x0A :: q ++ long).length = p.length + 1 + q.length + long.length := by
        simp only [List.length_append, List.length_cons]; omega
      obtain ⟨i1, i2, i3⟩ := ih q.length (by omega) q (le_refl _) hq
        (fun l hl => hshort l (List.mem_cons_of_mem _ hl)) f (by omega)
      have happ : p ++ 0x0A :: q ++ long = p ++ 0x0A :: (q ++ long) := by simp
      rw [happ, scanLoop_lines_line f _ hp hplen]
      simp only [Scanned.push, List.length_cons, i1, i2, i3, specLines_line q hp]
      exact ⟨trivial, trivial, trivial⟩

theorem scan_lines_before_long (pre long : List Nat)
    (hpre : pre = [] ∨ pre.getLast? = some 0x0A)
    (hshort : ∀ l ∈ segments 0x0A pre, l.length < maxScanTokenSize)
    (hlong : 0x0A ∉ long.take maxScanTokenSize) (hlen : maxScanTokenSize ≤ long.length) :
    (countWithSplitFunc (pre ++ long) ScanLines true).result = specLines pre ∧
      (countWithSplitFunc (pre ++ long) ScanLines true).failed = true ∧
      (countWithSplitFunc (pre ++ long) ScanLines true).unread
        = long.length - maxScanTokenSize :=
  scanLoop_lines_before_long long hlong hlen pre.length pre (le_refl _) hpre hshort _ (le_refl _)

/-- `wc` does not return when the line counter has left bytes unread. -/
theorem wc_eq_none_of_lines_unread (sched : List Bool) (s : List Nat)
    (h : (scan ScanLines s).unread ≠ 0) : wc sched s = none := by
  simp [wc, countWithSplitFunc, h]


/-- A stream of more than 65536 bytes `a` with no newline: the line counter
stops after the first 65536 bytes and `wc` does not return. -/
theorem wc_replicate_none (sched : List Bool) (n : Nat) (h : maxScanTokenSize < n) :
    wc sched (List.replicate n 97) = none := by
  apply wc_eq_none_of_lines_unread
  have hl : (List.replicate n 97).length = n := List.length_replicate _ _
  have h0 := scan_lines_before_long [] (List.replicate n 97) (Or.inl rfl)
    (by intro l hl; simp only [segments, List.mem_singleton] at hl; subst hl; decide)
    (by
      intro e
      exact absurd (List.eq_of_mem_replicate (List.mem_of_mem_take e)) (by decide))
    (by rw [hl]; omega)
  have h3 : (scan ScanLines (List.replicate n 97)).unread
      = (List.replicate n 97).length - maxScanTokenSize := h0.2.2
  rw [h3, hl]
  omega

/-! ## The two measurements of the longest line -/

theorem segments_map_singleton (sep : Nat) (s : List Nat) :
    segments [sep] (s.map (fun c => [c])) = (segments sep s).map (List.map (fun c => [c])) := by
  induction s with
  | nil => rfl
  | cons b t ih =>
    by_cases hb : b = sep
    · simp [segments, hb, ih]
    · have hb' : ¬ [b] = [sep] := fun e => hb (List.cons.inj e).1
      simp only [List.map_cons, segments, hb, hb', if_false, ih]
      cases segments sep t <;> rfl

/-- On ASCII input the rune counter measures the longest line in bytes. -/
theorem runeLongest_ascii (s : List Nat) (h : ∀ b ∈ s, b < 0x80) :
    runeLongest s = longestLineBytes s := by
  have hv : ∀ c ∈ s, isScalar c := fun c hc => Or.inl (by have := h c hc; omega)
  obtain ⟨h1, h2⟩ := utf8EncodeAll_ascii s h
  have hs := scan_runes_utf8 s hv
  rw [h1, h2] at hs
  simp only [runeLongest, longestLineBytes, hs, segments_map_singleton, List.map_map]
  congr 1
  apply List.map_congr_left
  intro l _
  simp

/-- The line counter measures the longest line in bytes when every line is
shorter than `maxScanTokenSize` and none ends with a carriage return. -/
theorem lineLongest_eq (s : List Nat)
    (hs : ∀ l ∈ segments 0x0A s, l.length < maxScanTokenSize ∧ l.getLast? ≠ some 0x0D) :
    lineLongest s = longestLineBytes s := by
  unfold lineLongest longestLineBytes
  revert hs
  refine lineScan_cases
    (fun rest R =>
      (∀ l ∈ segments 0x0A rest, l.length < maxScanTokenSize ∧ l.getLast? ≠ some 0x0D) →
      maxOf (R.tokens.map List.length) = maxOf ((segments 0x0A rest).map List.length))
    ?_ ?_ ?_ ?_ s
  · intro _; rfl
  · intro pre post R hpre _ ih hs
    rw [segments_line post hpre] at hs ⊢
    have h1 := ih (fun l hl => hs l (List.mem_cons_of_mem _ hl))
    have h2 := dropCR_eq_self (hs pre (by simp)).2
    simp only [Scanned.push, List.map_cons, maxOf_cons, h1, h2]
  · intro rest _ hmem _ hs
    rw [segments_last hmem] at hs ⊢
    have h2 := dropCR_eq_self (hs rest (by simp)).2
    simp only [List.map_cons, List.map_nil, h2]
  · intro rest hmem hlen hs
    obtain ⟨seg, segs, h1, h2⟩ := segments_head_long rest _ hmem hlen
    have := (hs seg (by simp [h1])).1
    omega

/-- A line of `maxScanTokenSize` bytes or more is not measured by the line
counter, which stops before it, and is measured by the rune counter. -/
theorem longest_replicate (n : Nat) (h : maxScanTokenSize ≤ n) :
    lineLongest (List.replicate n 97) = 0 ∧ runeLongest (List.replicate n 97) = n := by
  have hmem : (0x0A : Nat) ∉ List.replicate n 97 := fun e =>
    absurd (List.eq_of_mem_replicate e) (by decide)
  constructor
  · unfold lineLongest
    rw [scan_lines_long _ (fun e => hmem (List.mem_of_mem_take e))
      (by rw [List.length_replicate]; exact h)]
    rfl
  · rw [runeLongest_ascii _ (fun b hb => by rw [List.eq_of_mem_replicate hb]; decide),
      longestLineBytes, segments_last hmem]
    simp [maxOf]

/-! ## Flags that are defined -/

/-- `flag.Parse` accepts the flag arguments `-l`, `-w`, `-c`, `-m` and `-L`. -/
theorem flagParse_defined (cs : List Nat)
    (hd : ∀ c ∈ cs, c = 0x6C ∨ c = 0x77 ∨ c = 0x63 ∨ c = 0x6D ∨ c = 0x4C) :
    ∀ f, (flagParse (cs.map flagArg) f).isSome = true := by
  induction cs with
  | nil => intro f; rfl
  | cons c t ih =>
    intro f
    have iht := ih (fun x hx => hd x (List.mem_cons_of_mem _ hx))
    rcases hd c (by simp) with e | e | e | e | e <;> subst e <;>
      simp [flagParse, flagArg, utf8Encode, setFlag, IndexByte, iht]

theorem mainFlags_defined (cs : List Nat) (stdinCharDevice : Bool)
    (hd : ∀ c ∈ cs, c = 0x6C ∨ c = 0x77 ∨ c = 0x63 ∨ c = 0x6D ∨ c = 0x4C) :
    (mainFlags (cs.map flagArg) stdinCharDevice).isSome = true := by
  have hs : ∀ c ∈ cs, isScalar c := by
    intro c hc
    rcases hd c hc with e | e | e | e | e <;> subst e <;> decide
  have h := flagParse_defined cs hd defaultFlags
  simp only [mainFlags, manuallyParseArgs, splitArgs_flagArgs cs hs, List.append_nil]
  cases hp : flagParse (cs.map flagArg) defaultFlags with
  | none => rw [hp] at h; cases h
  | some v =>
    simp only
    split <;> rfl

/-! ## Scanning a stream after a stream that ends with a newline -/

/-- What is left of a stream that ends with a newline ends with a newline. -/
theorem drop_newline_end {a : List Nat} (k : Nat) (h : a = [] ∨ a.getLast? = some 0x0A) :
    a.drop k = [] ∨ (a.drop k).getLast? = some 0x0A := by
  by_cases hk : a.length ≤ k
  · exact Or.inl (List.drop_eq_nil_iff.mpr hk)
  · right
    rw [List.getLast?_drop, if_neg hk]
    rcases h with e | e
    · subst e; simp at hk
    · exact e

/-- One turn of the scanner that returns a token. -/
theorem scan_token (split : SplitFunc)
    (hadv : ∀ data e a t, split data e = (a, some t) → 0 < a ∧ a ≤ data.length)
    {rest : List Nat} {adv : Nat} {tok : List Nat} (hne : rest ≠ [])
    (h : split (rest.take maxScanTokenSize) false = (adv, some tok)) :
    scan split rest = (scan split (rest.drop adv)).push tok := by
  have hpos : 0 < rest.length := List.length_pos.mpr hne
  have hWe : (rest.take maxScanTokenSize).isEmpty = false := by
    match rest, hne with
    | d0 :: t, _ => rw [take_window_cons]; rfl
  have ha := hadv _ _ _ _ h
  have hl : (rest.drop adv).length = rest.length - adv := List.length_drop _ _
  unfold scan
  rw [scanLoop]
  simp only [hWe, h, Bool.false_eq_true, if_false]
  rw [scanLoop_fuel split hadv _ (rest.drop adv) (le_refl _) (rest.length + 1)
    ((rest.drop adv).length + 2) (by omega) (le_refl _)]

/-- One turn of the scanner that advances and returns no token. -/
theorem scan_skip (split : SplitFunc)
    (hadv : ∀ data e a t, split data e = (a, some t) → 0 < a ∧ a ≤ data.length)
    {rest : List Nat} {adv : Nat} (hne : rest ≠ [])
    (h : split (rest.take maxScanTokenSize) false = (adv + 1, none)) :
    scan split rest = scan split (rest.drop (adv + 1)) := by
  have hpos : 0 < rest.length := List.length_pos.mpr hne
  have hWe : (rest.take maxScanTokenSize).isEmpty = false := by
    match rest, hne with
    | d0 :: t, _ => rw [take_window_cons]; rfl
  have hl : (rest.drop (adv + 1)).length = rest.length - (adv + 1) := List.length_drop _ _
  unfold scan
  rw [scanLoop]
  simp only [hWe, h, Bool.false_eq_true, if_false]
  rw [scanLoop_fuel split hadv _ (rest.drop (adv + 1)) (le_refl _) (rest.length + 1)
    ((rest.drop (adv + 1)).length + 2) (by omega) (le_refl _)]

/-- The turn of the scanner that stops with `ErrTooLong`. -/
theorem scan_tooLong (split : SplitFunc) {rest : List Nat} (hne : rest ≠ [])
    (h : split (rest.take maxScanTokenSize) false = (0, none))
    (hlen : maxScanTokenSize ≤ rest.length) :
    scan split rest = ⟨[], true, rest.length - maxScanTokenSize⟩ := by
  have hWe : (rest.take maxScanTokenSize).isEmpty = false := by
    match rest, hne with
    | d0 :: t, _ => rw [take_window_cons]; rfl
  unfold scan
  rw [scanLoop]
  simp only [hWe, h, hlen, Bool.false_eq_true, if_false, if_true]

/-- The scan of `a ++ b`, for a stream `a` that ends with a newline and that
the scanner reads to its end, is the scan of `a` followed by the scan of `b`,
for a split function which in front of a newline does not ask for more data,
whose tokens do not depend on the bytes after the newline, and which skips
only what can be skipped in front of `b`. -/
theorem scan_append_of (split : SplitFunc)
    (hadv : ∀ data e a t, split data e = (a, some t) → 0 < a ∧ a ≤ data.length)
    (hnil : split [] true = (0, none)) (b : List Nat)
    (hmono : ∀ r adv tok, r ≠ [] → r.getLast? = some 0x0A →
      split (r.take maxScanTokenSize) false = (adv, some tok) →
      split ((r ++ b).take maxScanTokenSize) false = (adv, some tok))
    (hfull : ∀ r, r ≠ [] → r.getLast? = some 0x0A → split r false ≠ (0, none))
    (hskip : ∀ r adv, r ≠ [] → r.getLast? = some 0x0A →
      split (r.take maxScanTokenSize) false = (adv + 1, none) →
      scan split (r ++ b) = scan split (r.drop (adv + 1) ++ b)) :
    ∀ (n : Nat) (a : List Nat), a.length ≤ n → (a = [] ∨ a.getLast? = some 0x0A) →
      (scan split a).unread = 0 →
      scan split (a ++ b)
        = ⟨(scan split a).tokens ++ (scan split b).tokens, (scan split b).tooLong,
            (scan split b).unread⟩ := by
  intro n
  induction n using Nat.strong_induction_on with
  | _ n ih =>
    intro a hn hend hun
    by_cases hne : a = []
    · subst hne
      have h0 : scan split [] = ⟨[], false, 0⟩ := scanLoop_nil split hnil _ _
      rw [h0]
      simp
    have hlast : a.getLast? = some 0x0A := by
      rcases hend with e | e
      · exact absurd e hne
      · exact e
    have hpos : 0 < a.length := List.length_pos.mpr hne
    have hab : a ++ b ≠ [] := by simp [hne]
    have hW : (a.take maxScanTokenSize).length ≤ a.length := by
      rw [List.length_take]; exact Nat.min_le_right _ _
    rcases hs : split (a.take maxScanTokenSize) false with ⟨adv, _ | tok⟩
    · cases adv with
      | zero =>
        exfalso
        by_cases hlen : maxScanTokenSize ≤ a.length
        · rw [scan_tooLong split hne hs hlen] at hun
          simp only at hun
          have hk : a.take maxScanTokenSize = a := List.take_of_length_le (by omega)
          rw [hk] at hs
          exact hfull a hne hlast hs
        · have hk : a.take maxScanTokenSize = a := List.take_of_length_le (by omega)
          rw [hk] at hs
          exact hfull a hne hlast hs
      | succ k =>
        have hl : (a.drop (k + 1)).length = a.length - (k + 1) := List.length_drop _ _
        have h1 := scan_skip split hadv hne hs
        rw [h1] at hun ⊢
        rw [hskip a k hne hlast hs]
        exact ih (a.length - 1) (by omega) (a.drop (k + 1)) (by omega)
          (drop_newline_end _ hend) hun
    · have ha := hadv _ _ _ _ hs
      have hl : (a.drop adv).length = a.length - adv := List.length_drop _ _
      have h1 := scan_token split hadv hne hs
      have h2 := scan_token split hadv hab (hmono a adv tok hne hlast hs)
      rw [List.drop_append_of_le_length (by omega)] at h2
      rw [h1] at hun ⊢
      simp only [Scanned.push] at hun
      rw [h2, ih (a.length - 1) (by omega) (a.drop adv) (by omega) (drop_newline_end _ hend) hun]
      simp [Scanned.push]

/-! ## The byte, line and rune scanners on `a ++ b` -/

theorem scan_bytes_eq (s : List Nat) : scan ScanBytes s = ⟨s.map (fun b => [b]), false, 0⟩ :=
  scanLoop_ScanBytes s _ (le_refl _)

theorem take_window_append (r b : List Nat) :
    (r ++ b).take maxScanTokenSize
      = r.take maxScanTokenSize ++ b.take (maxScanTokenSize - r.length) :=
  List.take_append_eq_append_take

theorem mem_of_getLast {r : List Nat} {c : Nat} (h : r.getLast? = some c) : c ∈ r :=
  List.mem_of_getLast?_eq_some h

theorem scan_lines_append (a b : List Nat) (hend : a = [] ∨ a.getLast? = some 0x0A)
    (hun : (scan ScanLines a).unread = 0) :
    scan ScanLines (a ++ b)
      = ⟨(scan ScanLines a).tokens ++ (scan ScanLines b).tokens, (scan ScanLines b).tooLong,
          (scan ScanLines b).unread⟩ := by
  refine scan_append_of ScanLines ScanLines_advance ScanLines_nil b ?_ ?_ ?_ a.length a
    (le_refl _) hend hun
  · intro r adv tok _ _ hs
    by_cases hmem : 0x0A ∈ r.take maxScanTokenSize
    · obtain ⟨pre, post, hsplit, hpre⟩ := List.eq_append_cons_of_mem hmem
      rw [hsplit, ScanLines_line post hpre] at hs
      rw [take_window_append, hsplit, List.append_assoc, List.cons_append,
        ScanLines_line _ hpre]
      exact hs
    · rw [ScanLines_more hmem] at hs
      cases hs
  · intro r _ hlast hs
    obtain ⟨pre, post, hsplit, hpre⟩ := List.eq_append_cons_of_mem (mem_of_getLast hlast)
    rw [hsplit, ScanLines_line post hpre] at hs
    cases hs
  · intro r adv _ _ hs
    exfalso
    by_cases hmem : 0x0A ∈ r.take maxScanTokenSize
    · obtain ⟨pre, post, hsplit, hpre⟩ := List.eq_append_cons_of_mem hmem
      rw [hsplit, ScanLines_line post hpre] at hs
      cases hs
    · rw [ScanLines_more hmem] at hs
      cases hs

/-- Decoding in front of a newline does not look beyond it. -/
theorem DecodeRune_append_newline {r : List Nat} (b : List Nat) (hne : r ≠ [])
    (hlast : r.getLast? = some 0x0A) : DecodeRune (r ++ b) = DecodeRune r := by
  have hpos : 0 < r.length := List.length_pos.mpr hne
  have ht : (r ++ b).take r.length = r := List.take_left' rfl
  rcases DecodeRune_take_cases (r ++ b) r.length hpos with e | ⟨e, hc⟩
  · rw [ht] at e; exact e.symm
  · rw [ht] at e hc
    exfalso
    match r, hne with
    | [x], _ =>
      simp only [List.getLast?_singleton, Option.some.injEq] at hlast
      subst hlast
      revert e
      decide
    | x :: y :: t, _ =>
      have hmem : (0x0A : Nat) ∈ (x :: y :: t).drop 1 := by
        rw [List.getLast?_cons_cons] at hlast
        exact mem_of_getLast hlast
      have := (hc _ hmem).1
      omega

theorem FullRune_append {r : List Nat} (b : List Nat) (h : FullRune r = true) :
    FullRune (r ++ b) = true := by
  match r with
  | [] => simp [FullRune] at h
  | [p0] =>
    revert h
    simp only [FullRune, List.length_cons, List.length_nil, List.cons_append, List.nil_append]
    intro h
    split_ifs at h with h1
    rw [if_pos (by omega)]
  | [p0, b1] =>
    revert h
    simp only [FullRune, List.length_cons, List.length_nil, List.cons_append, List.nil_append]
    intro h
    split_ifs at h with h1 h2
    · rw [if_pos (by omega)]
    · split_ifs <;> rfl
  | p0 :: b1 :: b2 :: t =>
    revert h
    simp only [FullRune, List.length_cons, List.cons_append, List.length_append]
    intro h
    split_ifs at h with h1 h2 h3
    · rw [if_pos (by omega)]
    · split_ifs <;> rfl
    · split_ifs <;> rfl

theorem FullRune_newline {r : List Nat} (hne : r ≠ []) (hlast : r.getLast? = some 0x0A) :
    FullRune r = true := by
  match r, hne with
  | [x], _ =>
    simp only [List.getLast?_singleton, Option.some.injEq] at hlast
    subst hlast
    decide
  | [p0, x], _ =>
    simp only [List.getLast?_cons_cons, List.getLast?_singleton, Option.some.injEq] at hlast
    subst hlast
    by_cases hx : first p0 < 0xF0
    · have := acceptRanges_cont p0 hx
      simp only [FullRune]
      split_ifs <;> first | rfl | omega
    · have hs : first p0 % 8 ≤ 1 := by
        rcases first_cases p0 with e | e | e | e | e | e | e | e | e <;> rw [e] at hx ⊢ <;> omega
      simp only [FullRune, List.length_cons, List.length_nil]
      rw [if_pos (by omega)]
  | [p0, b1, x], _ =>
    simp only [List.getLast?_cons_cons, List.getLast?_singleton, Option.some.injEq] at hlast
    subst hlast
    simp only [FullRune]
    split_ifs <;> first | rfl | omega
  | _ :: _ :: _ :: _ :: _, _ => exact FullRune_of_length (by simp)

theorem scan_runes_ok (s : List Nat) :
    (scan ScanRunes s).tooLong = false ∧ (scan ScanRunes s).unread = 0 :=
  runeScan_cases (fun _ R => R.tooLong = false ∧ R.unread = 0) ⟨rfl, rfl⟩
    (fun _ _ _ _ _ _ ih => ih) s

theorem ScanRunes_none {data : List Nat} {adv : Nat} {e : Bool}
    (h : ScanRunes data e = (adv, none)) : adv = 0 := by
  cases data with
  | nil => simp only [ScanRunes, Prod.mk.injEq] at h; exact h.1.symm
  | cons d0 t =>
    simp only [ScanRunes] at h
    split_ifs at h <;> simp only [Prod.mk.injEq] at h <;>
      first | exact h.1.symm | exact absurd h.2 (by simp)

theorem ScanRunes_newline {r : List Nat} (hne : r ≠ []) (hlast : r.getLast? = some 0x0A)
    (b : List Nat) : ScanRunes (r ++ b) false = ScanRunes r false ∧
      ∃ adv tok, ScanRunes r false = (adv, some tok) := by
  have hd := DecodeRune_append_newline b hne hlast
  have hf := FullRune_newline hne hlast
  have hfb := FullRune_append b hf
  have hw := DecodeRune_width_le r
  match r, hne with
  | d0 :: t, _ =>
    rw [List.cons_append] at hd hfb ⊢
    by_cases h0 : d0 < 0x80
    · simp [ScanRunes, h0]
    · by_cases h1 : 1 < (DecodeRune (d0 :: t)).2
      · have ht : (d0 :: (t ++ b)).take (DecodeRune (d0 :: t)).2
            = (d0 :: t).take (DecodeRune (d0 :: t)).2 := by
          rw [← List.cons_append]
          exact List.take_append_of_le_length hw
        simp [ScanRunes, h0, hd, h1, ht]
      · simp [ScanRunes, h0, hd, h1, hf, hfb]

theorem scan_runes_append (a b : List Nat) (hend : a = [] ∨ a.getLast? = some 0x0A) :
    scan ScanRunes (a ++ b)
      = ⟨(scan ScanRunes a).tokens ++ (scan ScanRunes b).tokens, (scan ScanRunes b).tooLong,
          (scan ScanRunes b).unread⟩ := by
  refine scan_append_of ScanRunes ScanRunes_advance ScanRunes_nil b ?_ ?_ ?_ a.length a
    (le_refl _) hend (scan_runes_ok a).2
  · intro r adv tok hne hlast hs
    by_cases hlen : maxScanTokenSize ≤ r.length
    · rw [List.take_append_of_le_length hlen]
      exact hs
    · have hk : r.take maxScanTokenSize = r := List.take_of_length_le (by omega)
      rw [hk] at hs
      rw [take_window_append, hk, (ScanRunes_newline hne hlast _).1]
      exact hs
  · intro r hne hlast hs
    obtain ⟨adv, tok, h⟩ := (ScanRunes_newline hne hlast []).2
    rw [h] at hs
    cases hs
  · intro r adv _ _ hs
    have := ScanRunes_none hs
    omega

/-! ## The word scanner on `a ++ b` -/

theorem skipSpaces_fuel : ∀ (f1 f2 : Nat) (data : List Nat), data.length ≤ f1 →
    data.length ≤ f2 → skipSpaces f1 data = skipSpaces f2 data := by
  intro f1
  induction f1 with
  | zero =>
    intro f2 data h1 _
    have : data = [] := List.length_eq_zero.mp (Nat.le_zero.mp h1)
    subst this
    cases f2 <;> simp [skipSpaces]
  | succ f ih =>
    intro f2 data h1 h2
    cases data with
    | nil => cases f2 <;> simp [skipSpaces]
    | cons b t =>
      obtain ⟨g, rfl⟩ : ∃ g, f2 = g + 1 := ⟨f2 - 1, by simp at h2; omega⟩
      have hw := DecodeRune_width_pos b t
      have hl : ((b :: t).drop (DecodeRune (b :: t)).2).length
          = (b :: t).length - (DecodeRune (b :: t)).2 := List.length_drop _ _
      simp only [skipSpaces, List.isEmpty_cons, Bool.false_eq_true, if_false]
      rw [ih g _ (by omega) (by omega)]

theorem wordEnd_fuel : ∀ (f1 f2 : Nat) (data : List Nat), data.length ≤ f1 →
    data.length ≤ f2 → wordEnd f1 data = wordEnd f2 data := by
  intro f1
  induction f1 with
  | zero =>
    intro f2 data h1 _
    have : data = [] := List.length_eq_zero.mp (Nat.le_zero.mp h1)
    subst this
    cases f2 <;> simp [wordEnd]
  | succ f ih =>
    intro f2 data h1 h2
    cases data with
    | nil => cases f2 <;> simp [wordEnd]
    | cons b t =>
      obtain ⟨g, rfl⟩ : ∃ g, f2 = g + 1 := ⟨f2 - 1, by simp at h2; omega⟩
      have hw := DecodeRune_width_pos b t
      have hl : ((b :: t).drop (DecodeRune (b :: t)).2).length
          = (b :: t).length - (DecodeRune (b :: t)).2 := List.length_drop _ _
      simp only [wordEnd, List.isEmpty_cons, Bool.false_eq_true, if_false]
      rw [ih g _ (by omega) (by omega)]

theorem skipAll_nil : skipAll [] = 0 := rfl

theorem wordEndAll_nil : wordEndAll [] = none := rfl

theorem skipAll_cons {data : List Nat} (h : data ≠ []) :
    skipAll data = if isSpace (DecodeRune data).1
      then (DecodeRune data).2 + skipAll (data.drop (DecodeRune data).2) else 0 := by
  match data, h with
  | b :: t, _ =>
    have hw := DecodeRune_width_pos b t
    have hl : ((b :: t).drop (DecodeRune (b :: t)).2).length
        = (b :: t).length - (DecodeRune (b :: t)).2 := List.length_drop _ _
    simp only [skipAll, List.length_cons, skipSpaces, List.isEmpty_cons, Bool.false_eq_true,
      if_false]
    rw [skipSpaces_fuel t.length ((b :: t).drop (DecodeRune (b :: t)).2).length _
      (by simp only [List.length_cons] at hl; omega) (le_refl _)]

theorem wordEndAll_cons {data : List Nat} (h : data ≠ []) :
    wordEndAll data = if isSpace (DecodeRune data).1 then some (0, (DecodeRune data).2)
      else (wordEndAll (data.drop (DecodeRune data).2)).map
        (fun iw => ((DecodeRune data).2 + iw.1, iw.2)) := by
  match data, h with
  | b :: t, _ =>
    have hw := DecodeRune_width_pos b t
    have hl : ((b :: t).drop (DecodeRune (b :: t)).2).length
        = (b :: t).length - (DecodeRune (b :: t)).2 := List.length_drop _ _
    simp only [wordEndAll, List.length_cons, wordEnd, List.isEmpty_cons, Bool.false_eq_true,
      if_false]
    rw [wordEnd_fuel t.length ((b :: t).drop (DecodeRune (b :: t)).2).length _
      (by simp only [List.length_cons] at hl; omega) (le_refl _)]

theorem skipAll_le (data : List Nat) : skipAll data ≤ data.length := by
  have := (skipSpaces_spec data.length data.length data (by rw [List.take_length])).1
  rw [List.take_length] at this
  exact this

theorem wordEndAll_bound {data : List Nat} {i wd : Nat} (h : wordEndAll data = some (i, wd)) :
    i + wd ≤ data.length ∧ 1 ≤ wd := by
  have h' : wordEnd data.length (data.take data.length) = some (i, wd) := by
    rw [List.take_length]; exact h
  have := wordEnd_spec data.length data.length data i wd false (by rw [List.take_length]) h'
  rw [List.take_length] at this
  exact ⟨this.1, this.2.1⟩

/-- `bufio.ScanWords` in terms of its two loops. -/
theorem ScanWords_eq (data : List Nat) (e : Bool) :
    ScanWords data e =
      match wordEndAll (data.drop (skipAll data)) with
      | some iw => (skipAll data + iw.1 + iw.2, some ((data.drop (skipAll data)).take iw.1))
      | none =>
        if e && skipAll data < data.length then (data.length, some (data.drop (skipAll data)))
        else (skipAll data, none) := by
  have hf : wordEnd data.length (data.drop (skipAll data)) = wordEndAll (data.drop (skipAll data)) :=
    wordEnd_fuel _ _ _ (by rw [List.length_drop]; omega) (le_refl _)
  simp only [ScanWords]
  rw [← skipAll, hf]

/-- Decoding a prefix of a stream: the rune of the stream, or an error on an
encoding that the prefix cuts, whose bytes after the first are continuation
bytes. -/
theorem DecodeRune_prefix (x z : List Nat) (hne : x ≠ []) :
    DecodeRune x = DecodeRune (x ++ z) ∨
      (DecodeRune x = (RuneError, 1) ∧ ∀ b ∈ x.drop 1, 0x80 ≤ b ∧ b ≤ 0xBF) := by
  have h := DecodeRune_take_cases (x ++ z) x.length (List.length_pos.mpr hne)
  rw [List.take_left' rfl] at h
  exact h

theorem wordEndAll_cont {data : List Nat} (h : ∀ b ∈ data, 0x80 ≤ b ∧ b ≤ 0xBF) :
    wordEndAll data = none := wordEnd_cont _ data h

/-- A prefix cut inside an encoding holds no white space from there on. -/
theorem wordEndAll_cut {x : List Nat} (hne : x ≠ []) (he : DecodeRune x = (RuneError, 1))
    (hc : ∀ b ∈ x.drop 1, 0x80 ≤ b ∧ b ≤ 0xBF) : wordEndAll x = none := by
  rw [wordEndAll_cons hne, he]
  simp only [isSpace_RuneError, Bool.false_eq_true, if_false, Option.map_eq_none']
  exact wordEndAll_cont hc

/-- The end of a word found in a prefix of the stream is its end in the
stream. -/
theorem wordEndAll_append (z : List Nat) :
    ∀ (n : Nat) (x : List Nat), x.length ≤ n → ∀ i wd, wordEndAll x = some (i, wd) →
      wordEndAll (x ++ z) = some (i, wd) := by
  intro n
  induction n with
  | zero =>
    intro x hn i wd h
    have : x = [] := List.length_eq_zero.mp (Nat.le_zero.mp hn)
    subst this
    cases h
  | succ n ih =>
    intro x hn i wd h
    by_cases hne : x = []
    · subst hne; cases h
    have hxz : x ++ z ≠ [] := by simp [hne]
    have hw1 := DecodeRune_width_pos' hne
    have hw2 := DecodeRune_width_le x
    rcases DecodeRune_prefix x z hne with e | ⟨e, hc⟩
    · rw [wordEndAll_cons hne] at h
      rw [wordEndAll_cons hxz, ← e]
      by_cases hsp : isSpace (DecodeRune x).1 = true
      · simpa [hsp] using h
      · simp only [hsp, if_false] at h ⊢
        obtain ⟨⟨i', wd'⟩, h1, h2⟩ := Option.map_eq_some'.mp h
        have hl : (x.drop (DecodeRune x).2).length = x.length - (DecodeRune x).2 :=
          List.length_drop _ _
        rw [List.drop_append_of_le_length hw2, ih _ (by omega) i' wd' h1]
        simpa using h2
    · rw [wordEndAll_cut hne e hc] at h
      cases h

/-- The first loop of `ScanWords` stops at the same offset in a prefix of the
stream in which the second loop finds the end of a word. -/
theorem skipAll_append (z : List Nat) :
    ∀ (n : Nat) (x : List Nat), x.length ≤ n → wordEndAll (x.drop (skipAll x)) ≠ none →
      skipAll (x ++ z) = skipAll x := by
  intro n
  induction n with
  | zero =>
    intro x hn h
    have : x = [] := List.length_eq_zero.mp (Nat.le_zero.mp hn)
    subst this
    exact absurd rfl h
  | succ n ih =>
    intro x hn h
    by_cases hne : x = []
    · subst hne; exact absurd rfl h
    have hxz : x ++ z ≠ [] := by simp [hne]
    have hw1 := DecodeRune_width_pos' hne
    have hw2 := DecodeRune_width_le x
    rcases DecodeRune_prefix x z hne with e | ⟨e, hc⟩
    · rw [skipAll_cons hne] at h ⊢
      rw [skipAll_cons hxz, ← e]
      by_cases hsp : isSpace (DecodeRune x).1 = true
      · simp only [hsp, if_true] at h ⊢
        have hl : (x.drop (DecodeRune x).2).length = x.length - (DecodeRune x).2 :=
          List.length_drop _ _
        rw [← List.drop_drop] at h
        rw [List.drop_append_of_le_length hw2, ih _ (by omega) h]
      · simp only [hsp, Bool.false_eq_true, if_false]
    · exfalso
      have hs : skipAll x = 0 := by
        rw [skipAll_cons hne, e]
        simp [isSpace_RuneError]
      rw [hs, List.drop_zero, wordEndAll_cut hne e hc] at h
      exact h rfl

/-- A token that `ScanWords` finds in a prefix of the stream is the token it
finds in a longer prefix. -/
theorem ScanWords_append {x : List Nat} (z : List Nat) {adv : Nat} {tok : List Nat}
    (h : ScanWords x false = (adv, some tok)) : ScanWords (x ++ z) false = (adv, some tok) := by
  rw [ScanWords_eq] at h
  cases hwe : wordEndAll (x.drop (skipAll x)) with
  | none =>
    rw [hwe] at h
    simp at h
  | some iw =>
    obtain ⟨i, wd⟩ := iw
    rw [hwe] at h
    have hb := wordEndAll_bound hwe
    have hs := skipAll_append z x.length x (le_refl _) (by rw [hwe]; simp)
    have hd : (x ++ z).drop (skipAll x) = x.drop (skipAll x) ++ z :=
      List.drop_append_of_le_length (skipAll_le x)
    have hw := wordEndAll_append z _ _ (le_refl _) i wd hwe
    rw [ScanWords_eq, hs, hd, hw]
    simp only at h ⊢
    rw [List.take_append_of_le_length (by omega)]
    exact h

/-- The second loop of `ScanWords` finds the end of a word in a buffer that
holds a newline. -/
theorem wordEndAll_newline :
    ∀ (n : Nat) (x : List Nat), x.length ≤ n → 0x0A ∈ x → wordEndAll x ≠ none := by
  intro n
  induction n with
  | zero =>
    intro x hn h
    have : x = [] := List.length_eq_zero.mp (Nat.le_zero.mp hn)
    subst this
    cases h
  | succ n ih =>
    intro x hn h
    have hne : x ≠ [] := List.ne_nil_of_mem h
    have hw1 := DecodeRune_width_pos' hne
    rw [wordEndAll_cons hne]
    by_cases hsp : isSpace (DecodeRune x).1 = true
    · simp [hsp]
    · simp only [hsp, Bool.false_eq_true, if_false, ne_eq, Option.map_eq_none']
      have hl : (x.drop (DecodeRune x).2).length = x.length - (DecodeRune x).2 :=
        List.length_drop _ _
      apply ih _ (by omega)
      rw [← List.take_append_drop (DecodeRune x).2 x] at h
      rcases List.mem_append.mp h with h1 | h1
      · exfalso
        by_cases hw : 1 < (DecodeRune x).2
        · have := DecodeRune_wide x hw _ h1
          omega
        · have hw' : (DecodeRune x).2 = 1 := by omega
          rw [hw'] at h1
          match x, hne with
          | d0 :: t, _ =>
            simp only [List.take_succ_cons, List.take_zero, List.mem_singleton] at h1
            subst h1
            rw [DecodeRune_ascii t (by omega)] at hsp
            exact hsp (by decide)
      · exact h1

theorem ScanWords_newline {r : List Nat} (hlast : r.getLast? = some 0x0A) :
    ScanWords r false ≠ (0, none) := by
  intro h
  rw [ScanWords_eq] at h
  cases hwe : wordEndAll (r.drop (skipAll r)) with
  | some iw =>
    rw [hwe] at h
    simp at h
  | none =>
    rw [hwe] at h
    simp only [Bool.false_and, Bool.false_eq_true, if_false, Prod.mk.injEq, and_true] at h
    rw [h, List.drop_zero] at hwe
    exact wordEndAll_newline _ r (le_refl _) (List.mem_of_getLast?_eq_some hlast) hwe

/-- The first loop of `ScanWords` on a prefix of the stream stops behind a
number of white space runes of the stream. -/
theorem skipAll_skipN (z : List Nat) :
    ∀ (n : Nat) (x : List Nat), x.length ≤ n → ∃ k, skipAll x = skipN k (x ++ z) := by
  intro n
  induction n with
  | zero =>
    intro x hn
    have : x = [] := List.length_eq_zero.mp (Nat.le_zero.mp hn)
    subst this
    exact ⟨0, rfl⟩
  | succ n ih =>
    intro x hn
    by_cases hne : x = []
    · subst hne
      exact ⟨0, rfl⟩
    have hxz : (x ++ z).isEmpty = false := by
      cases x with
      | nil => exact absurd rfl hne
      | cons _ _ => rfl
    have hw1 := DecodeRune_width_pos' hne
    have hw2 := DecodeRune_width_le x
    rw [skipAll_cons hne]
    by_cases hsp : isSpace (DecodeRune x).1 = true
    · have hl : (x.drop (DecodeRune x).2).length = x.length - (DecodeRune x).2 :=
        List.length_drop _ _
      have e : DecodeRune x = DecodeRune (x ++ z) := by
        rcases DecodeRune_prefix x z hne with e | ⟨e, _⟩
        · exact e
        · rw [e] at hsp
          simp [isSpace_RuneError] at hsp
      obtain ⟨k, hk⟩ := ih (x.drop (DecodeRune x).2) (by omega)
      refine ⟨k + 1, ?_⟩
      simp only [hsp, if_true, skipN, hxz, Bool.false_eq_true, if_false, ← e, hk,
        List.drop_append_of_le_length hw2]
    · exact ⟨0, by simp [hsp, skipN]⟩

/-- `ScanWords` on a buffer that starts with a white space rune. -/
theorem ScanWords_space {data : List Nat} (hne : data ≠ [])
    (hsp : isSpace (DecodeRune data).1 = true) (e : Bool) :
    ScanWords data e
      = ((ScanWords (data.drop (DecodeRune data).2) e).1 + (DecodeRune data).2,
          (ScanWords (data.drop (DecodeRune data).2) e).2) := by
  have hw2 := DecodeRune_width_le data
  have hs : skipAll data = (DecodeRune data).2 + skipAll (data.drop (DecodeRune data).2) := by
    rw [skipAll_cons hne]
    simp [hsp]
  have hl : (data.drop (DecodeRune data).2).length = data.length - (DecodeRune data).2 :=
    List.length_drop _ _
  have hle := skipAll_le (data.drop (DecodeRune data).2)
  rw [ScanWords_eq, ScanWords_eq, hs, ← List.drop_drop]
  generalize skipAll (data.drop (DecodeRune data).2) = s at *
  generalize (DecodeRune data).2 = w at *
  cases wordEndAll (List.drop s (List.drop w data)) with
  | some iw =>
    simp only [Prod.mk.injEq, and_true]
    omega
  | none =>
    simp only [hl]
    by_cases hlt : s < data.length - w
    · have hlt' : w + s < data.length := by omega
      cases e
      · simp; omega
      · simp [hlt, hlt']; omega
    · have hlt' : ¬ w + s < data.length := by omega
      simp [hlt, hlt']; omega

theorem ScanWords_none {x : List Nat} {adv : Nat} (h : ScanWords x false = (adv, none)) :
    adv = skipAll x := by
  rw [ScanWords_eq] at h
  cases hwe : wordEndAll (x.drop (skipAll x)) with
  | some iw =>
    rw [hwe] at h
    simp at h
  | none =>
    rw [hwe] at h
    simp only [Bool.false_and, Bool.false_eq_true, if_false, Prod.mk.injEq, and_true] at h
    exact h.symm

/-- The word scanner returns the same tokens from a stream with some of its
leading white space runes taken off. -/
theorem scan_words_skipN :
    ∀ (m : Nat) (l : List Nat), l.length ≤ m → ∀ n,
      scan ScanWords l = scan ScanWords (l.drop (skipN n l)) := by
  intro m
  induction m using Nat.strong_induction_on with
  | _ m ih =>
    intro l hm n
    cases n with
    | zero => rfl
    | succ n =>
      by_cases hne : l = []
      · subst hne; rfl
      have hle : l.isEmpty = false := by
        cases l with
        | nil => exact absurd rfl hne
        | cons _ _ => rfl
      by_cases hsp : isSpace (DecodeRune l).1 = true
      · have hw1 := DecodeRune_width_pos' hne
        have hw2 := DecodeRune_width_le l
        have hpos : 0 < l.length := List.length_pos.mpr hne
        have hl : (l.drop (DecodeRune l).2).length = l.length - (DecodeRune l).2 :=
          List.length_drop _ _
        have hsk : skipN (n + 1) l
            = (DecodeRune l).2 + skipN n (l.drop (DecodeRune l).2) := by
          simp [skipN, hle, hsp]
        have hW : DecodeRune (l.take maxScanTokenSize) = DecodeRune l :=
          DecodeRune_take l _ (by decide)
        have hWne : l.take maxScanTokenSize ≠ [] := by
          match l, hne with
          | d0 :: t, _ => rw [take_window_cons]; simp
        have hWw := DecodeRune_width_le (l.take maxScanTokenSize)
        have hWl : (l.take maxScanTokenSize).length ≤ maxScanTokenSize := by
          rw [List.length_take]; exact Nat.min_le_left _ _
        rw [hW] at hWw
        have hSH := ScanWords_space hWne (by rw [hW]; exact hsp) false
        rw [hW, List.drop_take] at hSH
        have hsplit : (l.drop (DecodeRune l).2).take (maxScanTokenSize - (DecodeRune l).2)
            ++ (l.drop (DecodeRune l).2).drop (maxScanTokenSize - (DecodeRune l).2)
            = l.drop (DecodeRune l).2 := List.take_append_drop _ _
        have hwin : (l.drop (DecodeRune l).2).take maxScanTokenSize
            = (l.drop (DecodeRune l).2).take (maxScanTokenSize - (DecodeRune l).2)
              ++ ((l.drop (DecodeRune l).2).drop (maxScanTokenSize - (DecodeRune l).2)).take
                (DecodeRune l).2 := by
          rw [← List.take_add, Nat.sub_add_cancel (by omega)]
        have key : scan ScanWords l = scan ScanWords (l.drop (DecodeRune l).2) := by
          rcases hx : ScanWords ((l.drop (DecodeRune l).2).take
              (maxScanTokenSize - (DecodeRune l).2)) false with ⟨adv, _ | tok⟩
          · rw [hx] at hSH
            simp only at hSH
            have hadv := ScanWords_none hx
            obtain ⟨k, hk⟩ := skipAll_skipN
              ((l.drop (DecodeRune l).2).drop (maxScanTokenSize - (DecodeRune l).2)) _
              ((l.drop (DecodeRune l).2).take (maxScanTokenSize - (DecodeRune l).2)) (le_refl _)
            rw [hsplit, ← hadv] at hk
            obtain ⟨j, hj⟩ : ∃ j, adv + (DecodeRune l).2 = j + 1 :=
              ⟨adv + (DecodeRune l).2 - 1, by omega⟩
            rw [hj] at hSH
            rw [scan_skip ScanWords ScanWords_advance hne hSH, ← hj,
              ih (l.length - 1) (by omega) (l.drop (DecodeRune l).2) (by omega) k, ← hk,
              List.drop_drop, Nat.add_comm]
          · rw [hx] at hSH
            simp only at hSH
            have ha := ScanWords_advance _ _ _ _ hx
            have hne' : l.drop (DecodeRune l).2 ≠ [] := by
              intro e
              rw [e] at ha
              simp at ha
              omega
            have hx' := ScanWords_append
              (((l.drop (DecodeRune l).2).drop (maxScanTokenSize - (DecodeRune l).2)).take
                (DecodeRune l).2) hx
            rw [← hwin] at hx'
            rw [scan_token ScanWords ScanWords_advance hne hSH,
              scan_token ScanWords ScanWords_advance hne' hx', List.drop_drop, Nat.add_comm]
        rw [key, hsk, ← List.drop_drop]
        exact ih (l.length - 1) (by omega) (l.drop (DecodeRune l).2) (by omega) n
      · have hsk : skipN (n + 1) l = 0 := by simp [skipN, hle, hsp]
        rw [hsk]
        rfl

theorem scan_words_append (a b : List Nat) (hend : a = [] ∨ a.getLast? = some 0x0A)
    (hun : (scan ScanWords a).unread = 0) :
    scan ScanWords (a ++ b)
      = ⟨(scan ScanWords a).tokens ++ (scan ScanWords b).tokens, (scan ScanWords b).tooLong,
          (scan ScanWords b).unread⟩ := by
  refine scan_append_of ScanWords ScanWords_advance ScanWords_nil b ?_ ?_ ?_ a.length a
    (le_refl _) hend hun
  · intro r adv tok _ _ hs
    rw [List.take_append_eq_append_take]
    exact ScanWords_append _ hs
  · intro r _ hlast
    exact ScanWords_newline hlast
  · intro r adv _ _ hs
    have hadv := ScanWords_none hs
    have hle := skipAll_le (r.take maxScanTokenSize)
    have hW : (r.take maxScanTokenSize).length ≤ r.length := by
      rw [List.length_take]; exact Nat.min_le_right _ _
    obtain ⟨k, hk⟩ := skipAll_skipN (r.drop maxScanTokenSize ++ b) _
      (r.take maxScanTokenSize) (le_refl _)
    rw [← List.append_assoc, List.take_append_drop, ← hadv] at hk
    rw [scan_words_skipN _ (r ++ b) (le_refl _) k, ← hk,
      List.drop_append_of_le_length (by omega)]

/-! ## wc on `a ++ b` -/

theorem maxOf_append (x y : List Nat) : maxOf (x ++ y) = max (maxOf x) (maxOf y) := by
  induction x with
  | nil => simp [maxOf_nil]
  | cons c t ih => simp only [List.cons_append, maxOf_cons, ih, max_assoc]

/-- The longest of the segments of `x ++ y`, for `x` that ends with the
separator. -/
theorem segments_append_longest {α : Type} [DecidableEq α] (sep : α) (y : List α) :
    ∀ (n : Nat) (x : List α), x.length ≤ n → x.getLast? = some sep →
      maxOf ((segments sep (x ++ y)).map List.length)
        = max (maxOf ((segments sep x).map List.length))
            (maxOf ((segments sep y).map List.length)) := by
  intro n
  induction n using Nat.strong_induction_on with
  | _ n ih =>
    intro x hn hlast
    obtain ⟨p, q, hsplit, hp⟩ := List.eq_append_cons_of_mem (List.mem_of_getLast?_eq_some hlast)
    subst hsplit
    have hlen : (p ++ sep :: q).length = p.length + 1 + q.length := by
      simp only [List.length_append, List.length_cons]; omega
    rw [List.append_assoc, List.cons_append, segments_line _ hp, segments_line _ hp]
    simp only [List.map_cons, maxOf_cons]
    by_cases hq : q = []
    · subst hq
      simp [segments, maxOf_cons, maxOf_nil]
    · have hql : q.getLast? = some sep := by
        rw [List.getLast?_append_cons] at hlast
        obtain ⟨c, t, rfl⟩ := List.exists_cons_of_ne_nil hq
        rw [List.getLast?_cons_cons] at hlast
        exact hlast
      rw [ih q.length (by omega) q (le_refl _) hql, max_assoc]

/-- The last token of the rune scanner on a stream that ends with a newline
is the newline. -/
theorem scan_runes_last (s : List Nat) :
    (s = [] → (scan ScanRunes s).tokens = []) ∧
      (s.getLast? = some 0x0A → (scan ScanRunes s).tokens.getLast? = some [0x0A]) := by
  refine runeScan_cases
    (fun rest R => (rest = [] → R.tokens = []) ∧
      (rest.getLast? = some 0x0A → R.tokens.getLast? = some [0x0A])) ?_ ?_ s
  · exact ⟨fun _ => rfl, fun h => by cases h⟩
  · intro rest w tok R hne hs ih
    refine ⟨fun e => absurd e hne, ?_⟩
    intro hlast
    obtain ⟨w', tok', h1, h2, h3, h4⟩ := ScanRunes_eof hne
    rw [hs] at h1
    simp only [Prod.mk.injEq, Option.some.injEq] at h1
    obtain ⟨rfl, rfl⟩ := h1
    by_cases hd : rest.drop w = []
    · have hR := ih.1 hd
      have hk : rest.take w = rest := by
        rw [List.take_of_length_le (List.drop_eq_nil_iff.mp hd)]
      rcases h4 with ⟨e, _, _⟩ | ⟨_, hno⟩
      · simp [Scanned.push, hR, e]
      · rw [hk] at hno
        exact absurd (List.mem_of_getLast?_eq_some hlast) hno
    · have hl : (rest.drop w).getLast? = some 0x0A := by
        rw [List.getLast?_drop, if_neg (fun e => hd (List.drop_eq_nil_iff.mpr e))]
        exact hlast
      have hR := ih.2 hl
      have hRne : R.tokens ≠ [] := by
        intro e
        rw [e] at hR
        cases hR
      obtain ⟨c, t, hct⟩ := List.exists_cons_of_ne_nil hRne
      simp only [Scanned.push]
      rw [hct, List.getLast?_cons_cons, ← hct]
      exact hR

theorem lineLongest_append (a b : List Nat) (hend : a = [] ∨ a.getLast? = some 0x0A)
    (hun : (scan ScanLines a).unread = 0) :
    lineLongest (a ++ b) = max (lineLongest a) (lineLongest b) := by
  simp only [lineLongest, scan_lines_append a b hend hun, List.map_append, maxOf_append]

theorem runeLongest_append (a b : List Nat) (hlast : a.getLast? = some 0x0A) :
    runeLongest (a ++ b) = max (runeLongest a) (runeLongest b) := by
  simp only [runeLongest, scan_runes_append a b (Or.inr hlast)]
  exact segments_append_longest [0x0A] _ _ _ (le_refl _) ((scan_runes_last a).2 hlast)

theorem wc_unread {sched : List Bool} {s : List Nat} {r : count} (h : wc sched s = some r) :
    (scan ScanBytes s).unread = 0 ∧ (scan ScanLines s).unread = 0 ∧
      (scan ScanWords s).unread = 0 ∧ (scan ScanRunes s).unread = 0 := by
  unfold wc at h
  simp only [countWithSplitFunc, countRunesAndLonestLine] at h
  split at h
  · assumption
  · cases h

theorem wc_isSome_of_unread (sched : List Bool) (s : List Nat)
    (h : (scan ScanBytes s).unread = 0 ∧ (scan ScanLines s).unread = 0 ∧
      (scan ScanWords s).unread = 0 ∧ (scan ScanRunes s).unread = 0) :
    ∃ r, wc sched s = some r := by
  unfold wc
  simp only [countWithSplitFunc, countRunesAndLonestLine]
  rw [if_pos h]
  exact ⟨_, rfl⟩

/-- Counting `a ++ b`, for `a` that ends with a newline, when `wc` returns on
`a` and on `b`: `wc` returns on `a ++ b`, with the sums of the bytes, lines,
words and chars of the parts and, when in each run the updates of `longest`
by the two counters do not overlap, the larger of their longest lines. -/
theorem wc_append_of_returns (sa sb sab : List Bool) (a b : List Nat) (ra rb : count)
    (hlast : a.getLast? = some 0x0A) (ha : wc sa a = some ra) (hb : wc sb b = some rb) :
    ∃ r, wc sab (a ++ b) = some r ∧ r.bytes = ra.bytes + rb.bytes ∧
      r.lines = ra.lines + rb.lines ∧ r.words = ra.words + rb.words ∧
      r.chars = ra.chars + rb.chars ∧
      (sa = [] → sb = [] → sab = [] → r.longest = max ra.longest rb.longest) := by
  obtain ⟨a1, a2, a3, a4⟩ := wc_unread ha
  obtain ⟨b1, b2, b3, b4⟩ := wc_unread hb
  have hend : a = [] ∨ a.getLast? = some 0x0A := Or.inr hlast
  have hL := scan_lines_append a b hend a2
  have hW := scan_words_append a b hend a3
  have hR := scan_runes_append a b hend
  have hB : scan ScanBytes (a ++ b)
      = ⟨(scan ScanBytes a).tokens ++ (scan ScanBytes b).tokens, false, 0⟩ := by
    simp [scan_bytes_eq]
  obtain ⟨r, hr⟩ := wc_isSome_of_unread sab (a ++ b)
    ⟨by rw [hB], by rw [hL]; exact b2, by rw [hW]; exact b3, by rw [hR]; exact b4⟩
  refine ⟨r, hr, ?_, ?_, ?_, ?_, ?_⟩
  · rw [wc_eq_some hr, wc_eq_some ha, wc_eq_some hb]
    simp [countWithSplitFunc, hB]
  · rw [wc_lines_eq hr, wc_lines_eq ha, wc_lines_eq hb, hL]
    simp
  · rw [wc_words_eq hr, wc_words_eq ha, wc_words_eq hb, hW]
    simp
  · rw [wc_chars_eq hr, wc_chars_eq ha, wc_chars_eq hb, hR]
    simp
  · intro e1 e2 e3
    subst e1 e2 e3
    rw [wc_longest_sequential _ _ hr, wc_longest_sequential _ _ ha,
      wc_longest_sequential _ _ hb, lineLongest_append a b hend a2,
      runeLongest_append a b hlast]
    simp only [max_assoc, max_left_comm, max_comm]

/-! ## Inputs on which `wc` returns -/

/-- A scan that stops on no error leaves nothing unread. -/
theorem scanLoop_unread_of_ok (split : SplitFunc) (fuel : Nat) :
    ∀ (rest : List Nat) (e : Bool), (scanLoop split fuel rest e).tooLong = false →
      (scanLoop split fuel rest e).unread = 0 := by
  induction fuel with
  | zero => intro rest e _; cases e <;> rfl
  | succ f ih =>
    intro rest e
    cases e with
    | true =>
      rw [scanLoop]
      split
      · rename_i advance token _
        intro h
        exact ih (rest.drop advance) true h
      · intro _; rfl
    | false =>
      rw [scanLoop]
      split
      · exact ih rest true
      · split
        · rename_i advance token _
          intro h
          exact ih (rest.drop advance) false h
        · split
          · intro h; cases h
          · exact ih rest true
        · rename_i advance _
          exact ih (rest.drop (advance + 1)) false

theorem segments_cons_le {α : Type} [DecidableEq α] (sep b : α) (t : List α) :
    ∀ l ∈ segments sep t, ∃ l' ∈ segments sep (b :: t), l.length ≤ l'.length := by
  intro l hl
  by_cases hb : b = sep
  · exact ⟨l, by simp [segments, hb, hl], le_refl _⟩
  · cases hseg : segments sep t with
    | nil => rw [hseg] at hl; cases hl
    | cons seg segs =>
      rw [hseg] at hl
      have hs : segments sep (b :: t) = (b :: seg) :: segs := by simp [segments, hb, hseg]
      rw [hs]
      rcases List.mem_cons.mp hl with e | e
      · exact ⟨b :: seg, by simp, by rw [e]; simp⟩
      · exact ⟨l, List.mem_cons_of_mem _ e, le_refl _⟩

/-- A segment of what is left of a stream is no longer than some segment of
the stream. -/
theorem segments_drop_le {α : Type} [DecidableEq α] (sep : α) (s : List α) :
    ∀ k, ∀ l ∈ segments sep (s.drop k), ∃ l' ∈ segments sep s, l.length ≤ l'.length := by
  induction s with
  | nil => intro k l hl; exact ⟨l, by simpa using hl, le_refl _⟩
  | cons b t ih =>
    intro k l hl
    cases k with
    | zero => exact ⟨l, hl, le_refl _⟩
    | succ k =>
      rw [List.drop_succ_cons] at hl
      obtain ⟨l1, h1, h2⟩ := ih k l hl
      obtain ⟨l2, h3, h4⟩ := segments_cons_le sep b t l1 h1
      exact ⟨l2, h3, le_trans h2 h4⟩

/-- In a stream whose lines are shorter than `maxScanTokenSize`, a full
buffer of the scanner holds a newline. -/
theorem newline_in_window {s : List Nat}
    (hs : ∀ l ∈ segments 0x0A s, l.length < maxScanTokenSize) (k : Nat)
    (hlen : maxScanTokenSize ≤ (s.drop k).length) :
    0x0A ∈ (s.drop k).take maxScanTokenSize := by
  by_contra hmem
  obtain ⟨seg, segs, h1, h2⟩ := segments_head_long (s.drop k) _ hmem hlen
  obtain ⟨l', h3, h4⟩ := segments_drop_le 0x0A s k seg (by rw [h1]; simp)
  have := hs l' h3
  omega

/-- A split function that asks for no more data in front of a newline never
overflows the buffer on a stream whose full buffers hold a newline. -/
theorem scanLoop_ok_of_newline (split : SplitFunc)
    (hnl : ∀ W, 0x0A ∈ W → split W false ≠ (0, none)) (fuel : Nat) :
    ∀ (rest : List Nat) (e : Bool),
      (∀ k, maxScanTokenSize ≤ (rest.drop k).length →
        0x0A ∈ (rest.drop k).take maxScanTokenSize) →
      (scanLoop split fuel rest e).tooLong = false := by
  induction fuel with
  | zero => intro rest e _; cases e <;> rfl
  | succ f ih =>
    intro rest e hP
    have hdrop : ∀ a k, maxScanTokenSize ≤ ((rest.drop a).drop k).length →
        0x0A ∈ ((rest.drop a).drop k).take maxScanTokenSize := by
      intro a k
      rw [List.drop_drop]
      exact hP _
    cases e with
    | true =>
      rw [scanLoop]
      split
      · rename_i advance token _
        exact ih (rest.drop advance) true (hdrop advance)
      · rfl
    | false =>
      rw [scanLoop]
      split
      · exact ih rest true hP
      · split
        · rename_i advance token _
          exact ih (rest.drop advance) false (hdrop advance)
        · rename_i hsp
          split
          · rename_i hlen
            exact absurd hsp (hnl _ (by simpa using hP 0 (by simpa using hlen)))
          · exact ih rest true hP
        · rename_i advance _
          exact ih (rest.drop (advance + 1)) false (hdrop (advance + 1))

theorem ScanWords_mem_newline {r : List Nat} (hmem : 0x0A ∈ r) :
    ScanWords r false ≠ (0, none) := by
  intro h
  rw [ScanWords_eq] at h
  cases hwe : wordEndAll (r.drop (skipAll r)) with
  | some iw =>
    rw [hwe] at h
    simp at h
  | none =>
    rw [hwe] at h
    simp only [Bool.false_and, Bool.false_eq_true, if_false, Prod.mk.injEq, and_true] at h
    rw [h, List.drop_zero] at hwe
    exact wordEndAll_newline _ r (le_refl _) hmem hwe

/-- On a stream whose lines are shorter than `maxScanTokenSize` the word
scanner stops on no error. -/
theorem scan_words_ok {s : List Nat}
    (hs : ∀ l ∈ segments 0x0A s, l.length < maxScanTokenSize) :
    (scan ScanWords s).tooLong = false ∧ (scan ScanWords s).unread = 0 := by
  have h := scanLoop_ok_of_newline ScanWords (fun W => ScanWords_mem_newline) (s.length + 2) s
    false (newline_in_window hs)
  exact ⟨h, scanLoop_unread_of_ok _ _ _ _ h⟩

/-- On an input whose lines are all shorter than `maxScanTokenSize` bytes
every counter reads its stream to the end and `wc` returns: the number of
bytes, the line count and the word count of the specification, and the number
of tokens of the rune scanner. -/
theorem wc_of_short_lines (sched : List Bool) (s : List Nat)
    (hs : ∀ l ∈ segments 0x0A s, l.length < maxScanTokenSize) :
    ∃ r, wc sched s = some r ∧ r.bytes = s.length ∧ r.lines = specLines s ∧
      r.words = specWords s ∧ r.chars = (scan ScanRunes s).tokens.length := by
  obtain ⟨l1, l2⟩ := scan_lines_length s hs
  obtain ⟨w1, w2⟩ := scan_words_ok hs
  have l3 : (scan ScanLines s).unread = 0 := scanLoop_unread_of_ok _ _ _ _ l1
  obtain ⟨r, hr⟩ := wc_isSome_of_unread sched s
    ⟨by rw [scan_bytes_eq], l3, w2, (scan_runes_ok s).2⟩
  refine ⟨r, hr, ?_, ?_, ?_, wc_chars_eq hr⟩
  · rw [wc_eq_some hr]
    simp [countWithSplitFunc, scan_bytes_eq]
  · rw [wc_lines_eq hr, l2]
  · rw [wc_words_eq hr]
    exact (scan_words_spec s).2.1 w1

/-- On a stream that starts with more than `maxScanTokenSize` bytes without a
newline the line counter stops with bytes unread and `wc` does not return. -/
theorem wc_none_of_long_line (sched : List Bool) (s : List Nat)
    (hmem : 0x0A ∉ s.take maxScanTokenSize) (hlen : maxScanTokenSize < s.length) :
    wc sched s = none := by
  apply wc_eq_none_of_lines_unread
  have h0 := scan_lines_before_long [] s (Or.inl rfl)
    (by intro l hl; simp only [segments, List.mem_singleton] at hl; subst hl; decide)
    hmem (le_of_lt hlen)
  have h3 : (scan ScanLines s).unread = s.length - maxScanTokenSize := h0.2.2
  rw [h3]
  omega

/-- A run of `maxScanTokenSize` bytes or more, none a newline, with more
bytes behind it than the buffer holds: `wc` does not return. -/
theorem wc_none_replicate (sched : List Bool) (n c : Nat) (post : List Nat) (hc : c ≠ 0x0A)
    (h : maxScanTokenSize ≤ n) (hp : maxScanTokenSize < n + post.length) :
    wc sched (List.replicate n c ++ post) = none := by
  apply wc_none_of_long_line
  · rw [List.take_append_of_le_length (by rw [List.length_replicate]; omega)]
    intro e
    exact hc (List.eq_of_mem_replicate (List.mem_of_mem_take e)).symm
  · rw [List.length_append, List.length_replicate]
    omega

theorem utf8EncodeAll_replicate (n c : Nat) :
    utf8EncodeAll (List.replicate n c) = (List.replicate n (utf8Encode c)).flatten := by
  simp [utf8EncodeAll]

theorem length_flatten_replicate (n : Nat) (l : List Nat) :
    (List.replicate n l).flatten.length = n * l.length := by
  induction n with
  | zero => simp
  | succ k ih => simp [List.replicate_succ, ih, Nat.succ_mul, Nat.add_comm]

/-- The encoding of `n` times the code point `c`, for `c` other than the
newline and a buffer that it overflows: `wc` does not return. -/
theorem wc_none_utf8_replicate (sched : List Bool) (n c : Nat) (hc : 0x0A ∉ utf8Encode c)
    (h : maxScanTokenSize < n * (utf8Encode c).length) :
    wc sched (utf8EncodeAll (List.replicate n c)) = none := by
  rw [utf8EncodeAll_replicate]
  apply wc_none_of_long_line
  · intro e
    obtain ⟨l, hl, hb⟩ := List.mem_flatten.mp (List.mem_of_mem_take e)
    rw [List.eq_of_mem_replicate hl] at hb
    exact hc hb
  · rw [length_flatten_replicate]
    exact h

/-- On valid UTF-8 whose lines are shorter than `maxScanTokenSize` bytes `wc`
returns a record whose `chars` field is the number of code points encoded. -/
theorem wc_chars_of_short_lines (sched : List Bool) (cps : List Nat)
    (hv : ∀ c ∈ cps, isScalar c)
    (hs : ∀ l ∈ segments 0x0A (utf8EncodeAll cps), l.length < maxScanTokenSize) :
    ∃ r, wc sched (utf8EncodeAll cps) = some r ∧ r.chars = cps.length := by
  obtain ⟨r, hr, _, _, _, hc⟩ := wc_of_short_lines sched _ hs
  refine ⟨r, hr, ?_⟩
  rw [hc, scan_runes_utf8 cps hv]
  simp

/-- On white space whose lines are shorter than `maxScanTokenSize` bytes `wc`
returns a record whose `words` field is 0. -/
theorem wc_whitespace_of_short_lines (sched : List Bool) (cps : List Nat)
    (hsp : ∀ c ∈ cps, isSpace c = true)
    (hs : ∀ l ∈ segments 0x0A (utf8EncodeAll cps), l.length < maxScanTokenSize) :
    ∃ r, wc sched (utf8EncodeAll cps) = some r ∧ r.words = 0 := by
  have hv : ∀ c ∈ cps, isScalar c := fun c hc => isScalar_of_isSpace (hsp c hc)
  obtain ⟨r, hr, _, _, hw, _⟩ := wc_of_short_lines sched _ hs
  refine ⟨r, hr, ?_⟩
  rw [hw, specWords, decodeRunes_utf8EncodeAll cps hv, countRuns_spaces cps hsp]

/-! ## Updates of `longest` that do not overlap -/

/-- When no update of `longest` by one counter overlaps an update by the
other, `longest` ends as the largest of its initial value and of all the
operands. -/
theorem interleave_nonOverlapping (sched : List Bool) :
    ∀ (mem : Nat) (pl pr : Pending),
      (∀ v, pl.loaded = some v → v = mem ∧ pl.todo ≠ []) →
      (∀ v, pr.loaded = some v → v = mem ∧ pr.todo ≠ []) →
      nonOverlapping sched mem pl pr = true →
      interleave sched mem pl pr = max mem (max (maxOf pl.todo) (maxOf pr.todo)) := by
  induction sched with
  | nil =>
    intro mem pl pr hl hr hno
    obtain ⟨ll, lt⟩ := pl
    obtain ⟨rl, rt⟩ := pr
    simp only [nonOverlapping, Bool.or_eq_true, Option.isNone_iff_eq_none,
      List.isEmpty_iff] at hno
    simp only [interleave]
    cases lt with
    | nil =>
      simp only [drainLine, maxOf_nil]
      cases rt with
      | nil => simp [drainRune, maxOf_nil]
      | cons c t =>
        rw [drainRune_cons, maxOf_cons]
        cases rl with
        | none => simp only [Option.getD_none]; split_ifs <;> omega
        | some v =>
          obtain ⟨rfl, _⟩ := hr v rfl
          simp only [Option.getD_some]; split_ifs <;> omega
    | cons n t =>
      have hrl : rl = none := by
        rcases hno with e | e
        · exact e
        · cases e
      subst hrl
      rw [drainLine_cons, drainRune_none, maxOf_cons]
      cases ll with
      | none => simp only [Option.getD_none]; omega
      | some v =>
        obtain ⟨rfl, _⟩ := hl v rfl
        simp only [Option.getD_some]; omega
  | cons b sched ih =>
    intro mem pl pr hl hr hno
    obtain ⟨ll, lt⟩ := pl
    obtain ⟨rl, rt⟩ := pr
    cases b with
    | true =>
      simp only [nonOverlapping, Bool.and_eq_true, Bool.or_eq_true, Option.isNone_iff_eq_none,
        List.isEmpty_iff] at hno
      obtain ⟨hc, hno⟩ := hno
      simp only [interleave]
      cases lt with
      | nil =>
        have hs : lineStep mem ⟨ll, []⟩ = (mem, ⟨ll, []⟩) := by simp [lineStep]
        rw [hs] at hno ⊢
        exact ih mem _ _ hl hr hno
      | cons n t =>
        have hrl : rl = none := by
          rcases hc with e | e
          · exact e
          · cases e
        subst hrl
        cases ll with
        | none =>
          have hs : lineStep mem ⟨none, n :: t⟩ = (mem, ⟨some mem, n :: t⟩) := by
            simp [lineStep]
          rw [hs] at hno ⊢
          exact ih mem _ _ (fun v hv => ⟨(Option.some.inj hv).symm, by simp⟩) hr hno
        | some v =>
          obtain ⟨rfl, _⟩ := hl v rfl
          have hs : lineStep v ⟨some v, n :: t⟩ = (max v n, ⟨none, t⟩) := by
            simp [lineStep]
          rw [hs] at hno ⊢
          rw [ih (max v n) _ _ (fun w hw => by cases hw) (fun w hw => by cases hw) hno]
          simp only [maxOf_cons]
          omega
    | false =>
      simp only [nonOverlapping, Bool.and_eq_true, Bool.or_eq_true, Option.isNone_iff_eq_none,
        List.isEmpty_iff] at hno
      obtain ⟨hc, hno⟩ := hno
      simp only [interleave]
      cases rt with
      | nil =>
        have hs : runeStep mem ⟨rl, []⟩ = (mem, ⟨rl, []⟩) := by simp [runeStep]
        rw [hs] at hno ⊢
        exact ih mem _ _ hl hr hno
      | cons c t =>
        have hll : ll = none := by
          rcases hc with e | e
          · exact e
          · cases e
        subst hll
        cases rl with
        | none =>
          have hs : runeStep mem ⟨none, c :: t⟩ = (mem, ⟨some mem, c :: t⟩) := by
            simp [runeStep]
          rw [hs] at hno ⊢
          exact ih mem _ _ hl (fun v hv => ⟨(Option.some.inj hv).symm, by simp⟩) hno
        | some v =>
          obtain ⟨rfl, _⟩ := hr v rfl
          have hs : runeStep v ⟨some v, c :: t⟩ = (if v < c then c else v, ⟨none, t⟩) := by
            simp [runeStep]
          rw [hs] at hno ⊢
          rw [ih _ _ _ (fun w hw => by cases hw) (fun w hw => by cases hw) hno]
          simp only [maxOf_cons]
          split_ifs <;> omega

/-- When no update of `longest` by one counter overlaps an update by the
other, the record returned by `wc` holds the larger of the two
measurements. -/
theorem wc_longest_nonOverlapping (sched : List Bool) (s : List Nat) (r : count)
    (h : wc sched s = some r)
    (hno : nonOverlapping sched 0 ⟨none, (countWithSplitFunc s ScanLines true).updates⟩
      ⟨none, (countRunesAndLonestLine s).updates⟩ = true) :
    r.longest = max (lineLongest s) (runeLongest s) := by
  rw [wc_eq_some h]
  simp only
  rw [interleave_nonOverlapping sched 0 _ _ (fun v hv => by cases hv) (fun v hv => by cases hv)
    hno]
  simp [countWithSplitFunc, countRunesAndLonestLine, runeLoop_updates, lineLongest, runeLongest]

/-! # The claims -/

/-! ## C1 -/

/-- C1, failing input. On a line of 65536 bytes `a` and its newline, 65537
bytes in all, `wc` returns no record, under any schedule: the line counter
stops with `ErrTooLong` on its full buffer and leaves the newline unread in
its pipe, the copier blocks on it and the byte counter never sees the end of
its stream. -/
theorem wc_bytes_blocked (sched : List Bool) :
    wc sched (List.replicate 65536 97 ++ [0x0A]) = none :=
  wc_none_replicate sched 65536 97 [0x0A] (by decide) (by decide) (by decide)

/-! ## C2 -/

/-- C2, counterexample. On 65536 bytes `a` with no newline `wc` returns a
record whose `lines` field is 0, where the claim asks for 1: the line scanner
stopped with `ErrTooLong` on a full buffer. -/
theorem wc_lines_counterexample :
    ∃ r, wc [] (List.replicate 65536 97) = some r ∧ r.lines = 0
      ∧ specLines (List.replicate 65536 97) = 1 := by
  have hlen : (List.replicate 65536 97).length ≤ maxScanTokenSize := by
    rw [List.length_replicate]; decide
  have hlen' : maxScanTokenSize ≤ (List.replicate 65536 97).length := by
    rw [List.length_replicate]; decide
  have hb : 0x0A ∉ List.replicate 65536 97 := by
    intro e
    exact absurd (List.eq_of_mem_replicate e) (by decide)
  have hne : List.replicate 65536 97 ≠ [] := by
    intro e
    rw [e] at hlen'
    exact absurd hlen' (by decide)
  obtain ⟨r, hr⟩ := Option.isSome_iff_exists.mp (wc_isSome_of_length_le [] _ hlen)
  refine ⟨r, hr, ?_, specLines_last hb hne⟩
  rw [wc_lines_eq hr, scan_lines_long _ (fun e => hb (List.mem_of_mem_take e)) hlen']
  rfl

/-- C2, amended. On every input whose lines are all shorter than 65536
bytes, under any schedule of the counters, `wc` returns a record whose `lines`
field is the number of newline bytes of the input, plus one when the input is
non-empty and does not end with a newline; on such an input without a newline
it is 1 when the input is non-empty and 0 when it is empty. -/
theorem wc_lines_eq_specLines (sched : List Bool) (s : List Nat)
    (hs : ∀ l ∈ segments 0x0A s, l.length < maxScanTokenSize) :
    ∃ r, wc sched s = some r ∧ r.lines = specLines s ∧
      (0x0A ∉ s → r.lines = if s = [] then 0 else 1) := by
  obtain ⟨r, hr, _, hl, _, _⟩ := wc_of_short_lines sched s hs
  refine ⟨r, hr, hl, ?_⟩
  intro hmem
  rw [hl]
  by_cases hne : s = []
  · subst hne
    simp [specLines_nil]
  · rw [specLines_last hmem hne, if_neg hne]

/-- Witness of the amended C2 on `a\nb`. -/
theorem wc_lines_eq_specLines_witness :
    (∀ l ∈ segments 0x0A [97, 10, 98], l.length < maxScanTokenSize) ∧
      ∃ r, wc [] [97, 10, 98] = some r ∧ r.lines = specLines [97, 10, 98] ∧
        (0x0A ∉ [97, 10, 98] → r.lines = if [97, 10, 98] = [] then 0 else 1) :=
  ⟨by decide, wc_lines_eq_specLines [] [97, 10, 98] (by decide)⟩

/-! ## C3 -/

/-- C3, counterexample. On 65536 bytes `a`, one run of non-whitespace code
points, `wc` returns a record whose `words` field is 0: the word scanner
stopped with `ErrTooLong` on a full buffer. -/
theorem wc_words_counterexample :
    ∃ r, wc [] (List.replicate 65536 97) = some r ∧ r.words = 0
      ∧ specWords (List.replicate 65536 97) = 1 := by
  have hlen : (List.replicate 65536 97).length ≤ maxScanTokenSize := by
    rw [List.length_replicate]; decide
  have hlen' : maxScanTokenSize ≤ (List.replicate 65536 97).length := by
    rw [List.length_replicate]; decide
  have hb : ∀ b ∈ List.replicate 65536 97, b < 0x80 ∧ isSpace b = false := by
    intro b hb
    rw [List.eq_of_mem_replicate hb]
    decide
  have hne : List.replicate 65536 97 ≠ [] := by
    intro e
    rw [e] at hlen'
    exact absurd hlen' (by decide)
  obtain ⟨r, hr⟩ := Option.isSome_iff_exists.mp (wc_isSome_of_length_le [] _ hlen)
  refine ⟨r, hr, ?_, specWords_nonspace _ hb hne⟩
  rw [wc_words_eq hr, scan_words_long _ hb hlen']
  rfl

/-- C3, amended. On every input whose lines are all shorter than 65536
bytes, under any schedule of the counters, `wc` returns a record whose `words`
field is the number of maximal runs of non-whitespace code points of the
input; and no token of the word scanner is empty. -/
theorem wc_words_eq_specWords (sched : List Bool) (s : List Nat)
    (hs : ∀ l ∈ segments 0x0A s, l.length < maxScanTokenSize) :
    ∃ r, wc sched s = some r ∧ r.words = specWords s ∧
      ∀ tok ∈ (scan ScanWords s).tokens, tok ≠ [] := by
  obtain ⟨r, hr, _, _, hw, _⟩ := wc_of_short_lines sched s hs
  exact ⟨r, hr, hw, (scan_words_spec s).2.2⟩

/-- Witness of the amended C3 on ` a  bc ` (leading, doubled and trailing
spaces). -/
theorem wc_words_eq_specWords_witness :
    (∀ l ∈ segments 0x0A [32, 97, 32, 32, 98, 99, 32], l.length < maxScanTokenSize) ∧
      ∃ r, wc [] [32, 97, 32, 32, 98, 99, 32] = some r ∧
        r.words = specWords [32, 97, 32, 32, 98, 99, 32] ∧
        ∀ tok ∈ (scan ScanWords [32, 97, 32, 32, 98, 99, 32]).tokens, tok ≠ [] :=
  ⟨by decide, wc_words_eq_specWords [] [32, 97, 32, 32, 98, 99, 32] (by decide)⟩

/-! ## C4 -/

/-- C4, failing input. On the valid UTF-8 that encodes 32769 times `é`,
65538 bytes with no newline, `wc` returns no record, under any schedule: the
line counter stops with `ErrTooLong` on its full buffer, the copier blocks on
the bytes it left unread and the rune counter never sees the end of its
stream. -/
theorem wc_chars_blocked (sched : List Bool) :
    (∀ c ∈ List.replicate 32769 0xE9, isScalar c) ∧
      wc sched (utf8EncodeAll (List.replicate 32769 0xE9)) = none :=
  ⟨fun c hc => by rw [List.eq_of_mem_replicate hc]; decide,
    wc_none_utf8_replicate sched 32769 0xE9 (by decide) (by decide)⟩

/-! ## C5 -/

/-- C5, failing input. On `é\n` the line counter measures 2 (the bytes of
`é`) and the rune counter 1.  When the line counter loads `longest`, the rune
counter loads it too, the line counter stores 2 and the rune counter then
stores 1, `wc` returns `longest = 1` and not the larger of the two
measurements; with updates that do not overlap it returns 2. -/
theorem wc_longest_race :
    wc [true, false, true, false] [0xC3, 0xA9, 0x0A] = some ⟨3, 1, 2, 1, 1⟩ ∧
      wc [] [0xC3, 0xA9, 0x0A] = some ⟨3, 1, 2, 1, 2⟩ ∧
      lineLongest [0xC3, 0xA9, 0x0A] = 2 ∧ runeLongest [0xC3, 0xA9, 0x0A] = 1 := by
  refine ⟨by decide, by decide, by decide, by decide⟩

/-! ## C6 -/

/-- C6. On the 16 bytes of `hello world\nfoo\n`, under every schedule of the
counters, `wc` returns lines = 2, words = 3, bytes = 16, chars = 16 and
longest = 11. -/
theorem wc_hello_world (sched : List Bool) :
    wc sched [104, 101, 108, 108, 111, 32, 119, 111, 114, 108, 100, 10, 102, 111, 111, 10]
      = some { lines := 2, words := 3, bytes := 16, chars := 16, longest := 11 } := by
  have h1 : countWithSplitFunc
      [104, 101, 108, 108, 111, 32, 119, 111, 114, 108, 100, 10, 102, 111, 111, 10]
      ScanBytes false = ⟨16, [], false, 0⟩ := by decide
  have h2 : countWithSplitFunc
      [104, 101, 108, 108, 111, 32, 119, 111, 114, 108, 100, 10, 102, 111, 111, 10]
      ScanLines true = ⟨2, [11, 3], false, 0⟩ := by decide
  have h3 : countWithSplitFunc
      [104, 101, 108, 108, 111, 32, 119, 111, 114, 108, 100, 10, 102, 111, 111, 10]
      ScanWords false = ⟨3, [], false, 0⟩ := by decide
  have h4 : countRunesAndLonestLine
      [104, 101, 108, 108, 111, 32, 119, 111, 114, 108, 100, 10, 102, 111, 111, 10]
      = ⟨16, [11, 3, 0], false, 0⟩ := by decide
  have h5 := interleave_start_first_max 11 [11, 3] [11, 3, 0] (by decide) (by decide)
    (Or.inr rfl) (Or.inr rfl) (Or.inl (by decide)) sched
  simp only [wc, h1, h2, h3, h4, h5]
  rfl

/-! ## C7 -/

/-- C7. On the empty input, under every schedule of the counters, `wc`
returns a record whose five fields are 0. -/
theorem wc_empty (sched : List Bool) :
    wc sched [] = some { lines := 0, words := 0, bytes := 0, chars := 0, longest := 0 } := by
  have h1 : countWithSplitFunc [] ScanBytes false = ⟨0, [], false, 0⟩ := by decide
  have h2 : countWithSplitFunc [] ScanLines true = ⟨0, [], false, 0⟩ := by decide
  have h3 : countWithSplitFunc [] ScanWords false = ⟨0, [], false, 0⟩ := by decide
  have h4 : countRunesAndLonestLine [] = ⟨0, [0], false, 0⟩ := by decide
  have h5 := interleave_start_first_max 0 [] [0] (by decide) (by decide)
    (Or.inl rfl) (Or.inr rfl) (Or.inr (by decide)) sched
  simp only [wc, h1, h2, h3, h4, h5]
  rfl

/-! ## C8 -/

/-- C8, failing input. On 65537 spaces `wc` returns no record, under any
schedule: the line counter stops with `ErrTooLong` on its full buffer, the
copier blocks on the byte it left unread and the word counter never sees the
end of its stream. -/
theorem wc_whitespace_blocked (sched : List Bool) :
    (∀ c ∈ List.replicate 65537 0x20, isSpace c = true) ∧
      wc sched (utf8EncodeAll (List.replicate 65537 0x20)) = none :=
  ⟨fun c hc => by rw [List.eq_of_mem_replicate hc]; decide,
    wc_none_utf8_replicate sched 65537 0x20 (by decide) (by decide)⟩

/-! ## C9 -/

/-- C9, counterexample. On the single unterminated line `é`, one code point
in two bytes, `wc` returns `longest = 2`: the line counter measures bytes.
On `a\r`, two code points, the line token is `a` and a schedule in which the
store of the line counter comes last leaves `longest = 1`. -/
theorem wc_longest_line_counterexample :
    (wc [] (utf8EncodeAll [0xE9]) = some ⟨2, 1, 1, 1, 2⟩ ∧ [0xE9].length = 1 ∧
      0x0A ∉ utf8EncodeAll [0xE9]) ∧
    (wc [true, false, false, true] (utf8EncodeAll [0x61, 0x0D]) = some ⟨2, 1, 2, 1, 1⟩ ∧
      [0x61, 0x0D].length = 2 ∧ 0x0A ∉ utf8EncodeAll [0x61, 0x0D]) := by
  refine ⟨⟨by decide, rfl, by decide⟩, by decide, rfl, by decide⟩

/-- C9, amended. On every ASCII input of at most 65536 bytes without a
newline and without a final carriage return, under any schedule of the
counters, `wc` returns a record whose `longest` field is the length of that
single line in code points. -/
theorem wc_longest_single_line (sched : List Bool) (cps : List Nat)
    (hascii : ∀ c ∈ cps, c < 0x80) (hnl : 0x0A ∉ cps) (hcr : cps.getLast? ≠ some 0x0D)
    (hlen : cps.length ≤ maxScanTokenSize) :
    ∃ r, wc sched (utf8EncodeAll cps) = some r ∧ r.longest = cps.length := by
  have hv : ∀ c ∈ cps, isScalar c := fun c hc => Or.inl (by have := hascii c hc; omega)
  obtain ⟨henc, hmap⟩ := utf8EncodeAll_ascii cps hascii
  obtain ⟨r, h⟩ := Option.isSome_iff_exists.mp
    (wc_isSome_of_length_le sched (utf8EncodeAll cps) (by rw [henc]; exact hlen))
  refine ⟨r, h, ?_⟩
  have hrunes := scan_runes_utf8 cps hv
  rw [wc_longest_eq h, hrunes]
  rw [henc] at *
  have hsep : ([0x0A] : List Nat) ∉ cps.map utf8Encode := by
    rw [hmap]
    intro e
    obtain ⟨c, hc, he⟩ := List.mem_map.mp e
    simp only [List.cons.injEq, and_true] at he
    exact hnl (he ▸ hc)
  simp only [segments_last hsep, List.map_cons, List.map_nil, List.length_map]
  apply interleave_start_first_max
  · intro x hx
    rcases scan_lines_single cps hnl with e | e
    · rw [e] at hx; cases hx
    · rw [e, dropCR_eq_self hcr] at hx
      simp only [List.map_cons, List.map_nil, List.mem_singleton] at hx
      omega
  · intro x hx
    simp only [List.mem_singleton] at hx
    omega
  · rcases scan_lines_single cps hnl with e | e
    · left; rw [e]; rfl
    · right; rw [e, dropCR_eq_self hcr]; rfl
  · right; rfl
  · right; simp

/-- Witness of the amended C9 on the two letters `wc`. -/
theorem wc_longest_single_line_witness :
    ∃ r, wc [true, false] (utf8EncodeAll [0x77, 0x63]) = some r ∧
      r.longest = [0x77, 0x63].length :=
  wc_longest_single_line [true, false] [0x77, 0x63] (by decide) (by decide) (by decide)
    (by decide)

/-! ## C10 -/

/-- C10. Whenever `wc` returns a record, under any schedule of the counters,
its `longest` field is at most the length in bytes of the longest line of the
input. -/
theorem wc_longest_le (sched : List Bool) (s : List Nat) (r : count)
    (h : wc sched s = some r) : r.longest ≤ longestLineBytes s := by
  rw [wc_eq_some h]
  apply interleave_le
  · exact Nat.zero_le _
  · intro v hv; cases hv
  · intro x hx
    simp only [countWithSplitFunc, if_true] at hx
    obtain ⟨tok, htok, rfl⟩ := List.mem_map.mp hx
    exact scan_lines_token_le s tok htok
  · intro v hv; cases hv
  · intro x hx
    exact scan_runes_update_le s x hx

/-- Witness of C10 on `ab\ncde`. -/
theorem wc_longest_le_witness :
    wc [] [97, 98, 10, 99, 100, 101] = some ⟨6, 2, 6, 2, 3⟩ ∧
      (⟨6, 2, 6, 2, 3⟩ : count).longest ≤ longestLineBytes [97, 98, 10, 99, 100, 101] :=
  ⟨by decide, wc_longest_le [] [97, 98, 10, 99, 100, 101] ⟨6, 2, 6, 2, 3⟩ (by decide)⟩

/-! ## C11 -/

/-- C11. After the file loop of `main` has gone through any sequence of
results, `totals` holds the sums of their `bytes`, `lines`, `words` and
`chars` fields and the largest of their `longest` fields; files of 3 and 5
lines give a total of 8 lines. -/
theorem mainTotals_sums (results : List count) :
    (mainTotals results).bytes = (results.map count.bytes).sum ∧
    (mainTotals results).lines = (results.map count.lines).sum ∧
    (mainTotals results).words = (results.map count.words).sum ∧
    (mainTotals results).chars = (results.map count.chars).sum ∧
    (mainTotals results).longest = maxOf (results.map count.longest) ∧
    ∀ b1 c1 w1 l1 b2 c2 w2 l2 : Nat,
      (mainTotals [⟨b1, 3, c1, w1, l1⟩, ⟨b2, 5, c2, w2, l2⟩]).lines = 8 ∧
        (mainTotals [⟨b1, 3, c1, w1, l1⟩, ⟨b2, 5, c2, w2, l2⟩]).longest = max l1 l2 := by
  obtain ⟨h1, h2, h3, h4, h5⟩ := foldl_addResult results ⟨0, 0, 0, 0, 0⟩
  refine ⟨by simpa using h1, by simpa using h2, by simpa using h3, by simpa using h4,
    by simpa using h5, ?_⟩
  intro b1 c1 w1 l1 b2 c2 w2 l2
  constructor <;> simp [mainTotals, addResult]

/-! ## C12 -/

/-- C12. The row that `display` writes is, in the order lines, words,
bytes or chars, longest, the width-8 right-aligned decimal rendering of the
enabled fields and no other, then a space, the name and a newline; `chars` is
rendered only when `showChars` is set and `showBytes` is not. -/
theorem display_row (counts : count) (f : flags) (fileName : List Nat) :
    display counts f fileName
      = ((rowFields counts f).map printf8d).flatten ++ [0x20] ++ fileName ++ [0x0A] ∧
    ∀ n, 8 ≤ (printf8d n).length ∧ (printf8d n).drop ((printf8d n).length - (decimal n).length)
      = decimal n ∧ ∀ b ∈ (printf8d n).take ((printf8d n).length - (decimal n).length),
        b = 0x20 := by
  constructor
  · obtain ⟨b1, b2, b3, b4, b5⟩ := f
    cases b1 <;> cases b2 <;> cases b3 <;> cases b4 <;> cases b5 <;>
      simp [display, rowFields]
  · intro n
    have hl : (printf8d n).length - (decimal n).length = 8 - (decimal n).length := by
      simp only [printf8d, List.length_append, List.length_replicate]
      omega
    rw [hl]
    refine ⟨?_, ?_, ?_⟩
    · simp only [printf8d, List.length_append, List.length_replicate]
      omega
    · simp [printf8d, List.drop_append_eq_append_drop]
    · intro b hb
      simp only [printf8d] at hb
      rw [List.take_append_eq_append_take] at hb
      simp only [List.length_replicate, Nat.sub_self, List.take_zero, List.append_nil] at hb
      exact List.eq_of_mem_replicate (List.mem_of_mem_take hb)

/-! ## C13 -/

/-- C13. When the arguments are flags of a single character each, at least
one of them `-c` or `-m`, the flag selection that `main` builds has exactly
one of `showBytes` and `showChars` set: `showBytes` when the last of the
flags `-c` and `-m` is `-c`, `showChars` when it is `-m`.  `main` builds a
selection when every flag is one of `-l`, `-w`, `-c`, `-m` and `-L`; on
another flag `flag.Parse` ends the process. -/
theorem mainFlags_last_wins (cs : List Nat) (stdinCharDevice : Bool)
    (hs : ∀ c ∈ cs, isScalar c) (hcm : 0x63 ∈ cs ∨ 0x6D ∈ cs) :
    ((∀ c ∈ cs, c = 0x6C ∨ c = 0x77 ∨ c = 0x63 ∨ c = 0x6D ∨ c = 0x4C) →
      (mainFlags (cs.map flagArg) stdinCharDevice).isSome = true) ∧
    ∀ f, mainFlags (cs.map flagArg) stdinCharDevice = some f →
      (lastCM cs = some 0x63 ∧ f.showBytes = true ∧ f.showChars = false) ∨
        (lastCM cs = some 0x6D ∧ f.showBytes = false ∧ f.showChars = true) := by
  refine ⟨mainFlags_defined cs stdinCharDevice, ?_⟩
  intro f h
  have hne : cs.isEmpty = false := by
    cases cs with
    | nil => simp at hcm
    | cons _ _ => rfl
  simp only [mainFlags, manuallyParseArgs, splitArgs_flagArgs cs hs, List.append_nil, hne,
    Bool.not_false] at h
  cases hp : flagParse (cs.map flagArg) defaultFlags with
  | none => rw [hp] at h; cases h
  | some v =>
    rw [hp] at h
    simp only [if_true, Option.some.injEq] at h
    subst h
    obtain ⟨r1, r2⟩ := resetFlags_flagArgs cs
      { v with showLines := false, showWords := false, showBytes := false }
    rcases lastCM_of_mem hcm with e | e
    · left
      rw [e] at r1 r2
      exact ⟨e, by simpa using r1, by simpa using r2⟩
    · right
      rw [e] at r1 r2
      exact ⟨e, by simpa using r1, by simpa using r2⟩

/-- Witness of C13 on the arguments `-m -l -c`. -/
theorem mainFlags_last_wins_witness :
    mainFlags ([0x6D, 0x6C, 0x63].map flagArg) true = some ⟨true, true, false, false, false⟩ ∧
      ((lastCM [0x6D, 0x6C, 0x63] = some 0x63 ∧
          (⟨true, true, false, false, false⟩ : flags).showBytes = true ∧
          (⟨true, true, false, false, false⟩ : flags).showChars = false) ∨
        (lastCM [0x6D, 0x6C, 0x63] = some 0x6D ∧
          (⟨true, true, false, false, false⟩ : flags).showBytes = false ∧
          (⟨true, true, false, false, false⟩ : flags).showChars = true)) :=
  ⟨by decide,
    (mainFlags_last_wins [0x6D, 0x6C, 0x63] true (by decide) (by decide)).2
      ⟨true, true, false, false, false⟩ (by decide)⟩

/-! ## C14 -/

/-- C14. `manuallyParseArgs` expands a bundle `-xy...` of flag characters
into the flag arguments `-x`, `-y`, ..., and does with it what it does with
these given one by one, so `main` builds the same flag selection; for the
arguments `-lw` that selection has `showLines` and `showWords` set and nothing
else, and `display` then writes the line and word counts only, whatever the
other counts are. -/
theorem mainFlags_bundle (pre post : List (List Nat)) (cs : List Nat) (stdinCharDevice : Bool)
    (hs : ∀ c ∈ cs, isScalar c) (hne : cs ≠ []) :
    (splitArgs [0x2D :: utf8EncodeAll cs]).2.1 = cs.map flagArg ∧
    (∀ vars, manuallyParseArgs (pre ++ [0x2D :: utf8EncodeAll cs] ++ post) stdinCharDevice vars
      = manuallyParseArgs (pre ++ cs.map flagArg ++ post) stdinCharDevice vars) ∧
    mainFlags (pre ++ [0x2D :: utf8EncodeAll cs] ++ post) stdinCharDevice
      = mainFlags (pre ++ cs.map flagArg ++ post) stdinCharDevice ∧
    mainFlags [[0x2D, 0x6C, 0x77]] stdinCharDevice
      = some { showLines := true, showWords := true, showBytes := false, showChars := false,
               showLongest := false } ∧
    ∀ (counts : count) (fileName : List Nat),
      display counts { showLines := true, showWords := true, showBytes := false,
                       showChars := false, showLongest := false } fileName
        = printf8d counts.lines ++ printf8d counts.words ++ [0x20] ++ fileName ++ [0x0A] := by
  have hb := splitArgs_bundle cs hs hne
  have hsep : splitArgs (cs.map flagArg) = (true, cs.map flagArg, []) := by
    rw [splitArgs_flagArgs cs hs]
    cases cs with
    | nil => exact absurd rfl hne
    | cons _ _ => rfl
  have hsplit : splitArgs (pre ++ [0x2D :: utf8EncodeAll cs] ++ post)
      = splitArgs (pre ++ cs.map flagArg ++ post) := by
    simp only [splitArgs_append, hb, hsep]
  refine ⟨by rw [hb], ?_, ?_, ?_, ?_⟩
  · intro vars
    simp only [manuallyParseArgs, hsplit]
  · simp only [mainFlags, manuallyParseArgs, hsplit]
  · cases stdinCharDevice <;> decide
  · intro counts fileName
    simp [display]

/-- Witness of C14 on the arguments `-lw a.txt`. -/
theorem mainFlags_bundle_witness :
    mainFlags ([] ++ [0x2D :: utf8EncodeAll [0x6C, 0x77]] ++ [[0x61, 0x2E, 0x74, 0x78, 0x74]]) true
      = mainFlags ([] ++ [0x6C, 0x77].map flagArg ++ [[0x61, 0x2E, 0x74, 0x78, 0x74]]) true :=
  (mainFlags_bundle [] [[0x61, 0x2E, 0x74, 0x78, 0x74]] [0x6C, 0x77] true (by decide)
    (by decide)).2.2.1

/-! ## C15 -/

/-- C15. When no argument of the command line is a flag, none of more than
one byte starts with `-`, the flag selection of `main` is lines, words and
bytes: `showLines`, `showWords` and `showBytes` are true, `showChars` and
`showLongest` false. -/
theorem mainFlags_default (args : List (List Nat)) (stdinCharDevice : Bool)
    (h : ∀ arg ∈ args, ¬ (hasDashPrefix arg = true ∧ 1 < arg.length)) :
    mainFlags args stdinCharDevice
      = some { showLines := true, showWords := true, showBytes := true, showChars := false,
               showLongest := false } := by
  simp only [mainFlags, manuallyParseArgs, splitArgs_files args h, List.nil_append,
    flagParse_files args defaultFlags h]
  rfl

/-- Witness of C15 on the arguments `a.txt` and `-`. -/
theorem mainFlags_default_witness :
    mainFlags [[0x61, 0x2E, 0x74, 0x78, 0x74], [0x2D]] true
      = some { showLines := true, showWords := true, showBytes := true, showChars := false,
               showLongest := false } :=
  mainFlags_default [[0x61, 0x2E, 0x74, 0x78, 0x74], [0x2D]] true (by decide)

/-! ## C16 -/

/-- C16. A counter reports the number of tokens its scanner returned, whether
the scan ended at the end of the stream or on an error, a read error of the
stream or `ErrTooLong` of the scanner: `countWithSplitFunc` stores that number
and `countRunesAndLonestLine` leaves that number of code points; the scan has
failed exactly on a read error or an over-long token. -/
theorem counters_keep_count (reader : List Nat) (readErr : Bool) (splitfunc : SplitFunc)
    (result2 : Bool) :
    (countWithSplitFuncErr reader readErr splitfunc result2).result
      = (scan splitfunc reader).tokens.length ∧
    (countWithSplitFuncErr reader readErr splitfunc result2).failed
      = ((scan splitfunc reader).tooLong || readErr) ∧
    (countRunesAndLonestLineErr reader readErr).result = (scan ScanRunes reader).tokens.length ∧
    (countRunesAndLonestLineErr reader readErr).failed
      = ((scan ScanRunes reader).tooLong || readErr) := by
  refine ⟨rfl, rfl, ?_, rfl⟩
  simp [countRunesAndLonestLineErr, countRunesAndLonestLine, runeLoop_result]

/-! ## C17 -/

/-- C17, failing input. On 65537 bytes `a` the line counter stops with
`ErrTooLong` after 65536 bytes and leaves one byte unread in its pipe: the
write of that byte never ends, no counter sees the end of its stream, and
`wc` does not return, under any schedule. -/
theorem wc_blocked (sched : List Bool) : wc sched (List.replicate 65537 97) = none :=
  wc_replicate_none sched 65537 (by decide)

/-! ## C18 -/

/-- C18, failing input. On `€\n` both the line counter, with the operand 3,
and the rune counter, with the operands 1 and 0, update `longest`: it has two
writers.  When the line counter loads it, the rune counter loads it, the line
counter stores 3 and the rune counter then stores 1, `wc` returns
`longest = 1`, where the larger of the two measurements is 3. -/
theorem wc_longest_two_writers :
    (countWithSplitFunc [0xE2, 0x82, 0xAC, 0x0A] ScanLines true).updates = [3] ∧
      (countRunesAndLonestLine [0xE2, 0x82, 0xAC, 0x0A]).updates = [1, 0] ∧
      wc [true, false, true, false] [0xE2, 0x82, 0xAC, 0x0A] = some ⟨4, 1, 2, 1, 1⟩ ∧
      max (lineLongest [0xE2, 0x82, 0xAC, 0x0A]) (runeLongest [0xE2, 0x82, 0xAC, 0x0A]) = 3 := by
  refine ⟨by decide, by decide, by decide, by decide⟩

/-! ## C19 -/

/-- C19, counterexample. On the ASCII input `a\r\n` the line counter, whose
token is the line less its carriage return, measures 1 and the rune counter
measures 2; and on `é`, which is valid UTF-8, the line counter measures 2
bytes and the rune counter 1 code point. -/
theorem longest_measurements_counterexample :
    (∀ b ∈ [0x61, 0x0D, 0x0A], b < 0x80) ∧
      lineLongest [0x61, 0x0D, 0x0A] = 1 ∧ runeLongest [0x61, 0x0D, 0x0A] = 2 ∧
      [0xC3, 0xA9] = utf8EncodeAll [0xE9] ∧ isScalar 0xE9 ∧
      lineLongest [0xC3, 0xA9] = 2 ∧ runeLongest [0xC3, 0xA9] = 1 := by
  refine ⟨by decide, by decide, by decide, by decide, by decide, by decide, by decide⟩

/-- C19, amended. For every input of ASCII bytes in which every line is
shorter than 65536 bytes and no line ends with a carriage return, the
longest-line length measured by the line counter equals the one measured by
the rune counter: both are the length in bytes of the longest line. -/
theorem longest_measurements_agree (s : List Nat) (hascii : ∀ b ∈ s, b < 0x80)
    (hs : ∀ l ∈ segments 0x0A s, l.length < maxScanTokenSize ∧ l.getLast? ≠ some 0x0D) :
    lineLongest s = runeLongest s ∧ runeLongest s = longestLineBytes s := by
  rw [lineLongest_eq s hs, runeLongest_ascii s hascii]
  exact ⟨rfl, rfl⟩

theorem longest_measurements_agree_witness :
    lineLongest [0x61, 0x62, 0x0A, 0x63] = runeLongest [0x61, 0x62, 0x0A, 0x63] ∧
      runeLongest [0x61, 0x62, 0x0A, 0x63] = longestLineBytes [0x61, 0x62, 0x0A, 0x63] :=
  longest_measurements_agree [0x61, 0x62, 0x0A, 0x63] (by decide) (by decide)

/-! ## C20 -/

/-- C20, failing input. With `a` the line `é\n` and `b` the text `x`, run one
after the other the counters give `wc a` the longest line 2 and `wc b` the
longest line 1; on `a ++ b`, when the line counter loads `longest`, the rune
counter loads it, the line counter stores 2 and the rune counter then stores
1, `wc` returns `longest = 1`, not `max 2 1`.  And with `a` the line `\n` and
`b` the text `é`, under that same schedule `wc a` has the longest line 0,
`wc b` the longest line 1 and `wc (a ++ b)` the longest line 2. -/
theorem wc_append_race :
    [0xC3, 0xA9, 0x0A].getLast? = some 0x0A ∧
      wc [] [0xC3, 0xA9, 0x0A] = some ⟨3, 1, 2, 1, 2⟩ ∧
      wc [] [0x78] = some ⟨1, 1, 1, 1, 1⟩ ∧
      wc [true, false, true, false] ([0xC3, 0xA9, 0x0A] ++ [0x78]) = some ⟨4, 2, 3, 2, 1⟩ ∧
      wc [true, false, true, false] [0x0A] = some ⟨1, 1, 1, 0, 0⟩ ∧
      wc [true, false, true, false] [0xC3, 0xA9] = some ⟨2, 1, 1, 1, 1⟩ ∧
      wc [true, false, true, false] ([0x0A] ++ [0xC3, 0xA9]) = some ⟨3, 2, 2, 1, 2⟩ := by
  refine ⟨by decide, by decide, by decide, by decide, by decide, by decide, by decide⟩

end Gowc
